import Mathlib

/-
  Verification of the labyrinth pathfinder (src/solver.py).

  The solver represents a labyrinth as a 2D integer matrix
  (0 = wall, 1 = empty, 2 = start, 3 = finish), propagates two signed
  distance fronts (+1 from the start, -1 from the finish) simultaneously
  until they meet, and then reconstructs a shortest path by two greedy
  walks over the finished distance field.

  Embedding conventions:
  * numpy 2D int64 arrays become `List (List ℤ)`; reading outside the
    array yields 0, matching the zero padding that the shift functions
    (`shift_up` / `shift_down` / `shift_left` / `shift_right`) produce.
  * `np.iinfo(np.int64).max/min` become the literal integers `IMAX`/`IMIN`.
  * the float `min_dist = (|Δrow| + |Δcol| - 1) / 2` is represented
    exactly by twice its value, the integer `|Δrow| + |Δcol| - 1`
    (float64 arithmetic is exact at these magnitudes, so
    `min_dist = mdTwice / 2` exactly, and the loop's only use of it,
    `step >= min_dist`, is exactly `mdTwice ≤ 2 * step`).
  * Python's unbounded `while` loops become fuel-indexed recursion; fuel
    exhaustion is the explicit outcome `diverged` and is proved
    unreachable where claims need it.
  * `sys.exit()` on a bad start/finish count becomes the `invalid` result.
  * the module-level mutable globals `states` and `walls` become an
    explicit `Globals` value threaded in and out of `find_shortest_path`.
  * `time.time_ns()` readings are dropped: they do not influence control
    flow or any returned path.
-/

abbrev Cell := ℕ × ℕ

abbrev Mat := List (List ℤ)

/-- Read entry `(i, j)` of a matrix; out-of-range reads give `0`,
matching the zero padding of the numpy shift functions. -/
def g2 (st : Mat) (i j : ℕ) : ℤ := (st.getD i []).getD j 0

/-- Build an `R × C` matrix from an entry function. -/
def matOf (R C : ℕ) (f : ℕ → ℕ → ℤ) : Mat :=
  (List.range R).map fun i => (List.range C).map fun j => f i j

/-- Number of rows (`shape[0]`). -/
def rowsOf (g : Mat) : ℕ := g.length

/-- Number of columns (`shape[1]`); numpy arrays are rectangular. -/
def colsOf (g : Mat) : ℕ := (g.getD 0 []).length

/-- Rectangularity: every row has length `colsOf g`.  numpy guarantees
this for every array the solver can receive. -/
def Rect (g : Mat) : Prop := ∀ r ∈ g, r.length = colsOf g

instance (g : Mat) : Decidable (Rect g) := by unfold Rect; infer_instance

/-- All in-range index pairs in row-major order (the order used by
`np.argwhere`). -/
def cellsIdx (R C : ℕ) : List Cell :=
  ((List.range R).map fun i => (List.range C).map fun j => (i, j)).flatten

/-- `np.int64` maximum, used by the solver as a "no positive neighbour"
sentinel. -/
def IMAX : ℤ := 9223372036854775807

/-- `np.int64` minimum, used by the solver as a "no negative neighbour"
sentinel. -/
def IMIN : ℤ := -9223372036854775808

/-- Number of cells of `g` holding value `v` (`len(np.argwhere(g == v))`). -/
def countV (g : Mat) (v : ℤ) : ℕ :=
  ((cellsIdx (rowsOf g) (colsOf g)).filter fun c => g2 g c.1 c.2 = v).length

/-- First cell of `g` holding value `v` in row-major order
(`np.argwhere(g == v)[0]`). -/
def firstV (g : Mat) (v : ℤ) : Option Cell :=
  (cellsIdx (rowsOf g) (colsOf g)).find? fun c => g2 g c.1 c.2 = v

/-- `wall_mask`: 0 on walls (map value 0), 1 elsewhere. -/
def wallMask (g : Mat) : Mat :=
  matOf (rowsOf g) (colsOf g) fun i j => if g2 g i j = 0 then 0 else 1

/-- `initial_state`: +1 at the start, -1 at the finish, 0 elsewhere.
The Python code writes the start first and the finish second, so the
finish value wins on (impossible) overlap; the order is preserved. -/
def initSt (g : Mat) (s f : Cell) : Mat :=
  matOf (rowsOf g) (colsOf g) fun i j =>
    if (i, j) = f then -1 else if (i, j) = s then 1 else 0

/-- `initialize(labyrinth_map)`: returns `(wall_mask, initial_state,
mdTwice)`, or `none` when the count of start (2) or finish (3) cells is
not exactly one (the Python code prints an error and calls
`sys.exit()`).  The third component is twice the float `min_dist`:
`min_dist = (|Δrow| + |Δcol| - 1) / 2` exactly (float64 arithmetic is
exact here), and we carry the integer `|Δrow| + |Δcol| - 1` so that the
embedding stays kernel-computable. -/
def initializeLab (g : Mat) : Option (Mat × Mat × ℤ) :=
  if countV g 2 = 1 ∧ countV g 3 = 1 then
    match firstV g 2, firstV g 3 with
    | some s, some f =>
        some (wallMask g, initSt g s f,
          |(s.1 : ℤ) - f.1| + |(s.2 : ℤ) - f.2| - 1)
    | _, _ => none
  else none

/-- The four neighbour reads of cell `(i,j)` produced by the shift
functions, in numpy stack order `[up, down, left, right]`:
`up[i,j] = a[i+1,j]`, `down[i,j] = a[i-1,j]`, `left[i,j] = a[i,j+1]`,
`right[i,j] = a[i,j-1]`, with zero padding at the boundary. -/
def nbrReads (st : Mat) (i j : ℕ) : List ℤ :=
  [g2 st (i+1) j, if i = 0 then 0 else g2 st (i-1) j,
   g2 st i (j+1), if j = 0 then 0 else g2 st i (j-1)]

/-- `np.where(neighbors > 0, neighbors, INT_MAX).min(axis=0)`. -/
def posOf (l : List ℤ) : ℤ := (l.map fun v => if 0 < v then v else IMAX).foldr min IMAX

/-- `np.where(neighbors < 0, neighbors, INT_MIN).max(axis=0)`. -/
def negOf (l : List ℤ) : ℤ := (l.map fun v => if v < 0 then v else IMIN).foldr max IMIN

/-- `new_distances` before masking:
`np.where(pos != INT_MAX, pos + 1, np.where(neg != INT_MIN, neg - 1, 0))`. -/
def rawNew (st : Mat) (i j : ℕ) : ℤ :=
  if posOf (nbrReads st i j) ≠ IMAX then posOf (nbrReads st i j) + 1
  else if negOf (nbrReads st i j) ≠ IMIN then negOf (nbrReads st i j) - 1
  else 0

/-- `new_distances` after `*= np.where(state == 0, wall_mask, 0)`. -/
def deltaAt (mask st : Mat) (i j : ℕ) : ℤ :=
  rawNew st i j * (if g2 st i j = 0 then g2 mask i j else 0)

/-- One synchronous propagation step: `state += new_distances`. -/
def stepMat (R C : ℕ) (mask st : Mat) : Mat :=
  matOf R C fun i j => g2 st i j + deltaAt mask st i j

/-- Collision indicator at one cell:
`(up * state < 0) | (right * state < 0)`. -/
def collAtB (st : Mat) (i j : ℕ) : Bool :=
  decide (g2 st (i+1) j * g2 st i j < 0) ||
  decide ((if j = 0 then 0 else g2 st i (j-1)) * g2 st i j < 0)

/-- `np.argwhere(collision)`: colliding cells in row-major order. -/
def collCells (R C : ℕ) (st : Mat) : List Cell :=
  (cellsIdx R C).filter fun c => collAtB st c.1 c.2

/-- `collision.any()`. -/
def collAnyB (R C : ℕ) (st : Mat) : Bool :=
  (cellsIdx R C).any fun c => collAtB st c.1 c.2

/-- All entries of the state in row-major order. -/
def cellVals (R C : ℕ) (st : Mat) : List ℤ :=
  (cellsIdx R C).map fun c => g2 st c.1 c.2

/-- `np.where(state > 0, state, INT_MIN).max()`. -/
def maxPos (R C : ℕ) (st : Mat) : ℤ :=
  ((cellVals R C st).map fun v => if 0 < v then v else IMIN).foldr max IMIN

/-- `np.where(state < 0, state, INT_MAX).min()`. -/
def minNeg (R C : ℕ) (st : Mat) : ℤ :=
  ((cellVals R C st).map fun v => if v < 0 then v else IMAX).foldr min IMAX

/-- Outcome of the propagation loop, without the visualization trace. -/
inductive LoopCore where
  | collided (st : Mat) (meets : List Cell) (steps : ℕ)
  | stalled (steps : ℕ)
  | fuelOut
deriving Repr, DecidableEq

/-- The propagation loop of `find_shortest_path` (lines 155-192),
fuel-indexed.  `st` is the current state, `pmn`/`pmp` are
`prev_min_neg`/`prev_max_pos`, `step` is the step counter, `acc` is the
global `states` trace buffer (appended to only when `vis` is true).
`mdT` is twice `min_dist`, so the Python gate `step >= min_dist` is
exactly `mdT ≤ 2 * step`. -/
def loopGo (R C : ℕ) (mask : Mat) (mdT : ℤ) (vis : Bool) :
    ℕ → Mat → ℤ → ℤ → ℕ → List Mat → LoopCore × List Mat
  | 0, _, _, _, _, acc => (.fuelOut, acc)
  | fuel+1, st, pmn, pmp, step, acc =>
    if mdT ≤ 2 * (step : ℤ) ∧ collAnyB R C st = true then
      (.collided st (collCells R C st) step, acc)
    else
      let st' := stepMat R C mask st
      let acc' := if vis then acc ++ [st'] else acc
      let mp := maxPos R C st'
      let mn := minNeg R C st'
      if 1 < |mp + mn| ∨ (mn = pmn ∧ mp = pmp) then (.stalled (step+1), acc')
      else loopGo R C mask mdT vis fuel st' mn mp (step+1) acc'

/-- The neighbour candidate list of the reconstruction walks, in the
order the Python code builds it: `(x-1,y)` if `x ≥ 1`, `(x,y-1)` if
`y ≥ 1`, `(x+1,y)` if `x < R-1`, `(x,y+1)` if `y < C-1`. -/
def nbrList (R C : ℕ) (x y : ℕ) : List Cell :=
  (if 1 ≤ x then [(x-1, y)] else []) ++ (if 1 ≤ y then [(x, y-1)] else []) ++
  (if x < R - 1 then [(x+1, y)] else []) ++ (if y < C - 1 then [(x, y+1)] else [])

/-- One comparison of the `smallest` scan: keep the candidate when its
value is positive and strictly below the best so far (`none` plays the
role of the initial `np.inf`: every integer is below it). -/
def pickStepS (st : Mat) (best : Cell × Option ℤ) (p : Cell) : Cell × Option ℤ :=
  match best.2 with
  | none => if 0 < g2 st p.1 p.2 then (p, some (g2 st p.1 p.2)) else best
  | some b => if 0 < g2 st p.1 p.2 ∧ g2 st p.1 p.2 < b then
      (p, some (g2 st p.1 p.2)) else best

/-- The `smallest` accumulator scan, starting from `((0,0), np.inf)`. -/
def pickSmallest (st : Mat) (cand : List Cell) : Cell × Option ℤ :=
  cand.foldl (pickStepS st) ((0, 0), none)

/-- One comparison of the `largest` scan: keep the candidate when its
value is negative and strictly above the best so far. -/
def pickStepL (st : Mat) (best : Cell × ℤ) (p : Cell) : Cell × ℤ :=
  if g2 st p.1 p.2 < 0 ∧ best.2 < g2 st p.1 p.2 then (p, g2 st p.1 p.2) else best

/-- The `largest` accumulator scan, starting from `((0,0), -1000000000)`. -/
def pickLargest (st : Mat) (cand : List Cell) : Cell × ℤ :=
  cand.foldl (pickStepL st) ((0, 0), -1000000000)

/-- The meetpoint-to-start greedy walk (lines 207-221), fuel-indexed;
appends each visited cell to `acc`. -/
def walkS (R C : ℕ) (st : Mat) : ℕ → Cell → List Cell → Option (List Cell)
  | 0, _, _ => none
  | fuel+1, c, acc =>
    if g2 st c.1 c.2 = 1 then some acc
    else
      let p := (pickSmallest st (nbrList R C c.1 c.2)).1
      walkS R C st fuel p (acc ++ [p])

/-- The meetpoint-to-finish greedy walk (lines 226-240), fuel-indexed. -/
def walkF (R C : ℕ) (st : Mat) : ℕ → Cell → List Cell → Option (List Cell)
  | 0, _, _ => none
  | fuel+1, c, acc =>
    if g2 st c.1 c.2 = -1 then some acc
    else
      let p := (pickLargest st (nbrList R C c.1 c.2)).1
      walkF R C st fuel p (acc ++ [p])

/-- Path reconstruction (lines 199-241): walk from the meet point to the
start, reverse, then walk from the meet point to the finish appending to
the same list. -/
def reconstructPath (R C : ℕ) (st : Mat) (m : Cell) (fuel : ℕ) :
    Option (List Cell) :=
  match walkS R C st fuel m [m] with
  | none => none
  | some l1 => walkF R C st fuel m l1.reverse

/-- Result of one call of `find_shortest_path`, without the two
`time.time_ns()` readings (they influence nothing else). -/
inductive SolveRes where
  | ok (path : List Cell) (steps : ℕ)
  | noPath (steps : ℕ)
  | invalid
  | diverged
deriving Repr, DecidableEq

/-- The module-level mutable globals of solver.py: the `states` trace
buffer and the `walls` mask. -/
structure Globals where
  states : List Mat
  walls : Option Mat
deriving Repr

/-- Fuel budget used for the embedded loops; proved sufficient for every
grid that `initializeLab` accepts. -/
def fuelFor (g : Mat) : ℕ := rowsOf g * colsOf g + 3

/-- `find_shortest_path(labyrinth_map, visualize)` (lines 125-243).
Returns the result together with the final global state.  `ok p steps`
models `return path, _, _, step`; `noPath steps` models
`return None, _, 0, step`; `invalid` models the `sys.exit()` inside
`initialize`; `diverged` marks fuel exhaustion (a Python run that never
terminates). -/
def find_shortest_path (g : Mat) (vis : Bool) (glob : Globals) :
    SolveRes × Globals :=
  match initializeLab g with
  | none => (.invalid, glob)
  | some (mask, st0, mdT) =>
    let R := rowsOf g
    let C := colsOf g
    let states1 := glob.states ++ [st0]
    match loopGo R C mask mdT vis (fuelFor g) st0 0 0 1 states1 with
    | (.collided stF meets steps, acc) =>
      match meets.head? with
      | none => (.diverged, ⟨acc, some mask⟩)
      | some m =>
        match reconstructPath R C stF m (fuelFor g) with
        | none => (.diverged, ⟨acc, some mask⟩)
        | some p => (.ok p steps, ⟨acc, some mask⟩)
    | (.stalled steps, acc) => (.noPath steps, ⟨acc, some mask⟩)
    | (.fuelOut, acc) => (.diverged, ⟨acc, some mask⟩)

/-- Convenience entry point: a fresh solve with empty globals and no
visualization. -/
def solve (g : Mat) : SolveRes := (find_shortest_path g false ⟨[], none⟩).1

/-- Extract the length of the returned path, if a path was returned. -/
def pathLenOf : SolveRes → Option ℕ
  | .ok p _ => some p.length
  | _ => none

/-
  Spec-side graph model: 4-adjacency over non-wall cells, walks, and
  graph-theoretic shortest-path distance.  These definitions follow the
  wording of the specification ("4-adjacency through non-Wall cells"),
  independently of the solver's wavefront implementation.
-/

/-- 4-adjacency of two cells. -/
def adjC (a b : Cell) : Prop :=
  (a.1 = b.1 ∧ (a.2 = b.2 + 1 ∨ b.2 = a.2 + 1)) ∨
  (a.2 = b.2 ∧ (a.1 = b.1 + 1 ∨ b.1 = a.1 + 1))

instance (a b : Cell) : Decidable (adjC a b) := by unfold adjC; infer_instance

/-- A cell is passable when its map value is not 0 (out-of-range reads
give 0, so out-of-range cells count as walls). -/
def nonwall (g : Mat) (c : Cell) : Prop := g2 g c.1 c.2 ≠ 0

instance (g : Mat) (c : Cell) : Decidable (nonwall g c) := by
  unfold nonwall; infer_instance

/-- The at-most-four coordinate neighbours of a cell. -/
def nbrCand (b : Cell) : List Cell :=
  [(b.1 + 1, b.2), (b.1, b.2 + 1)] ++
  (if b.1 = 0 then [] else [(b.1 - 1, b.2)]) ++
  (if b.2 = 0 then [] else [(b.1, b.2 - 1)])

/-- `hasPathB g n a b`: there is a walk of exactly `n` steps from `a`
to `b` through non-wall cells. -/
def hasPathB (g : Mat) : ℕ → Cell → Cell → Bool
  | 0, a, b => decide (a = b) && decide (nonwall g b)
  | n+1, a, b => decide (nonwall g b) && (nbrCand b).any fun c => hasPathB g n a c

/-- Proposition form of `hasPathB`. -/
def HasPath (g : Mat) (n : ℕ) (a b : Cell) : Prop := hasPathB g n a b = true

instance (g : Mat) (n : ℕ) (a b : Cell) : Decidable (HasPath g n a b) := by
  unfold HasPath; infer_instance

/-- `IsDist g a b k`: `k` is the graph-theoretic shortest-path distance
from `a` to `b` over 4-adjacency through non-wall cells. -/
def IsDist (g : Mat) (a b : Cell) (k : ℕ) : Prop :=
  HasPath g k a b ∧ ∀ m, m < k → ¬HasPath g m a b

/-- Manhattan distance between two cells. -/
def manh (a b : Cell) : ℤ := |(a.1 : ℤ) - b.1| + |(a.2 : ℤ) - b.2|

instance (g : Mat) (a b : Cell) (k : ℕ) : Decidable (IsDist g a b k) := by
  unfold IsDist; infer_instance

/-- The states reached by repeated propagation steps from `st0`. -/
def stateAt (R C : ℕ) (mask st0 : Mat) : ℕ → Mat
  | 0 => st0
  | s+1 => stepMat R C mask (stateAt R C mask st0 s)

/-- The grid passes the start/finish validation of `initialize`. -/
def Accepted (g : Mat) : Prop := countV g 2 = 1 ∧ countV g 3 = 1

instance (g : Mat) : Decidable (Accepted g) := by unfold Accepted; infer_instance

/-- The start cell (`np.argwhere(labyrinth_map == 2)[0]`). -/
def startOf (g : Mat) : Cell := (firstV g 2).getD (0, 0)

/-- The finish cell (`np.argwhere(labyrinth_map == 3)[0]`). -/
def finishOf (g : Mat) : Cell := (firstV g 3).getD (0, 0)

/-- Twice the float `min_dist` computed by `initialize`. -/
def mdTOf (g : Mat) : ℤ :=
  |((startOf g).1 : ℤ) - (finishOf g).1| +
  |((startOf g).2 : ℤ) - (finishOf g).2| - 1

/-- The propagation state sequence of a solve of `g`. -/
def stA (g : Mat) : ℕ → Mat :=
  stateAt (rowsOf g) (colsOf g) (wallMask g)
    (initSt g (startOf g) (finishOf g))

/-- Start and finish are connected through non-wall cells. -/
def Connected (g : Mat) : Prop :=
  ∃ n, HasPath g n (startOf g) (finishOf g)

/-- A collision (two adjacent cells of opposite front signs) exists in
the state after `s` propagation steps. -/
def CollP (g : Mat) (s : ℕ) : Prop :=
  collAnyB (rowsOf g) (colsOf g) (stA g s) = true

instance (g : Mat) (s : ℕ) : Decidable (CollP g s) := by
  unfold CollP; infer_instance

/-- `max_pos` after `s` propagation steps. -/
def mpAt (g : Mat) (s : ℕ) : ℤ := maxPos (rowsOf g) (colsOf g) (stA g s)

/-- `min_neg` after `s` propagation steps. -/
def mnAt (g : Mat) (s : ℕ) : ℤ := minNeg (rowsOf g) (colsOf g) (stA g s)

/-- `prev_max_pos` on entry to loop iteration `s+1`. -/
def pmpAt (g : Mat) : ℕ → ℤ
  | 0 => 0
  | s+1 => mpAt g (s+1)

/-- `prev_min_neg` on entry to loop iteration `s+1`. -/
def pmnAt (g : Mat) : ℕ → ℤ
  | 0 => 0
  | s+1 => mnAt g (s+1)

/-- The stall test taken at the end of loop iteration `s` (comparing the
statistics of the state after `s` propagation steps with the previous
iteration's). -/
def StallP (g : Mat) (s : ℕ) : Prop :=
  1 < |mpAt g s + mnAt g s| ∨ (mnAt g s = pmnAt g (s-1) ∧ mpAt g s = pmpAt g (s-1))

instance (g : Mat) (s : ℕ) : Decidable (StallP g s) := by
  unfold StallP; infer_instance

/-- A strictly descending positive chain of `st`-values ending at value
`+1`; consecutive cells come from the reconstruction neighbour list. -/
def DescChain (R C : ℕ) (st : Mat) : List Cell → Prop
  | [] => True
  | [c] => g2 st c.1 c.2 = 1
  | c :: d :: t => d ∈ nbrList R C c.1 c.2 ∧
      g2 st d.1 d.2 = g2 st c.1 c.2 - 1 ∧ DescChain R C st (d :: t)

/-- A strictly ascending negative chain of `st`-values ending at value
`-1`. -/
def AscChain (R C : ℕ) (st : Mat) : List Cell → Prop
  | [] => True
  | [c] => g2 st c.1 c.2 = -1
  | c :: d :: t => d ∈ nbrList R C c.1 c.2 ∧
      g2 st d.1 d.2 = g2 st c.1 c.2 + 1 ∧ AscChain R C st (d :: t)

/-- One step of the meet-to-start walk: from a positive cell it moves to
a cell whose value is exactly one less; from a negative cell (only
possible at the meet point itself) it moves to a positive cell. -/
def DStep (st : Mat) (a b : Cell) : Prop :=
  (0 < g2 st a.1 a.2 → g2 st b.1 b.2 = g2 st a.1 a.2 - 1) ∧
  (g2 st a.1 a.2 < 0 → 0 < g2 st b.1 b.2)

/-- One step of the meet-to-finish walk: from a negative cell it moves
to a cell whose value is exactly one more; from a positive cell (only
possible at the meet point itself) it moves to a negative cell. -/
def UStep (st : Mat) (a b : Cell) : Prop :=
  (g2 st a.1 a.2 < 0 → g2 st b.1 b.2 = g2 st a.1 a.2 + 1) ∧
  (0 < g2 st a.1 a.2 → g2 st b.1 b.2 < 0)

/-- The exact description of the state after `s` propagation steps: a
cell holds `k+1` when its start-distance is `k ≤ s` and no smaller than
its finish-distance, `-(k+1)` when its finish-distance is `k ≤ s` and
strictly smaller than its start-distance, and `0` when neither front has
reached it within `s` steps. -/
def FormulaAt (g : Mat) (s : ℕ) : Prop :=
  (∀ (c : Cell) (k : ℕ), IsDist g (startOf g) c k → k ≤ s →
      (∀ j, IsDist g (finishOf g) c j → k ≤ j) →
      g2 (stA g s) c.1 c.2 = (k : ℤ) + 1) ∧
  (∀ (c : Cell) (k : ℕ), IsDist g (finishOf g) c k → k ≤ s →
      (∀ j, IsDist g (startOf g) c j → k < j) →
      g2 (stA g s) c.1 c.2 = -((k : ℤ) + 1)) ∧
  (∀ c : Cell,
      (∀ k, k ≤ s → ¬IsDist g (startOf g) c k ∧ ¬IsDist g (finishOf g) c k) →
      g2 (stA g s) c.1 c.2 = 0)

/-- Size bound under which the int64 sentinels (`INT_MAX`, `INT_MIN`,
`-1000000000`) provably never clash with genuine field values: for such
grids the embedding's arithmetic matches the int64 arithmetic of the
program exactly. -/
def SmallGrid (g : Mat) : Prop := rowsOf g * colsOf g + 3 ≤ 1000000000

instance (g : Mat) : Decidable (SmallGrid g) := by
  unfold SmallGrid; infer_instance

/-- Full specification of the reconstruction phase run on the state
after `s` propagation steps from meet point `m`, for a grid whose
start-finish distance is `D`: the two greedy walks succeed, the
assembled path has length `D+1`, runs from the start to the finish over
adjacent non-wall cells without revisiting any cell, each walk follows
its step discipline (`DStep`/`UStep`), and every non-terminal cell
visited by a walk has a suitable signed neighbour (so the `(0,0)`
fallback of the `smallest`/`largest` scans is never taken). -/
def ReconOut (g : Mat) (s D : ℕ) (m : Cell) : Prop :=
  ∃ l1 l2 : List Cell,
    walkS (rowsOf g) (colsOf g) (stA g s) (fuelFor g) m [m] = some (m :: l1) ∧
    walkF (rowsOf g) (colsOf g) (stA g s) (fuelFor g) m (m :: l1).reverse =
      some ((m :: l1).reverse ++ l2) ∧
    ((m :: l1).reverse ++ l2).length = D + 1 ∧
    ((m :: l1).reverse ++ l2).head? = some (startOf g) ∧
    ((m :: l1).reverse ++ l2).getLast? = some (finishOf g) ∧
    List.Chain' adjC ((m :: l1).reverse ++ l2) ∧
    (∀ c ∈ (m :: l1).reverse ++ l2, nonwall g c) ∧
    ((m :: l1).reverse ++ l2).Nodup ∧
    List.Chain' (DStep (stA g s)) (m :: l1) ∧
    List.Chain' (UStep (stA g s)) (m :: l2) ∧
    (∀ c ∈ m :: l1, g2 (stA g s) c.1 c.2 ≠ 1 →
      ∃ d ∈ nbrList (rowsOf g) (colsOf g) c.1 c.2,
        0 < g2 (stA g s) d.1 d.2) ∧
    (∀ c ∈ m :: l2, g2 (stA g s) c.1 c.2 ≠ -1 →
      ∃ d ∈ nbrList (rowsOf g) (colsOf g) c.1 c.2,
        g2 (stA g s) d.1 d.2 < 0 ∧ -1000000000 < g2 (stA g s) d.1 d.2)

/-- The 5×5 scenario grid of the specification. -/
def scenarioGrid : Mat :=
  [[0,2,1,0,0],[0,1,0,1,0],[1,1,1,1,1],[1,1,1,0,1],[1,1,1,3,1]]

/-- A 1×2 grid with adjacent start and finish. -/
def gPair : Mat := [[2, 3]]

/-- A 2×1 grid with the finish above the start. -/
def gVert : Mat := [[3], [2]]

/-- A 1×5 open corridor; start-to-finish Manhattan distance 4. -/
def gRow : Mat := [[2, 1, 1, 1, 3]]

/-- A disconnected 1×3 grid. -/
def gCut : Mat := [[2, 0, 3]]

/-- A grid with two start cells. -/
def gTwoStarts : Mat := [[2, 2, 3]]

lemma adjC_symm {a b : Cell} (h : adjC a b) : adjC b a := by
  unfold adjC at h ⊢; tauto

lemma mem_nbrCand {c b : Cell} : c ∈ nbrCand b ↔ adjC c b := by
  unfold nbrCand adjC
  rcases c with ⟨c1, c2⟩; rcases b with ⟨b1, b2⟩
  by_cases h1 : b1 = 0 <;> by_cases h2 : b2 = 0 <;>
    simp [h1, h2, List.mem_append, Prod.ext_iff] <;> omega

lemma hp_zero {g : Mat} {a b : Cell} :
    HasPath g 0 a b ↔ a = b ∧ nonwall g b := by
  simp [HasPath, hasPathB]

lemma hp_succ {g : Mat} {n : ℕ} {a b : Cell} :
    HasPath g (n+1) a b ↔ nonwall g b ∧ ∃ c, adjC c b ∧ HasPath g n a c := by
  simp only [HasPath, hasPathB, Bool.and_eq_true, decide_eq_true_eq,
    List.any_eq_true]
  constructor
  · rintro ⟨hw, c, hc, hp⟩
    exact ⟨hw, c, mem_nbrCand.mp hc, hp⟩
  · rintro ⟨hw, c, hc, hp⟩
    exact ⟨hw, c, mem_nbrCand.mpr hc, hp⟩

lemma hp_nonwall_tgt {g : Mat} {n : ℕ} {a b : Cell} (h : HasPath g n a b) :
    nonwall g b := by
  cases n with
  | zero => exact (hp_zero.mp h).2
  | succ n => exact (hp_succ.mp h).1

lemma hp_nonwall_src {g : Mat} {n : ℕ} {a b : Cell} (h : HasPath g n a b) :
    nonwall g a := by
  induction n generalizing b with
  | zero => obtain ⟨rfl, hw⟩ := hp_zero.mp h; exact hw
  | succ n ih =>
    obtain ⟨_, c, _, hp⟩ := hp_succ.mp h
    exact ih hp

lemma hp_extend {g : Mat} {n : ℕ} {a b c : Cell} (h : HasPath g n a b)
    (hadj : adjC b c) (hw : nonwall g c) : HasPath g (n+1) a c :=
  hp_succ.mpr ⟨hw, b, hadj, h⟩

lemma hp_self {g : Mat} {a : Cell} (hw : nonwall g a) : HasPath g 0 a a :=
  hp_zero.mpr ⟨rfl, hw⟩

lemma hp_trans {g : Mat} {m n : ℕ} {a b c : Cell} (h1 : HasPath g m a b)
    (h2 : HasPath g n b c) : HasPath g (m+n) a c := by
  induction n generalizing c with
  | zero => obtain ⟨rfl, _⟩ := hp_zero.mp h2; exact h1
  | succ n ih =>
    obtain ⟨hw, d, hadj, hp⟩ := hp_succ.mp h2
    exact hp_extend (ih hp) hadj hw

lemma hp_cons {g : Mat} {n : ℕ} {a b c : Cell} (hadj : adjC a b)
    (hw : nonwall g a) (h : HasPath g n b c) : HasPath g (n+1) a c := by
  induction n generalizing c with
  | zero =>
    obtain ⟨rfl, hwb⟩ := hp_zero.mp h
    exact hp_succ.mpr ⟨hwb, a, hadj, hp_self hw⟩
  | succ n ih =>
    obtain ⟨hwc, d, hadjd, hp⟩ := hp_succ.mp h
    exact hp_extend (ih hp) hadjd hwc

lemma hp_symm {g : Mat} {n : ℕ} {a b : Cell} (h : HasPath g n a b) :
    HasPath g n b a := by
  induction n generalizing b with
  | zero => obtain ⟨rfl, hw⟩ := hp_zero.mp h; exact hp_self hw
  | succ n ih =>
    obtain ⟨hwb, c, hadj, hp⟩ := hp_succ.mp h
    exact hp_cons (adjC_symm hadj) hwb (ih hp)

lemma abs_succ_cases (p q : ℤ) :
    |p - (q+1)| = |p - q| + 1 ∨ |p - q| = |p - (q+1)| + 1 := by
  rcases le_or_lt p q with h | h
  · left
    rw [abs_of_nonpos (by omega), abs_of_nonpos (by omega)]
    omega
  · right
    rw [abs_of_nonneg (by omega), abs_of_nonneg (by omega)]
    omega

lemma adjC_manh {a b : Cell} (h : adjC a b) (x : Cell) :
    manh x a = manh x b + 1 ∨ manh x b = manh x a + 1 := by
  unfold manh
  rcases h with ⟨h1, h2 | h2⟩ | ⟨h1, h2 | h2⟩
  · have h1' : (a.1 : ℤ) = b.1 := by exact_mod_cast h1
    have h2' : (a.2 : ℤ) = b.2 + 1 := by exact_mod_cast h2
    rw [h1', h2']
    rcases abs_succ_cases (x.2 : ℤ) b.2 with h | h <;> omega
  · have h1' : (a.1 : ℤ) = b.1 := by exact_mod_cast h1
    have h2' : (b.2 : ℤ) = a.2 + 1 := by exact_mod_cast h2
    rw [h1', h2']
    rcases abs_succ_cases (x.2 : ℤ) a.2 with h | h <;> omega
  · have h1' : (a.2 : ℤ) = b.2 := by exact_mod_cast h1
    have h2' : (a.1 : ℤ) = b.1 + 1 := by exact_mod_cast h2
    rw [h1', h2']
    rcases abs_succ_cases (x.1 : ℤ) b.1 with h | h <;> omega
  · have h1' : (a.2 : ℤ) = b.2 := by exact_mod_cast h1
    have h2' : (b.1 : ℤ) = a.1 + 1 := by exact_mod_cast h2
    rw [h1', h2']
    rcases abs_succ_cases (x.1 : ℤ) a.1 with h | h <;> omega

lemma manh_self (a : Cell) : manh a a = 0 := by simp [manh]

lemma manh_nonneg (a b : Cell) : 0 ≤ manh a b := by
  unfold manh; positivity

lemma hp_manh_le {g : Mat} {n : ℕ} {a b : Cell} (h : HasPath g n a b) :
    manh a b ≤ n := by
  induction n generalizing b with
  | zero => obtain ⟨rfl, _⟩ := hp_zero.mp h; simp [manh_self]
  | succ n ih =>
    obtain ⟨_, c, hadj, hp⟩ := hp_succ.mp h
    have := ih hp
    rcases adjC_manh (adjC_symm hadj) a with h' | h' <;> push_cast <;> omega

lemma hp_parity {g : Mat} {n : ℕ} {a b : Cell} (h : HasPath g n a b) :
    Even ((n : ℤ) - manh a b) := by
  induction n generalizing b with
  | zero =>
    obtain ⟨rfl, _⟩ := hp_zero.mp h
    simp [manh_self]
  | succ n ih =>
    obtain ⟨_, c, hadj, hp⟩ := hp_succ.mp h
    obtain ⟨k, hk⟩ := ih hp
    rcases adjC_manh (adjC_symm hadj) a with h' | h'
    · exact ⟨k, by push_cast; omega⟩
    · exact ⟨k + 1, by push_cast; omega⟩

lemma isDist_unique {g : Mat} {a b : Cell} {k k' : ℕ} (h : IsDist g a b k)
    (h' : IsDist g a b k') : k = k' := by
  by_contra hne
  rcases Nat.lt_or_ge k k' with hlt | hge
  · exact h'.2 k hlt h.1
  · exact h.2 k' (lt_of_le_of_ne hge (Ne.symm hne)) h'.1

lemma isDist_exists {g : Mat} {a b : Cell} (h : ∃ n, HasPath g n a b) :
    ∃ k, IsDist g a b k ∧ ∀ n, HasPath g n a b → k ≤ n := by
  classical
  refine ⟨Nat.find h, ⟨Nat.find_spec h, fun m hm => Nat.find_min h hm⟩,
    fun n hn => Nat.find_min' h hn⟩

lemma isDist_le {g : Mat} {a b : Cell} {k n : ℕ} (h : IsDist g a b k)
    (hn : HasPath g n a b) : k ≤ n := by
  by_contra hlt
  exact h.2 n (by omega) hn

lemma isDist_pred {g : Mat} {a b : Cell} {k : ℕ} (h : IsDist g a b (k+1)) :
    ∃ c, adjC c b ∧ IsDist g a c k := by
  obtain ⟨hw, c, hadj, hp⟩ := hp_succ.mp h.1
  obtain ⟨k', hk', hmin⟩ := isDist_exists ⟨k, hp⟩
  have hle : k' ≤ k := hmin k hp
  rcases Nat.lt_or_ge k' k with hlt | hge
  · exfalso
    exact h.2 (k'+1) (by omega) (hp_extend hk'.1 hadj hw)
  · have h9 : k' = k := Nat.le_antisymm hle hge
    exact ⟨c, hadj, h9 ▸ hk'⟩

lemma isDist_adj_le {g : Mat} {a b c : Cell} {k k' : ℕ} (h : IsDist g a b k)
    (hadj : adjC b c) (hw : nonwall g c) (h' : IsDist g a c k') :
    k' ≤ k + 1 :=
  isDist_le h' (hp_extend h.1 hadj hw)

lemma isDist_exists_adj {g : Mat} {a b c : Cell} {k : ℕ} (h : IsDist g a b k)
    (hadj : adjC b c) (hw : nonwall g c) :
    ∃ k', IsDist g a c k' ∧ k' ≤ k + 1 := by
  obtain ⟨k', hk', _⟩ := isDist_exists ⟨k + 1, hp_extend h.1 hadj hw⟩
  exact ⟨k', hk', isDist_le hk' (hp_extend h.1 hadj hw)⟩

lemma matOf_row {R C : ℕ} {f : ℕ → ℕ → ℤ} {i : ℕ} (hi : i < R) :
    (matOf R C f).getD i [] = (List.range C).map (f i) := by
  unfold matOf
  rw [List.getD_eq_getElem?_getD, List.getElem?_map, List.getElem?_range hi]
  rfl

lemma matOf_row_oob {R C : ℕ} {f : ℕ → ℕ → ℤ} {i : ℕ} (hi : R ≤ i) :
    (matOf R C f).getD i [] = [] := by
  unfold matOf
  rw [List.getD_eq_getElem?_getD,
    List.getElem?_eq_none (show ((List.range R).map _).length ≤ i by simpa using hi)]
  rfl

lemma g2_matOf {R C : ℕ} {f : ℕ → ℕ → ℤ} {i j : ℕ} (hi : i < R) (hj : j < C) :
    g2 (matOf R C f) i j = f i j := by
  unfold g2
  rw [matOf_row hi, List.getD_eq_getElem?_getD, List.getElem?_map,
    List.getElem?_range hj]
  rfl

lemma g2_matOf_oob {R C : ℕ} {f : ℕ → ℕ → ℤ} {i j : ℕ}
    (h : R ≤ i ∨ C ≤ j) : g2 (matOf R C f) i j = 0 := by
  unfold g2
  rcases h with h | h
  · rw [matOf_row_oob h]
    rfl
  · rcases Nat.lt_or_ge i R with hi | hi
    · rw [matOf_row hi, List.getD_eq_getElem?_getD,
        List.getElem?_eq_none (show ((List.range C).map _).length ≤ j by simpa using h)]
      rfl
    · rw [matOf_row_oob hi]
      rfl

lemma g2_oob_row {g : Mat} {i j : ℕ} (hi : rowsOf g ≤ i) : g2 g i j = 0 := by
  unfold g2
  rw [List.getD_eq_getElem?_getD g i, List.getElem?_eq_none (show g.length ≤ i from hi)]
  rfl

lemma g2_oob_col {g : Mat} {i j : ℕ} (hrect : Rect g) (hj : colsOf g ≤ j) :
    g2 g i j = 0 := by
  rcases Nat.lt_or_ge i g.length with hi | hi
  · have hrow : g.getD i [] ∈ g := by
      rw [List.getD_eq_getElem?_getD g i, List.getElem?_eq_getElem hi]
      exact List.getElem_mem hi
    have hlen : (g.getD i []).length = colsOf g := hrect _ hrow
    unfold g2
    rw [List.getD_eq_getElem?_getD (g.getD i []) j,
      List.getElem?_eq_none (show (g.getD i []).length ≤ j by omega)]
    rfl
  · exact g2_oob_row hi

lemma mem_cellsIdx {R C : ℕ} {c : Cell} :
    c ∈ cellsIdx R C ↔ c.1 < R ∧ c.2 < C := by
  unfold cellsIdx
  simp only [List.mem_flatten, List.mem_map, List.mem_range]
  constructor
  · rintro ⟨l, ⟨i, hi, rfl⟩, hc⟩
    obtain ⟨j, hj, rfl⟩ := List.mem_map.mp hc
    exact ⟨hi, List.mem_range.mp hj⟩
  · rintro ⟨h1, h2⟩
    exact ⟨(List.range C).map fun j => (c.1, j), ⟨c.1, h1, rfl⟩,
      List.mem_map.mpr ⟨c.2, List.mem_range.mpr h2, rfl⟩⟩

lemma g2_wallMask {g : Mat} {i j : ℕ} (hi : i < rowsOf g) (hj : j < colsOf g) :
    g2 (wallMask g) i j = if g2 g i j = 0 then 0 else 1 :=
  g2_matOf hi hj

lemma wallMask_cases (g : Mat) (i j : ℕ) :
    g2 (wallMask g) i j = 0 ∨ g2 (wallMask g) i j = 1 := by
  rcases Nat.lt_or_ge i (rowsOf g) with hi | hi
  · rcases Nat.lt_or_ge j (colsOf g) with hj | hj
    · rw [g2_wallMask hi hj]
      by_cases h : g2 g i j = 0 <;> simp [h]
    · left; exact g2_matOf_oob (Or.inr hj)
  · left; exact g2_matOf_oob (Or.inl hi)

lemma g2_initSt {g : Mat} {s f : Cell} {i j : ℕ}
    (hi : i < rowsOf g) (hj : j < colsOf g) :
    g2 (initSt g s f) i j =
      if (i, j) = f then -1 else if (i, j) = s then 1 else 0 :=
  g2_matOf hi hj

lemma g2_stepMat {R C : ℕ} {mask st : Mat} {i j : ℕ} (hi : i < R) (hj : j < C) :
    g2 (stepMat R C mask st) i j = g2 st i j + deltaAt mask st i j :=
  g2_matOf hi hj

lemma g2_stA_oob {g : Mat} {s i j : ℕ}
    (h : rowsOf g ≤ i ∨ colsOf g ≤ j) : g2 (stA g s) i j = 0 := by
  cases s with
  | zero => exact g2_matOf_oob h
  | succ s => exact g2_matOf_oob h

lemma nonwall_inbounds {g : Mat} {c : Cell} (hrect : Rect g)
    (h : nonwall g c) : c.1 < rowsOf g ∧ c.2 < colsOf g := by
  constructor
  · by_contra h1
    exact h (g2_oob_row (by omega))
  · by_contra h2
    exact h (g2_oob_col hrect (by omega))

lemma nbrReads_sound {st : Mat} {i j : ℕ} :
    ∀ v ∈ nbrReads st i j, v = 0 ∨ ∃ c : Cell, adjC c (i, j) ∧ g2 st c.1 c.2 = v := by
  intro v hv
  unfold nbrReads at hv
  simp only [List.mem_cons, List.not_mem_nil, or_false] at hv
  rcases hv with rfl | rfl | rfl | rfl
  · exact Or.inr ⟨(i+1, j), Or.inr ⟨rfl, Or.inl rfl⟩, rfl⟩
  · by_cases h : i = 0
    · simp [h]
    · refine Or.inr ⟨(i-1, j), Or.inr ⟨rfl, Or.inr (by omega)⟩, by simp [h]⟩
  · exact Or.inr ⟨(i, j+1), Or.inl ⟨rfl, Or.inl rfl⟩, rfl⟩
  · by_cases h : j = 0
    · simp [h]
    · refine Or.inr ⟨(i, j-1), Or.inl ⟨rfl, Or.inr (by omega)⟩, by simp [h]⟩

lemma nbrReads_complete {st : Mat} {i j : ℕ} {c : Cell}
    (h : adjC c (i, j)) : g2 st c.1 c.2 ∈ nbrReads st i j := by
  unfold nbrReads
  rcases c with ⟨c1, c2⟩
  rcases h with ⟨h1, h2 | h2⟩ | ⟨h1, h2 | h2⟩ <;>
    simp only at h1 h2
  · subst h1; subst h2
    simp
  · subst h1
    have hj : j ≠ 0 := by omega
    have hc : c2 = j - 1 := by omega
    subst hc
    simp [hj]
  · subst h1; subst h2
    simp
  · subst h1
    have hi : i ≠ 0 := by omega
    have hc : c1 = i - 1 := by omega
    subst hc
    simp [hi]

lemma posOf_le_IMAX (l : List ℤ) : posOf l ≤ IMAX := by
  induction l with
  | nil => simp [posOf]
  | cons a t ih =>
    unfold posOf at ih ⊢
    simp only [List.map_cons, List.foldr_cons]
    exact le_trans (min_le_right _ _) ih

lemma posOf_cons (a : ℤ) (t : List ℤ) :
    posOf (a :: t) = min (if 0 < a then a else IMAX) (posOf t) := rfl

lemma posOf_le {l : List ℤ} {v : ℤ} (hv : v ∈ l) (hpos : 0 < v) :
    posOf l ≤ v := by
  induction l with
  | nil => simp at hv
  | cons a t ih =>
    rw [posOf_cons]
    rcases List.mem_cons.mp hv with rfl | hv'
    · simp only [hpos, if_pos]
      exact min_le_left _ _
    · exact le_trans (min_le_right _ _) (ih hv')

lemma posOf_cases (l : List ℤ) :
    posOf l = IMAX ∨ (posOf l ∈ l ∧ 0 < posOf l) := by
  induction l with
  | nil => left; rfl
  | cons a t ih =>
    rw [posOf_cons]
    by_cases ha : 0 < a
    · rw [if_pos ha]
      rcases min_choice a (posOf t) with h | h <;> rw [h]
      · exact Or.inr ⟨List.mem_cons_self _ _, ha⟩
      · rcases ih with h' | h'
        · exact Or.inl h'
        · exact Or.inr ⟨List.mem_cons_of_mem _ h'.1, h'.2⟩
    · rw [if_neg ha, min_eq_right (posOf_le_IMAX t)]
      rcases ih with h' | h'
      · exact Or.inl h'
      · exact Or.inr ⟨List.mem_cons_of_mem _ h'.1, h'.2⟩

lemma negOf_ge_IMIN (l : List ℤ) : IMIN ≤ negOf l := by
  induction l with
  | nil => simp [negOf]
  | cons a t ih =>
    unfold negOf at ih ⊢
    simp only [List.map_cons, List.foldr_cons]
    exact le_trans ih (le_max_right _ _)

lemma negOf_cons (a : ℤ) (t : List ℤ) :
    negOf (a :: t) = max (if a < 0 then a else IMIN) (negOf t) := rfl

lemma negOf_ge {l : List ℤ} {v : ℤ} (hv : v ∈ l) (hneg : v < 0) :
    v ≤ negOf l := by
  induction l with
  | nil => simp at hv
  | cons a t ih =>
    rw [negOf_cons]
    rcases List.mem_cons.mp hv with rfl | hv'
    · simp only [hneg, if_pos]
      exact le_max_left _ _
    · exact le_trans (ih hv') (le_max_right _ _)

lemma negOf_cases (l : List ℤ) :
    negOf l = IMIN ∨ (negOf l ∈ l ∧ negOf l < 0) := by
  induction l with
  | nil => left; rfl
  | cons a t ih =>
    rw [negOf_cons]
    by_cases ha : a < 0
    · rw [if_pos ha]
      rcases max_choice a (negOf t) with h | h <;> rw [h]
      · exact Or.inr ⟨List.mem_cons_self _ _, ha⟩
      · rcases ih with h' | h'
        · exact Or.inl h'
        · exact Or.inr ⟨List.mem_cons_of_mem _ h'.1, h'.2⟩
    · rw [if_neg ha, max_eq_right (negOf_ge_IMIN t)]
      rcases ih with h' | h'
      · exact Or.inl h'
      · exact Or.inr ⟨List.mem_cons_of_mem _ h'.1, h'.2⟩

lemma rawNew_zero {st : Mat} {i j : ℕ}
    (h : ∀ v ∈ nbrReads st i j, v = 0) : rawNew st i j = 0 := by
  have hp : posOf (nbrReads st i j) = IMAX := by
    rcases posOf_cases (nbrReads st i j) with h' | h'
    · exact h'
    · exfalso; have := h _ h'.1; omega
  have hn : negOf (nbrReads st i j) = IMIN := by
    rcases negOf_cases (nbrReads st i j) with h' | h'
    · exact h'
    · exfalso; have := h _ h'.1; omega
  unfold rawNew
  rw [if_neg (by simp [hp]), if_neg (by simp [hn])]

lemma rawNew_posCase {st : Mat} {i j : ℕ}
    (hbd : ∀ v ∈ nbrReads st i j, v < IMAX)
    (hex : ∃ v ∈ nbrReads st i j, 0 < v) :
    rawNew st i j = posOf (nbrReads st i j) + 1 ∧
    posOf (nbrReads st i j) ∈ nbrReads st i j ∧
    0 < posOf (nbrReads st i j) ∧
    ∀ v ∈ nbrReads st i j, 0 < v → posOf (nbrReads st i j) ≤ v := by
  obtain ⟨v0, hv0, hv0p⟩ := hex
  have hne : posOf (nbrReads st i j) ≠ IMAX := by
    have h1 := posOf_le hv0 hv0p
    have h2 := hbd v0 hv0
    omega
  have hmem := (posOf_cases (nbrReads st i j)).resolve_left hne
  refine ⟨?_, hmem.1, hmem.2, fun v hv hvp => posOf_le hv hvp⟩
  unfold rawNew
  rw [if_pos hne]

lemma rawNew_negCase {st : Mat} {i j : ℕ}
    (hnopos : ∀ v ∈ nbrReads st i j, ¬0 < v)
    (hbd : ∀ v ∈ nbrReads st i j, IMIN < v)
    (hex : ∃ v ∈ nbrReads st i j, v < 0) :
    rawNew st i j = negOf (nbrReads st i j) - 1 ∧
    negOf (nbrReads st i j) ∈ nbrReads st i j ∧
    negOf (nbrReads st i j) < 0 ∧
    ∀ v ∈ nbrReads st i j, v < 0 → v ≤ negOf (nbrReads st i j) := by
  obtain ⟨v0, hv0, hv0n⟩ := hex
  have hposMax : posOf (nbrReads st i j) = IMAX := by
    rcases posOf_cases (nbrReads st i j) with h' | h'
    · exact h'
    · exact absurd h'.2 (hnopos _ h'.1)
  have hne : negOf (nbrReads st i j) ≠ IMIN := by
    have h1 := negOf_ge hv0 hv0n
    have h2 := hbd v0 hv0
    omega
  have hmem := (negOf_cases (nbrReads st i j)).resolve_left hne
  refine ⟨?_, hmem.1, hmem.2, fun v hv hvn => negOf_ge hv hvn⟩
  unfold rawNew
  rw [if_neg (by simp [hposMax]), if_pos hne]

lemma rawNew_abs_le {st : Mat} {i j : ℕ} {B : ℤ}
    (hB : ∀ v ∈ nbrReads st i j, |v| ≤ B) (hB0 : 0 ≤ B) :
    |rawNew st i j| ≤ B + 1 := by
  unfold rawNew
  split_ifs with h1 h2
  · have hmem := (posOf_cases (nbrReads st i j)).resolve_left h1
    have := hB _ hmem.1
    have := hmem.2
    rw [abs_of_pos (by omega)]
    rw [abs_of_pos hmem.2] at *
    omega
  · have hmem := (negOf_cases (nbrReads st i j)).resolve_left h2
    have := hB _ hmem.1
    have := hmem.2
    rw [abs_of_neg (by omega)]
    rw [abs_of_neg hmem.2] at *
    omega
  · simp only [abs_zero]
    omega

lemma deltaAt_stuck {mask st : Mat} {i j : ℕ} (h : g2 st i j ≠ 0) :
    deltaAt mask st i j = 0 := by
  unfold deltaAt
  rw [if_neg h, mul_zero]

lemma deltaAt_wall {mask st : Mat} {i j : ℕ} (hst : g2 st i j = 0)
    (hm : g2 mask i j = 0) : deltaAt mask st i j = 0 := by
  unfold deltaAt
  rw [if_pos hst, hm, mul_zero]

lemma deltaAt_active {mask st : Mat} {i j : ℕ} (hst : g2 st i j = 0)
    (hm : g2 mask i j = 1) : deltaAt mask st i j = rawNew st i j := by
  unfold deltaAt
  rw [if_pos hst, hm, mul_one]

lemma initSt_abs {g : Mat} {s f : Cell} {i j : ℕ} :
    |g2 (initSt g s f) i j| ≤ 1 := by
  rcases Nat.lt_or_ge i (rowsOf g) with hi | hi
  · rcases Nat.lt_or_ge j (colsOf g) with hj | hj
    · rw [g2_initSt hi hj]
      split_ifs <;> norm_num
    · rw [show g2 (initSt g s f) i j = 0 from g2_matOf_oob (Or.inr hj)]
      norm_num
  · rw [show g2 (initSt g s f) i j = 0 from g2_matOf_oob (Or.inl hi)]
    norm_num

lemma stA_zero (g : Mat) :
    stA g 0 = initSt g (startOf g) (finishOf g) := rfl

lemma stA_succ (g : Mat) (s : ℕ) :
    stA g (s+1) = stepMat (rowsOf g) (colsOf g) (wallMask g) (stA g s) := rfl

lemma stA_abs_le (g : Mat) : ∀ s i j, |g2 (stA g s) i j| ≤ (s : ℤ) + 1 := by
  intro s
  induction s with
  | zero =>
    intro i j
    rw [stA_zero]
    exact le_trans initSt_abs (by norm_num)
  | succ s ih =>
    intro i j
    rcases Nat.lt_or_ge i (rowsOf g) with hi | hi
    · rcases Nat.lt_or_ge j (colsOf g) with hj | hj
      · rw [stA_succ, g2_stepMat hi hj]
        by_cases hz : g2 (stA g s) i j = 0
        · rw [hz, zero_add]
          rcases wallMask_cases g i j with hm | hm
          · rw [deltaAt_wall hz hm]
            simp only [abs_zero]
            positivity
          · rw [deltaAt_active hz hm]
            have hreads : ∀ v ∈ nbrReads (stA g s) i j, |v| ≤ (s : ℤ) + 1 := by
              intro v hv
              rcases nbrReads_sound v hv with rfl | ⟨c, _, rfl⟩
              · simp; positivity
              · exact ih c.1 c.2
            have := rawNew_abs_le hreads (by positivity)
            push_cast
            push_cast at this
            omega
        · rw [deltaAt_stuck hz, add_zero]
          have := ih i j
          push_cast
          push_cast at this
          omega
      · rw [show g2 (stA g (s+1)) i j = 0 from g2_matOf_oob (Or.inr hj)]
        simp only [abs_zero]
        positivity
    · rw [show g2 (stA g (s+1)) i j = 0 from g2_matOf_oob (Or.inl hi)]
      simp only [abs_zero]
      positivity

lemma countV_firstV {g : Mat} {v : ℤ} (h : countV g v = 1) :
    ∃ c : Cell, firstV g v = some c ∧ g2 g c.1 c.2 = v ∧
      c.1 < rowsOf g ∧ c.2 < colsOf g ∧
      ∀ c' : Cell, c'.1 < rowsOf g → c'.2 < colsOf g →
        g2 g c'.1 c'.2 = v → c' = c := by
  classical
  obtain ⟨c, hc⟩ := List.length_eq_one.mp h
  have hcmem : c ∈ (cellsIdx (rowsOf g) (colsOf g)).filter
      fun x => g2 g x.1 x.2 = v := by
    rw [hc]; exact List.mem_singleton.mpr rfl
  have hcprop := List.mem_filter.mp hcmem
  have hcv : g2 g c.1 c.2 = v := by simpa using hcprop.2
  have hcin := mem_cellsIdx.mp hcprop.1
  have hfind : firstV g v = some c := by
    have hex : ∃ x ∈ cellsIdx (rowsOf g) (colsOf g),
        (fun x : Cell => decide (g2 g x.1 x.2 = v)) x = true := by
      exact ⟨c, hcprop.1, by simpa using hcv⟩
    obtain ⟨c', hc'⟩ := Option.isSome_iff_exists.mp (List.find?_isSome.mpr hex)
    have hc'p : g2 g c'.1 c'.2 = v := by
      have := List.find?_some hc'
      simpa using this
    have hc'mem : c' ∈ (cellsIdx (rowsOf g) (colsOf g)).filter
        fun x => g2 g x.1 x.2 = v :=
      List.mem_filter.mpr ⟨List.mem_of_find?_eq_some hc', by simpa using hc'p⟩
    rw [hc] at hc'mem
    have : c' = c := List.mem_singleton.mp hc'mem
    unfold firstV
    rw [hc', this]
  refine ⟨c, hfind, hcv, hcin.1, hcin.2, fun c' h1 h2 h3 => ?_⟩
  have : c' ∈ (cellsIdx (rowsOf g) (colsOf g)).filter
      fun x => g2 g x.1 x.2 = v :=
    List.mem_filter.mpr ⟨mem_cellsIdx.mpr ⟨h1, h2⟩, by simpa using h3⟩
  rw [hc] at this
  exact List.mem_singleton.mp this

lemma startOf_spec {g : Mat} (h : Accepted g) :
    g2 g (startOf g).1 (startOf g).2 = 2 ∧
    (startOf g).1 < rowsOf g ∧ (startOf g).2 < colsOf g ∧
    ∀ c' : Cell, c'.1 < rowsOf g → c'.2 < colsOf g →
      g2 g c'.1 c'.2 = 2 → c' = startOf g := by
  obtain ⟨c, hf, hv, h1, h2, huniq⟩ := countV_firstV h.1
  have hs : startOf g = c := by unfold startOf; rw [hf]; rfl
  rw [hs]
  exact ⟨hv, h1, h2, huniq⟩

lemma finishOf_spec {g : Mat} (h : Accepted g) :
    g2 g (finishOf g).1 (finishOf g).2 = 3 ∧
    (finishOf g).1 < rowsOf g ∧ (finishOf g).2 < colsOf g ∧
    ∀ c' : Cell, c'.1 < rowsOf g → c'.2 < colsOf g →
      g2 g c'.1 c'.2 = 3 → c' = finishOf g := by
  obtain ⟨c, hf, hv, h1, h2, huniq⟩ := countV_firstV h.2
  have hs : finishOf g = c := by unfold finishOf; rw [hf]; rfl
  rw [hs]
  exact ⟨hv, h1, h2, huniq⟩

lemma nonwall_startOf {g : Mat} (h : Accepted g) : nonwall g (startOf g) := by
  have := (startOf_spec h).1
  unfold nonwall
  omega

lemma nonwall_finishOf {g : Mat} (h : Accepted g) : nonwall g (finishOf g) := by
  have := (finishOf_spec h).1
  unfold nonwall
  omega

lemma start_ne_finish {g : Mat} (h : Accepted g) : startOf g ≠ finishOf g := by
  intro he
  have h2 := (startOf_spec h).1
  have h3 := (finishOf_spec h).1
  rw [he] at h2
  omega

lemma mask_nonwall {g : Mat} {c : Cell} (hrect : Rect g)
    (h : nonwall g c) : g2 (wallMask g) c.1 c.2 = 1 := by
  obtain ⟨h1, h2⟩ := nonwall_inbounds hrect h
  rw [g2_wallMask h1 h2, if_neg h]

lemma initializeLab_eq {g : Mat} (h : Accepted g) :
    initializeLab g =
      some (wallMask g, initSt g (startOf g) (finishOf g), mdTOf g) := by
  obtain ⟨c2, hf2, _⟩ := countV_firstV h.1
  obtain ⟨c3, hf3, _⟩ := countV_firstV h.2
  have hs : startOf g = c2 := by unfold startOf; rw [hf2]; rfl
  have hfin : finishOf g = c3 := by unfold finishOf; rw [hf3]; rfl
  unfold initializeLab
  rw [if_pos (show countV g 2 = 1 ∧ countV g 3 = 1 from h), hf2, hf3]
  rw [← hs, ← hfin]
  rfl

lemma initializeLab_none {g : Mat} (h : ¬Accepted g) :
    initializeLab g = none := by
  unfold Accepted at h
  unfold initializeLab
  rw [if_neg h]

lemma classify_pos {g : Mat} {s : ℕ} (hf : FormulaAt g s) {c : Cell}
    (hpos : 0 < g2 (stA g s) c.1 c.2) :
    ∃ k, IsDist g (startOf g) c k ∧ k ≤ s ∧
      (∀ j, IsDist g (finishOf g) c j → k ≤ j) ∧
      g2 (stA g s) c.1 c.2 = (k : ℤ) + 1 := by
  classical
  by_cases hds : ∃ k, IsDist g (startOf g) c k
  · obtain ⟨k, hk⟩ := hds
    by_cases hdf : ∃ j, IsDist g (finishOf g) c j
    · obtain ⟨j, hj⟩ := hdf
      rcases le_or_lt k j with hkj | hjk
      · rcases le_or_lt k s with hks | hks
        · have hq : ∀ j', IsDist g (finishOf g) c j' → k ≤ j' := by
            intro j' hj'
            rw [isDist_unique hj' hj]
            exact hkj
          exact ⟨k, hk, hks, hq, hf.1 c k hk hks hq⟩
        · exfalso
          have hz := hf.2.2 c (fun m hm => ⟨fun hd => by
              have := isDist_unique hd hk; omega,
            fun hd => by have := isDist_unique hd hj; omega⟩)
          omega
      · exfalso
        rcases le_or_lt j s with hjs | hjs
        · have hq : ∀ j', IsDist g (startOf g) c j' → j < j' := by
            intro j' hj'
            rw [isDist_unique hj' hk]
            exact hjk
          have := hf.2.1 c j hj hjs hq
          omega
        · have hz := hf.2.2 c (fun m hm => ⟨fun hd => by
              have := isDist_unique hd hk; omega,
            fun hd => by have := isDist_unique hd hj; omega⟩)
          omega
    · rcases le_or_lt k s with hks | hks
      · have hq : ∀ j', IsDist g (finishOf g) c j' → k ≤ j' :=
          fun j' hj' => absurd ⟨j', hj'⟩ hdf
        exact ⟨k, hk, hks, hq, hf.1 c k hk hks hq⟩
      · exfalso
        have hz := hf.2.2 c (fun m hm => ⟨fun hd => by
            have := isDist_unique hd hk; omega,
          fun hd => absurd ⟨m, hd⟩ hdf⟩)
        omega
  · exfalso
    by_cases hdf : ∃ j, IsDist g (finishOf g) c j
    · obtain ⟨j, hj⟩ := hdf
      rcases le_or_lt j s with hjs | hjs
      · have := hf.2.1 c j hj hjs (fun j' hj' => absurd ⟨j', hj'⟩ hds)
        omega
      · have hz := hf.2.2 c (fun m hm => ⟨fun hd => absurd ⟨m, hd⟩ hds,
          fun hd => by have := isDist_unique hd hj; omega⟩)
        omega
    · have hz := hf.2.2 c (fun m hm => ⟨fun hd => absurd ⟨m, hd⟩ hds,
        fun hd => absurd ⟨m, hd⟩ hdf⟩)
      omega

lemma classify_neg {g : Mat} {s : ℕ} (hf : FormulaAt g s) {c : Cell}
    (hneg : g2 (stA g s) c.1 c.2 < 0) :
    ∃ k, IsDist g (finishOf g) c k ∧ k ≤ s ∧
      (∀ j, IsDist g (startOf g) c j → k < j) ∧
      g2 (stA g s) c.1 c.2 = -((k : ℤ) + 1) := by
  classical
  by_cases hdf : ∃ k, IsDist g (finishOf g) c k
  · obtain ⟨k, hk⟩ := hdf
    by_cases hds : ∃ j, IsDist g (startOf g) c j
    · obtain ⟨j, hj⟩ := hds
      rcases le_or_lt j k with hjk | hkj
      · exfalso
        rcases le_or_lt j s with hjs | hjs
        · have hq : ∀ j', IsDist g (finishOf g) c j' → j ≤ j' := by
            intro j' hj'
            rw [isDist_unique hj' hk]
            exact hjk
          have := hf.1 c j hj hjs hq
          omega
        · have hz := hf.2.2 c (fun m hm => ⟨fun hd => by
              have := isDist_unique hd hj; omega,
            fun hd => by have := isDist_unique hd hk; omega⟩)
          omega
      · rcases le_or_lt k s with hks | hks
        · have hq : ∀ j', IsDist g (startOf g) c j' → k < j' := by
            intro j' hj'
            rw [isDist_unique hj' hj]
            exact hkj
          exact ⟨k, hk, hks, hq, hf.2.1 c k hk hks hq⟩
        · exfalso
          have hz := hf.2.2 c (fun m hm => ⟨fun hd => by
              have := isDist_unique hd hj; omega,
            fun hd => by have := isDist_unique hd hk; omega⟩)
          omega
    · rcases le_or_lt k s with hks | hks
      · have hq : ∀ j', IsDist g (startOf g) c j' → k < j' :=
          fun j' hj' => absurd ⟨j', hj'⟩ hds
        exact ⟨k, hk, hks, hq, hf.2.1 c k hk hks hq⟩
      · exfalso
        have hz := hf.2.2 c (fun m hm => ⟨fun hd => absurd ⟨m, hd⟩ hds,
          fun hd => by have := isDist_unique hd hk; omega⟩)
        omega
  · exfalso
    by_cases hds : ∃ j, IsDist g (startOf g) c j
    · obtain ⟨j, hj⟩ := hds
      rcases le_or_lt j s with hjs | hjs
      · have := hf.1 c j hj hjs (fun j' hj' => absurd ⟨j', hj'⟩ hdf)
        omega
      · have hz := hf.2.2 c (fun m hm => ⟨fun hd => by
            have := isDist_unique hd hj; omega,
          fun hd => absurd ⟨m, hd⟩ hdf⟩)
        omega
    · have hz := hf.2.2 c (fun m hm => ⟨fun hd => absurd ⟨m, hd⟩ hds,
        fun hd => absurd ⟨m, hd⟩ hdf⟩)
      omega

lemma isDist_zero_iff {g : Mat} {a c : Cell} (hw : nonwall g a) :
    IsDist g a c 0 ↔ c = a := by
  constructor
  · intro h
    obtain ⟨rfl, _⟩ := hp_zero.mp h.1
    rfl
  · rintro rfl
    exact ⟨hp_self hw, fun m hm => absurd hm (by omega)⟩

lemma formulaAt_zero {g : Mat} (hrect : Rect g) (hacc : Accepted g) :
    FormulaAt g 0 := by
  have hsw := nonwall_startOf hacc
  have hfw := nonwall_finishOf hacc
  have hsb := nonwall_inbounds hrect hsw
  have hfb := nonwall_inbounds hrect hfw
  have hne := start_ne_finish hacc
  refine ⟨?_, ?_, ?_⟩
  · intro c k hk hks _
    interval_cases k
    have hc : c = startOf g := (isDist_zero_iff hsw).mp hk
    subst hc
    rw [stA_zero, g2_initSt hsb.1 hsb.2]
    rw [if_neg (by simpa using hne), if_pos rfl]
    norm_num
  · intro c k hk hks _
    interval_cases k
    have hc : c = finishOf g := (isDist_zero_iff hfw).mp hk
    subst hc
    rw [stA_zero, g2_initSt hfb.1 hfb.2]
    rw [if_pos rfl]
    norm_num
  · intro c hno
    rcases Nat.lt_or_ge c.1 (rowsOf g) with h1 | h1
    · rcases Nat.lt_or_ge c.2 (colsOf g) with h2 | h2
      · rw [stA_zero, g2_initSt h1 h2]
        have hcf : c ≠ finishOf g := by
          intro he
          exact (hno 0 le_rfl).2 (he ▸ (isDist_zero_iff hfw).mpr rfl)
        have hcs : c ≠ startOf g := by
          intro he
          exact (hno 0 le_rfl).1 (he ▸ (isDist_zero_iff hsw).mpr rfl)
        rw [if_neg (by simpa using hcf), if_neg (by simpa using hcs)]
      · exact g2_stA_oob (Or.inr h2)
    · exact g2_stA_oob (Or.inl h1)

lemma formulaAt_succ {g : Mat} {s : ℕ} (hrect : Rect g) (hacc : Accepted g)
    (hsz : (s : ℤ) + 3 ≤ IMAX) (hf : FormulaAt g s) : FormulaAt g (s+1) := by
  have hrb : ∀ i j : ℕ, ∀ v ∈ nbrReads (stA g s) i j, |v| ≤ (s : ℤ) + 1 := by
    intro i j v hv
    rcases nbrReads_sound v hv with rfl | ⟨e, _, rfl⟩
    · simp
      positivity
    · exact stA_abs_le g s e.1 e.2
  have hI : IMAX = 9223372036854775807 := rfl
  have hJ : IMIN = -9223372036854775808 := rfl
  have hltm : ∀ i j : ℕ, ∀ v ∈ nbrReads (stA g s) i j, v < IMAX := by
    intro i j v hv
    have := hrb i j v hv
    rw [abs_le] at this
    omega
  have hgtm : ∀ i j : ℕ, ∀ v ∈ nbrReads (stA g s) i j, IMIN < v := by
    intro i j v hv
    have := hrb i j v hv
    rw [abs_le] at this
    omega
  refine ⟨?_, ?_, ?_⟩
  · intro c k hk hks hkdf
    have hcw : nonwall g c := hp_nonwall_tgt hk.1
    obtain ⟨hc1, hc2⟩ := nonwall_inbounds hrect hcw
    rcases le_or_lt k s with hkle | hkgt
    · have hv := hf.1 c k hk hkle hkdf
      rw [stA_succ, g2_stepMat hc1 hc2,
        deltaAt_stuck (by rw [hv]; omega), add_zero]
      exact hv
    · have hk1 : k = s + 1 := by omega
      subst hk1
      have hzs : g2 (stA g s) c.1 c.2 = 0 := by
        apply hf.2.2 c
        intro m hm
        constructor
        · intro hd
          have := isDist_unique hd hk
          omega
        · intro hd
          have := hkdf m hd
          omega
      obtain ⟨d, hdadj, hdk⟩ := isDist_pred hk
      have hd_df : ∀ j, IsDist g (finishOf g) d j → s ≤ j := by
        intro j hj
        obtain ⟨j', hj', hle⟩ := isDist_exists_adj hj hdadj hcw
        have := hkdf j' hj'
        omega
      have hdval : g2 (stA g s) d.1 d.2 = (s : ℤ) + 1 :=
        hf.1 d s hdk le_rfl hd_df
      have hdmem : g2 (stA g s) d.1 d.2 ∈ nbrReads (stA g s) c.1 c.2 :=
        nbrReads_complete hdadj
      have hex : ∃ v ∈ nbrReads (stA g s) c.1 c.2, 0 < v :=
        ⟨_, hdmem, by rw [hdval]; positivity⟩
      obtain ⟨hre, hpmem, hppos, hpmin⟩ := rawNew_posCase (hltm c.1 c.2) hex
      have hminv : ∀ v ∈ nbrReads (stA g s) c.1 c.2, 0 < v → (s:ℤ)+1 ≤ v := by
        intro v hv hvp
        rcases nbrReads_sound v hv with rfl | ⟨e, headj, hev⟩
        · omega
        · rw [← hev] at hvp
          obtain ⟨ke, hke, hkes, _, hveq⟩ := classify_pos hf hvp
          obtain ⟨k', hk'd, hk'le⟩ := isDist_exists_adj hke headj hcw
          have hk'eq : k' = s + 1 := isDist_unique hk'd hk
          rw [← hev, hveq]
          omega
      have hpos_eq : posOf (nbrReads (stA g s) c.1 c.2) = (s:ℤ)+1 := by
        have h1 := hpmin _ hdmem (by rw [hdval]; positivity)
        rw [hdval] at h1
        have h2 := hminv _ hpmem hppos
        omega
      rw [stA_succ, g2_stepMat hc1 hc2,
        deltaAt_active hzs (mask_nonwall hrect hcw), hre, hpos_eq, hzs]
      push_cast
      ring
  · intro c k hk hks hkds
    have hcw : nonwall g c := hp_nonwall_tgt hk.1
    obtain ⟨hc1, hc2⟩ := nonwall_inbounds hrect hcw
    rcases le_or_lt k s with hkle | hkgt
    · have hv := hf.2.1 c k hk hkle hkds
      rw [stA_succ, g2_stepMat hc1 hc2,
        deltaAt_stuck (by rw [hv]; omega), add_zero]
      exact hv
    · have hk1 : k = s + 1 := by omega
      subst hk1
      have hzs : g2 (stA g s) c.1 c.2 = 0 := by
        apply hf.2.2 c
        intro m hm
        constructor
        · intro hd
          have := hkds m hd
          omega
        · intro hd
          have := isDist_unique hd hk
          omega
      obtain ⟨d, hdadj, hdk⟩ := isDist_pred hk
      have hd_ds : ∀ j, IsDist g (startOf g) d j → s < j := by
        intro j hj
        obtain ⟨j', hj', hle⟩ := isDist_exists_adj hj hdadj hcw
        have := hkds j' hj'
        omega
      have hdval : g2 (stA g s) d.1 d.2 = -((s : ℤ) + 1) :=
        hf.2.1 d s hdk le_rfl hd_ds
      have hdmem : g2 (stA g s) d.1 d.2 ∈ nbrReads (stA g s) c.1 c.2 :=
        nbrReads_complete hdadj
      have hnopos : ∀ v ∈ nbrReads (stA g s) c.1 c.2, ¬0 < v := by
        intro v hv hvp
        rcases nbrReads_sound v hv with rfl | ⟨e, headj, hev⟩
        · omega
        · rw [← hev] at hvp
          obtain ⟨ke, hke, hkes, _, _⟩ := classify_pos hf hvp
          obtain ⟨k', hk'd, hk'le⟩ := isDist_exists_adj hke headj hcw
          have := hkds k' hk'd
          omega
      have hex : ∃ v ∈ nbrReads (stA g s) c.1 c.2, v < 0 :=
        ⟨_, hdmem, by rw [hdval]; omega⟩
      obtain ⟨hre, hnmem, hnneg, hnmax⟩ :=
        rawNew_negCase hnopos (hgtm c.1 c.2) hex
      have hmaxv : ∀ v ∈ nbrReads (stA g s) c.1 c.2, v < 0 →
          v ≤ -((s:ℤ)+1) := by
        intro v hv hvn
        rcases nbrReads_sound v hv with rfl | ⟨e, headj, hev⟩
        · omega
        · rw [← hev] at hvn
          obtain ⟨ke, hke, hkes, _, hveq⟩ := classify_neg hf hvn
          obtain ⟨k', hk'd, hk'le⟩ := isDist_exists_adj hke headj hcw
          have hk'eq : k' = s + 1 := isDist_unique hk'd hk
          rw [← hev, hveq]
          omega
      have hneg_eq : negOf (nbrReads (stA g s) c.1 c.2) = -((s:ℤ)+1) := by
        have h1 := hnmax _ hdmem (by rw [hdval]; omega)
        rw [hdval] at h1
        have h2 := hmaxv _ hnmem hnneg
        omega
      rw [stA_succ, g2_stepMat hc1 hc2,
        deltaAt_active hzs (mask_nonwall hrect hcw), hre, hneg_eq, hzs]
      push_cast
      ring
  · intro c hno
    rcases Nat.lt_or_ge c.1 (rowsOf g) with h1 | h1
    · rcases Nat.lt_or_ge c.2 (colsOf g) with h2 | h2
      · have hzs : g2 (stA g s) c.1 c.2 = 0 :=
          hf.2.2 c (fun m hm => hno m (by omega))
        by_cases hcw : g2 g c.1 c.2 = 0
        · rw [stA_succ, g2_stepMat h1 h2,
            deltaAt_wall hzs (by rw [g2_wallMask h1 h2, if_pos hcw]),
            add_zero]
          exact hzs
        · have hcwn : nonwall g c := hcw
          have hallz : ∀ v ∈ nbrReads (stA g s) c.1 c.2, v = 0 := by
            intro v hv
            by_contra hvne
            rcases nbrReads_sound v hv with rfl | ⟨e, headj, hev⟩
            · exact hvne rfl
            · rcases lt_trichotomy v 0 with hlt | heq | hgt
              · rw [← hev] at hlt
                obtain ⟨ke, hke, hkes, _, _⟩ := classify_neg hf hlt
                obtain ⟨k', hk'd, hk'le⟩ := isDist_exists_adj hke headj hcwn
                exact (hno k' (by omega)).2 hk'd
              · exact hvne heq
              · rw [← hev] at hgt
                obtain ⟨ke, hke, hkes, _, _⟩ := classify_pos hf hgt
                obtain ⟨k', hk'd, hk'le⟩ := isDist_exists_adj hke headj hcwn
                exact (hno k' (by omega)).1 hk'd
          rw [stA_succ, g2_stepMat h1 h2,
            deltaAt_active hzs (mask_nonwall hrect hcwn),
            rawNew_zero hallz, add_zero]
          exact hzs
      · exact g2_stA_oob (Or.inr h2)
    · exact g2_stA_oob (Or.inl h1)

theorem masterFormula {g : Mat} (hrect : Rect g) (hacc : Accepted g) :
    ∀ s : ℕ, (s : ℤ) + 2 ≤ IMAX → FormulaAt g s := by
  intro s
  induction s with
  | zero => intro _; exact formulaAt_zero hrect hacc
  | succ s ih =>
    intro hsz
    push_cast at hsz
    exact formulaAt_succ hrect hacc (by omega) (ih (by omega))

lemma manh_comm (a b : Cell) : manh a b = manh b a := by
  unfold manh
  rw [abs_sub_comm, abs_sub_comm ((a.2 : ℤ)) _]

lemma manh_triangle (a b c : Cell) : manh a c ≤ manh a b + manh b c := by
  unfold manh
  have h1 := abs_sub_le ((a.1 : ℤ)) (b.1 : ℤ) (c.1 : ℤ)
  have h2 := abs_sub_le ((a.2 : ℤ)) (b.2 : ℤ) (c.2 : ℤ)
  omega

lemma adjC_manh_one {a b : Cell} (h : adjC a b) : manh a b = 1 := by
  rcases adjC_manh h a with h' | h'
  · rw [manh_self] at h'
    have := manh_nonneg a b
    omega
  · rw [manh_self] at h'
    omega

lemma mdTOf_eq (g : Mat) :
    mdTOf g = manh (startOf g) (finishOf g) - 1 := rfl

lemma nonzero_inbounds {g : Mat} {s : ℕ} {c : Cell}
    (h : g2 (stA g s) c.1 c.2 ≠ 0) :
    c.1 < rowsOf g ∧ c.2 < colsOf g := by
  constructor
  · by_contra hcon
    exact h (g2_stA_oob (Or.inl (by omega)))
  · by_contra hcon
    exact h (g2_stA_oob (Or.inr (by omega)))

lemma collP_iff {g : Mat} {s : ℕ} :
    CollP g s ↔ ∃ c d : Cell, adjC c d ∧
      g2 (stA g s) c.1 c.2 * g2 (stA g s) d.1 d.2 < 0 := by
  unfold CollP collAnyB
  rw [List.any_eq_true]
  constructor
  · rintro ⟨⟨i, j⟩, hmem, hcoll⟩
    simp only [collAtB, Bool.or_eq_true, decide_eq_true_eq] at hcoll
    rcases hcoll with h | h
    · exact ⟨(i+1, j), (i, j), Or.inr ⟨rfl, Or.inl rfl⟩, h⟩
    · by_cases hj : j = 0
      · rw [if_pos hj] at h
        simp at h
      · rw [if_neg hj] at h
        exact ⟨(i, j-1), (i, j), Or.inl ⟨rfl, Or.inr (by omega)⟩, h⟩
  · rintro ⟨c, d, hadj, hprod⟩
    have hc0 : g2 (stA g s) c.1 c.2 ≠ 0 := by
      intro h
      rw [h, zero_mul] at hprod
      exact absurd hprod (lt_irrefl 0)
    have hd0 : g2 (stA g s) d.1 d.2 ≠ 0 := by
      intro h
      rw [h, mul_zero] at hprod
      exact absurd hprod (lt_irrefl 0)
    obtain ⟨hc1, hc2⟩ := nonzero_inbounds hc0
    obtain ⟨hd1, hd2⟩ := nonzero_inbounds hd0
    rcases hadj with ⟨h1, h2 | h2⟩ | ⟨h1, h2 | h2⟩
    · refine ⟨c, mem_cellsIdx.mpr ⟨hc1, hc2⟩, ?_⟩
      simp only [collAtB, Bool.or_eq_true, decide_eq_true_eq]
      right
      have hj : c.2 ≠ 0 := by omega
      rw [if_neg hj]
      have he1 : c.2 - 1 = d.2 := by omega
      rw [he1]
      have : g2 (stA g s) c.1 d.2 = g2 (stA g s) d.1 d.2 := by rw [h1]
      rw [this]
      rw [mul_comm]
      exact hprod
    · refine ⟨d, mem_cellsIdx.mpr ⟨hd1, hd2⟩, ?_⟩
      simp only [collAtB, Bool.or_eq_true, decide_eq_true_eq]
      right
      have hj : d.2 ≠ 0 := by omega
      rw [if_neg hj]
      have he1 : d.2 - 1 = c.2 := by omega
      rw [he1]
      have : g2 (stA g s) d.1 c.2 = g2 (stA g s) c.1 c.2 := by rw [h1]
      rw [this]
      exact hprod
    · refine ⟨d, mem_cellsIdx.mpr ⟨hd1, hd2⟩, ?_⟩
      simp only [collAtB, Bool.or_eq_true, decide_eq_true_eq]
      left
      have he1 : d.1 + 1 = c.1 := by omega
      rw [he1]
      have : g2 (stA g s) c.1 d.2 = g2 (stA g s) c.1 c.2 := by rw [h1]
      rw [this]
      exact hprod
    · refine ⟨c, mem_cellsIdx.mpr ⟨hc1, hc2⟩, ?_⟩
      simp only [collAtB, Bool.or_eq_true, decide_eq_true_eq]
      left
      have he1 : c.1 + 1 = d.1 := by omega
      rw [he1]
      have : g2 (stA g s) d.1 c.2 = g2 (stA g s) d.1 d.2 := by rw [h1]
      rw [this]
      rw [mul_comm]
      exact hprod

lemma gate_of_collP {g : Mat} (hrect : Rect g) (hacc : Accepted g) {s : ℕ}
    (hsz : (s : ℤ) + 2 ≤ IMAX) (hcoll : CollP g s) :
    mdTOf g ≤ 2 * ((s : ℤ) + 1) := by
  have hf := masterFormula hrect hacc s hsz
  obtain ⟨c, d, hadj, hprod⟩ := collP_iff.mp hcoll
  rw [mdTOf_eq]
  rcases mul_neg_iff.mp hprod with ⟨hcp, hdn⟩ | ⟨hcn, hdp⟩
  · obtain ⟨k, hk, hks, _, _⟩ := classify_pos hf hcp
    obtain ⟨k', hk', hk's, _, _⟩ := classify_neg hf hdn
    have h1 : manh (startOf g) c ≤ k := hp_manh_le hk.1
    have h2 : manh (finishOf g) d ≤ k' := hp_manh_le hk'.1
    have h3 := manh_triangle (startOf g) c (finishOf g)
    have h4 := manh_triangle c d (finishOf g)
    have h5 : manh d (finishOf g) = manh (finishOf g) d := manh_comm _ _
    have h6 : manh c d = 1 := adjC_manh_one hadj
    omega
  · obtain ⟨k, hk, hks, _, _⟩ := classify_neg hf hcn
    obtain ⟨k', hk', hk's, _, _⟩ := classify_pos hf hdp
    have h1 : manh (finishOf g) c ≤ k := hp_manh_le hk.1
    have h2 : manh (startOf g) d ≤ k' := hp_manh_le hk'.1
    have h3 := manh_triangle (startOf g) d (finishOf g)
    have h4 := manh_triangle d c (finishOf g)
    have h5 : manh c (finishOf g) = manh (finishOf g) c := manh_comm _ _
    have h6 : manh d c = 1 := adjC_manh_one (adjC_symm hadj)
    omega

lemma gfold_max_ge {f : ℤ → ℤ} {l : List ℤ} {v : ℤ} (hv : v ∈ l) (b : ℤ) :
    f v ≤ (l.map f).foldr max b := by
  induction l with
  | nil => simp at hv
  | cons a t ih =>
    simp only [List.map_cons, List.foldr_cons]
    rcases List.mem_cons.mp hv with rfl | hv'
    · exact le_max_left _ _
    · exact le_trans (ih hv') (le_max_right _ _)

lemma gfold_max_le {f : ℤ → ℤ} {l : List ℤ} {B b : ℤ}
    (hB : ∀ v ∈ l, f v ≤ B) (hb : b ≤ B) : (l.map f).foldr max b ≤ B := by
  induction l with
  | nil => simpa
  | cons a t ih =>
    simp only [List.map_cons, List.foldr_cons]
    exact max_le (hB a (List.mem_cons_self _ _))
      (ih fun v hv => hB v (List.mem_cons_of_mem _ hv))

lemma gfold_min_le {f : ℤ → ℤ} {l : List ℤ} {v : ℤ} (hv : v ∈ l) (b : ℤ) :
    (l.map f).foldr min b ≤ f v := by
  induction l with
  | nil => simp at hv
  | cons a t ih =>
    simp only [List.map_cons, List.foldr_cons]
    rcases List.mem_cons.mp hv with rfl | hv'
    · exact min_le_left _ _
    · exact le_trans (min_le_right _ _) (ih hv')

lemma gfold_min_ge {f : ℤ → ℤ} {l : List ℤ} {B b : ℤ}
    (hB : ∀ v ∈ l, B ≤ f v) (hb : B ≤ b) : B ≤ (l.map f).foldr min b := by
  induction l with
  | nil => simpa
  | cons a t ih =>
    simp only [List.map_cons, List.foldr_cons]
    exact le_min (hB a (List.mem_cons_self _ _))
      (ih fun v hv => hB v (List.mem_cons_of_mem _ hv))

lemma mem_cellVals {R C : ℕ} {st : Mat} {c : Cell}
    (h1 : c.1 < R) (h2 : c.2 < C) :
    g2 st c.1 c.2 ∈ cellVals R C st := by
  unfold cellVals
  exact List.mem_map.mpr ⟨c, mem_cellsIdx.mpr ⟨h1, h2⟩, rfl⟩

lemma maxPos_ge {R C : ℕ} {st : Mat} {c : Cell} (h1 : c.1 < R) (h2 : c.2 < C)
    (hpos : 0 < g2 st c.1 c.2) : g2 st c.1 c.2 ≤ maxPos R C st := by
  have := gfold_max_ge (f := fun v => if 0 < v then v else IMIN)
    (@mem_cellVals R C st c h1 h2) IMIN
  rw [if_pos hpos] at this
  exact this

lemma maxPos_le {R C : ℕ} {st : Mat} {B : ℤ}
    (hB : ∀ c : Cell, c.1 < R → c.2 < C → g2 st c.1 c.2 ≤ B)
    (hb : IMIN ≤ B) : maxPos R C st ≤ B := by
  apply gfold_max_le _ hb
  intro v hv
  obtain ⟨c, hc, rfl⟩ := List.mem_map.mp hv
  obtain ⟨h1, h2⟩ := mem_cellsIdx.mp hc
  by_cases hp : 0 < g2 st c.1 c.2
  · rw [if_pos hp]
    exact hB c h1 h2
  · rw [if_neg hp]
    exact hb

lemma minNeg_le {R C : ℕ} {st : Mat} {c : Cell} (h1 : c.1 < R) (h2 : c.2 < C)
    (hneg : g2 st c.1 c.2 < 0) : minNeg R C st ≤ g2 st c.1 c.2 := by
  have := gfold_min_le (f := fun v => if v < 0 then v else IMAX)
    (@mem_cellVals R C st c h1 h2) IMAX
  rw [if_pos hneg] at this
  exact this

lemma minNeg_ge {R C : ℕ} {st : Mat} {B : ℤ}
    (hB : ∀ c : Cell, c.1 < R → c.2 < C → B ≤ g2 st c.1 c.2)
    (hb : B ≤ IMAX) : B ≤ minNeg R C st := by
  apply gfold_min_ge _ hb
  intro v hv
  obtain ⟨c, hc, rfl⟩ := List.mem_map.mp hv
  obtain ⟨h1, h2⟩ := mem_cellsIdx.mp hc
  by_cases hp : g2 st c.1 c.2 < 0
  · rw [if_pos hp]
    exact hB c h1 h2
  · rw [if_neg hp]
    exact hb

lemma geodesic_cells {g : Mat} {a b : Cell} {D : ℕ} (hD : IsDist g a b D) :
    ∀ n, n ≤ D → ∃ c, IsDist g a c (D - n) ∧ IsDist g b c n := by
  intro n
  induction n with
  | zero =>
    intro _
    refine ⟨b, by simpa using hD, ?_⟩
    exact (isDist_zero_iff (hp_nonwall_tgt hD.1)).mpr rfl
  | succ n ih =>
    intro hn
    obtain ⟨c, hac, hbc⟩ := ih (by omega)
    have hDn : D - n = (D - (n+1)) + 1 := by omega
    rw [hDn] at hac
    obtain ⟨d, hdadj, had⟩ := isDist_pred hac
    have hdw : nonwall g d := hp_nonwall_tgt had.1
    obtain ⟨j, hbd, hjle⟩ := isDist_exists_adj hbc (adjC_symm hdadj) hdw
    have hjge : n + 1 ≤ j := by
      by_contra hcon
      have hcomp : HasPath g ((D - (n+1)) + j) a b :=
        hp_trans had.1 (hp_symm hbd.1)
      have := isDist_le hD hcomp
      omega
    have hj : j = n + 1 := by omega
    subst hj
    exact ⟨d, had, hbd⟩

lemma geodesic_pair {g : Mat} {a b : Cell} {D : ℕ} (hD : IsDist g a b D) :
    ∀ n, n + 1 ≤ D → ∃ c d : Cell, adjC d c ∧
      IsDist g a c (D - n) ∧ IsDist g b c n ∧
      IsDist g a d (D - n - 1) ∧ IsDist g b d (n + 1) := by
  intro n hn
  obtain ⟨c, hac, hbc⟩ := geodesic_cells hD n (by omega)
  have hDn : D - n = (D - n - 1) + 1 := by omega
  rw [hDn] at hac
  obtain ⟨d, hdadj, had⟩ := isDist_pred hac
  have hdw : nonwall g d := hp_nonwall_tgt had.1
  obtain ⟨j, hbd, hjle⟩ := isDist_exists_adj hbc (adjC_symm hdadj) hdw
  have hjge : n + 1 ≤ j := by
    by_contra hcon
    have hcomp : HasPath g ((D - n - 1) + j) a b :=
      hp_trans had.1 (hp_symm hbd.1)
    have := isDist_le hD hcomp
    omega
  have hj : j = n + 1 := by omega
  subst hj
  rw [← hDn] at hac
  exact ⟨c, d, hdadj, hac, hbc, had, hbd⟩

lemma mpAt_eq {g : Mat} (hrect : Rect g) (hacc : Accepted g) {D s : ℕ}
    (hsz : (s : ℤ) + 2 ≤ IMAX)
    (hD : IsDist g (startOf g) (finishOf g) D) (h2s : 2 * s ≤ D) :
    mpAt g s = (s : ℤ) + 1 := by
  have hf := masterFormula hrect hacc s hsz
  obtain ⟨c, hac, hbc⟩ := geodesic_cells hD (D - s) (by omega)
  have hds : D - (D - s) = s := by omega
  rw [hds] at hac
  have hval := hf.1 c s hac le_rfl
    (fun j hj => by rw [isDist_unique hj hbc]; omega)
  have hcin := nonwall_inbounds hrect (hp_nonwall_tgt hac.1)
  unfold mpAt
  apply le_antisymm
  · apply maxPos_le
    · intro e h1 h2
      have := stA_abs_le g s e.1 e.2
      rw [abs_le] at this
      omega
    · have hJ : IMIN = -9223372036854775808 := rfl
      omega
  · have := maxPos_ge hcin.1 hcin.2 (by rw [hval]; positivity)
    rw [hval] at this
    exact this

lemma mnAt_ge (g : Mat) (s : ℕ) : -((s : ℤ) + 1) ≤ mnAt g s := by
  unfold mnAt
  apply minNeg_ge
  · intro c h1 h2
    have := stA_abs_le g s c.1 c.2
    rw [abs_le] at this
    omega
  · have hI : IMAX = 9223372036854775807 := rfl
    omega

lemma mnAt_le {g : Mat} (hrect : Rect g) (hacc : Accepted g) {D s : ℕ}
    (hsz : (s : ℤ) + 2 ≤ IMAX)
    (hD : IsDist g (startOf g) (finishOf g) D) (hs1 : 1 ≤ s)
    (h2s : 2 * s ≤ D) : mnAt g s ≤ -(s : ℤ) := by
  have hf := masterFormula hrect hacc s hsz
  rcases Nat.lt_or_ge (2*s) D with hlt | hge
  · obtain ⟨c, hac, hbc⟩ := geodesic_cells hD s (by omega)
    have hval := hf.2.1 c s hbc le_rfl
      (fun j hj => by rw [isDist_unique hj hac]; omega)
    have hcin := nonwall_inbounds hrect (hp_nonwall_tgt hac.1)
    have := minNeg_le hcin.1 hcin.2 (c := c) (by rw [hval]; omega)
    unfold mnAt
    rw [hval] at this
    omega
  · have h2q : 2 * s = D := by omega
    obtain ⟨c, hac, hbc⟩ := geodesic_cells hD (s-1) (by omega)
    have hds : D - (s - 1) = s + 1 := by omega
    rw [hds] at hac
    have hval := hf.2.1 c (s-1) hbc (by omega)
      (fun j hj => by rw [isDist_unique hj hac]; omega)
    have hcin := nonwall_inbounds hrect (hp_nonwall_tgt hac.1)
    have := minNeg_le hcin.1 hcin.2 (c := c) (by rw [hval]; omega)
    unfold mnAt
    rw [hval] at this
    omega

lemma noStall_connected {g : Mat} (hrect : Rect g) (hacc : Accepted g)
    {D : ℕ} (hD : IsDist g (startOf g) (finishOf g) D) :
    ∀ s : ℕ, (s : ℤ) + 2 ≤ IMAX → 1 ≤ s → 2 * s ≤ D → ¬StallP g s := by
  intro s hsz hs1 h2s hstall
  have hmp : mpAt g s = (s : ℤ) + 1 := mpAt_eq hrect hacc hsz hD h2s
  have hmnl : mnAt g s ≤ -(s : ℤ) := mnAt_le hrect hacc hsz hD hs1 h2s
  have hmng : -((s : ℤ) + 1) ≤ mnAt g s := mnAt_ge g s
  unfold StallP at hstall
  rcases hstall with h | ⟨h1, h2⟩
  · rcases lt_abs.mp h with h | h <;> omega
  · rcases s with _ | t
    · omega
    · rcases t with _ | t'
      · have : pmpAt g 0 = 0 := rfl
        rw [this] at h2
        omega
      · have hp : pmpAt g (t' + 2 - 1) = mpAt g (t' + 1) := rfl
        rw [hp] at h2
        have hmp' : mpAt g (t'+1) = ((t'+1 : ℕ) : ℤ) + 1 :=
          mpAt_eq hrect hacc (by push_cast at hsz ⊢; omega) hD (by omega)
        rw [hmp', hmp] at h2
        push_cast at h2
        omega

lemma collP_at_half {g : Mat} (hrect : Rect g) (hacc : Accepted g)
    {D : ℕ} (hsz : ((D / 2 : ℕ) : ℤ) + 2 ≤ IMAX)
    (hD : IsDist g (startOf g) (finishOf g) D) (hD1 : 1 ≤ D) :
    CollP g (D / 2) := by
  have hf := masterFormula hrect hacc (D / 2) hsz
  obtain ⟨c, d, hadj, hac, hbc, had, hbd⟩ :=
    geodesic_pair hD (D - 1 - D / 2) (by omega)
  have hn1 : D - (D - 1 - D / 2) = D / 2 + 1 := by omega
  have hn2 : D - (D - 1 - D / 2) - 1 = D / 2 := by omega
  have hn3 : D - 1 - D / 2 + 1 = D - D / 2 := by omega
  rw [hn1] at hac
  rw [hn2] at had
  rw [hn3] at hbd
  have hdval := hf.1 d (D / 2) had le_rfl
    (fun j hj => by rw [isDist_unique hj hbd]; omega)
  have hcval := hf.2.1 c (D - 1 - D / 2) hbc (by omega)
    (fun j hj => by rw [isDist_unique hj hac]; omega)
  apply collP_iff.mpr
  refine ⟨d, c, hadj, ?_⟩
  rw [hdval, hcval]
  apply mul_neg_of_pos_of_neg
  · positivity
  · have : (0 : ℤ) ≤ ((D - 1 - D / 2 : ℕ) : ℤ) := by positivity
    omega

lemma dist_of_connected {g : Mat} (hacc : Accepted g) (hconn : Connected g) :
    ∃ D, IsDist g (startOf g) (finishOf g) D ∧ 1 ≤ D := by
  obtain ⟨D, hD, _⟩ := isDist_exists hconn
  refine ⟨D, hD, ?_⟩
  rcases Nat.eq_zero_or_pos D with rfl | h
  · exfalso
    exact start_ne_finish hacc
      (((isDist_zero_iff (nonwall_startOf hacc)).mp hD).symm ▸ rfl)
  · exact h

lemma loopGo_fst_acc (R C : ℕ) (mask : Mat) (mdT : ℤ) (vis : Bool) :
    ∀ (fuel : ℕ) (st : Mat) (pmn pmp : ℤ) (step : ℕ) (acc1 acc2 : List Mat),
      (loopGo R C mask mdT vis fuel st pmn pmp step acc1).1 =
      (loopGo R C mask mdT vis fuel st pmn pmp step acc2).1 := by
  intro fuel
  induction fuel with
  | zero => intro st pmn pmp step acc1 acc2; rfl
  | succ fuel ih =>
    intro st pmn pmp step acc1 acc2
    simp only [loopGo]
    by_cases h1 : mdT ≤ 2 * (step : ℤ) ∧ collAnyB R C st = true
    · rw [if_pos h1, if_pos h1]
    · rw [if_neg h1, if_neg h1]
      by_cases h2 : 1 < |maxPos R C (stepMat R C mask st) +
          minNeg R C (stepMat R C mask st)| ∨
          (minNeg R C (stepMat R C mask st) = pmn ∧
           maxPos R C (stepMat R C mask st) = pmp)
      · rw [if_pos h2, if_pos h2]
      · rw [if_neg h2, if_neg h2]
        exact ih _ _ _ _ _ _

lemma loopGo_snd_acc (R C : ℕ) (mask : Mat) (mdT : ℤ) (vis : Bool) :
    ∀ (fuel : ℕ) (st : Mat) (pmn pmp : ℤ) (step : ℕ) (acc : List Mat),
      (loopGo R C mask mdT vis fuel st pmn pmp step acc).2 =
      acc ++ (loopGo R C mask mdT vis fuel st pmn pmp step []).2 := by
  intro fuel
  induction fuel with
  | zero => intro st pmn pmp step acc; simp [loopGo]
  | succ fuel ih =>
    intro st pmn pmp step acc
    simp only [loopGo]
    by_cases h1 : mdT ≤ 2 * (step : ℤ) ∧ collAnyB R C st = true
    · rw [if_pos h1, if_pos h1]
      simp
    · rw [if_neg h1, if_neg h1]
      by_cases h2 : 1 < |maxPos R C (stepMat R C mask st) +
          minNeg R C (stepMat R C mask st)| ∨
          (minNeg R C (stepMat R C mask st) = pmn ∧
           maxPos R C (stepMat R C mask st) = pmp)
      · rw [if_pos h2, if_pos h2]
        cases vis <;> simp
      · rw [if_neg h2, if_neg h2]
        rw [ih _ _ _ _ (if vis then acc ++ [stepMat R C mask st] else acc),
          ih _ _ _ _ (if vis then [] ++ [stepMat R C mask st] else [])]
        cases vis <;> simp

lemma loopGo_collided_fst {g : Mat} (hrect : Rect g) (hacc : Accepted g)
    (vis : Bool) {sStar : ℕ} (hszs : (sStar : ℤ) + 2 ≤ IMAX)
    (hcoll : CollP g sStar) (hfirst : ∀ t, t < sStar → ¬CollP g t)
    (hnostall : ∀ t, 1 ≤ t → t ≤ sStar → ¬StallP g t) :
    ∀ (fuel t : ℕ) (acc : List Mat), t ≤ sStar → sStar + 1 ≤ fuel + t →
      (loopGo (rowsOf g) (colsOf g) (wallMask g) (mdTOf g) vis fuel
        (stA g t) (pmnAt g t) (pmpAt g t) (t+1) acc).1
      = LoopCore.collided (stA g sStar)
          (collCells (rowsOf g) (colsOf g) (stA g sStar)) (sStar+1) := by
  intro fuel
  induction fuel with
  | zero => intro t acc ht hf; omega
  | succ fuel ih =>
    intro t acc ht hf
    simp only [loopGo]
    by_cases hts : t = sStar
    · subst hts
      have hgate : mdTOf g ≤ 2 * ((t+1 : ℕ) : ℤ) := by
        have := gate_of_collP hrect hacc hszs hcoll
        push_cast
        push_cast at this
        omega
      rw [if_pos ⟨hgate, hcoll⟩]
    · have hlt : t < sStar := by omega
      have hnc : ¬(mdTOf g ≤ 2 * ((t+1 : ℕ) : ℤ) ∧
          collAnyB (rowsOf g) (colsOf g) (stA g t) = true) := by
        rintro ⟨_, hc⟩
        exact hfirst t hlt hc
      rw [if_neg hnc]
      have hstep : stepMat (rowsOf g) (colsOf g) (wallMask g) (stA g t) =
          stA g (t+1) := (stA_succ g t).symm
      rw [hstep]
      have hnstall : ¬(1 < |maxPos (rowsOf g) (colsOf g) (stA g (t+1)) +
          minNeg (rowsOf g) (colsOf g) (stA g (t+1))| ∨
          (minNeg (rowsOf g) (colsOf g) (stA g (t+1)) = pmnAt g t ∧
           maxPos (rowsOf g) (colsOf g) (stA g (t+1)) = pmpAt g t)) := by
        have := hnostall (t+1) (by omega) (by omega)
        unfold StallP mpAt mnAt at this
        simpa using this
      rw [if_neg hnstall]
      have hpm : minNeg (rowsOf g) (colsOf g) (stA g (t+1)) = pmnAt g (t+1) := rfl
      have hpp : maxPos (rowsOf g) (colsOf g) (stA g (t+1)) = pmpAt g (t+1) := rfl
      rw [hpm, hpp]
      exact ih (t+1) _ (by omega) (by omega)

lemma loopGo_stalled_fst {g : Mat} (vis : Bool) {sD : ℕ} (hsD1 : 1 ≤ sD)
    (hstall : StallP g sD)
    (hfirst : ∀ t, 1 ≤ t → t < sD → ¬StallP g t)
    (hnc : ∀ t, t + 1 ≤ sD → ¬CollP g t) :
    ∀ (fuel t : ℕ) (acc : List Mat), t + 1 ≤ sD → sD ≤ fuel + t →
      (loopGo (rowsOf g) (colsOf g) (wallMask g) (mdTOf g) vis fuel
        (stA g t) (pmnAt g t) (pmpAt g t) (t+1) acc).1
      = LoopCore.stalled (sD+1) := by
  intro fuel
  induction fuel with
  | zero => intro t acc ht hf; omega
  | succ fuel ih =>
    intro t acc ht hf
    simp only [loopGo]
    have hncond : ¬(mdTOf g ≤ 2 * ((t+1 : ℕ) : ℤ) ∧
        collAnyB (rowsOf g) (colsOf g) (stA g t) = true) := by
      rintro ⟨_, hc⟩
      exact hnc t ht hc
    rw [if_neg hncond]
    have hstep : stepMat (rowsOf g) (colsOf g) (wallMask g) (stA g t) =
        stA g (t+1) := (stA_succ g t).symm
    rw [hstep]
    by_cases hts : t + 1 = sD
    · have hst : StallP g (t+1) := hts ▸ hstall
      unfold StallP mpAt mnAt at hst
      simp only [Nat.add_sub_cancel] at hst
      rw [if_pos hst]
      simp only [hts]
    · have hnstall : ¬(1 < |maxPos (rowsOf g) (colsOf g) (stA g (t+1)) +
          minNeg (rowsOf g) (colsOf g) (stA g (t+1))| ∨
          (minNeg (rowsOf g) (colsOf g) (stA g (t+1)) = pmnAt g t ∧
           maxPos (rowsOf g) (colsOf g) (stA g (t+1)) = pmpAt g t)) := by
        have := hfirst (t+1) (by omega) (by omega)
        unfold StallP mpAt mnAt at this
        simpa using this
      rw [if_neg hnstall]
      have hpm : minNeg (rowsOf g) (colsOf g) (stA g (t+1)) = pmnAt g (t+1) := rfl
      have hpp : maxPos (rowsOf g) (colsOf g) (stA g (t+1)) = pmpAt g (t+1) := rfl
      rw [hpm, hpp]
      exact ih (t+1) _ (by omega) (by omega)

lemma hp_chain {g : Mat} {n : ℕ} {a b : Cell} (h : HasPath g n a b) :
    ∃ φ : ℕ → Cell, φ 0 = a ∧ φ n = b ∧
      (∀ i, i < n → adjC (φ i) (φ (i+1))) ∧
      (∀ i, i ≤ n → nonwall g (φ i)) := by
  induction n generalizing b with
  | zero =>
    obtain ⟨rfl, hw⟩ := hp_zero.mp h
    exact ⟨fun _ => a, rfl, rfl, fun i hi => absurd hi (by omega),
      fun _ _ => hw⟩
  | succ n ih =>
    obtain ⟨hwb, c, hadj, hp⟩ := hp_succ.mp h
    obtain ⟨φ', h0, hn, hadj', hw'⟩ := ih hp
    refine ⟨fun i => if i ≤ n then φ' i else b, ?_, ?_, ?_, ?_⟩
    · simp only [Nat.zero_le, if_pos]
      exact h0
    · dsimp only
      rw [if_neg (by omega)]
    · intro i hi
      dsimp only
      rcases Nat.lt_or_ge i n with h1 | h1
      · rw [if_pos (by omega), if_pos (by omega)]
        exact hadj' i h1
      · have hieq : i = n := by omega
        subst hieq
        rw [if_pos le_rfl, if_neg (by omega), hn]
        exact hadj
    · intro i hi
      dsimp only
      rcases le_or_lt i n with h1 | h1
      · rw [if_pos h1]
        exact hw' i h1
      · rw [if_neg (by omega)]
        exact hwb

lemma chain_hp {g : Mat} (φ : ℕ → Cell) :
    ∀ (n : ℕ) (a b : Cell), φ 0 = a → φ n = b →
      (∀ i, i < n → adjC (φ i) (φ (i+1))) →
      (∀ i, i ≤ n → nonwall g (φ i)) → HasPath g n a b := by
  intro n
  induction n with
  | zero =>
    intro a b h0 hn _ hw
    refine hp_zero.mpr ⟨by rw [← h0, hn], ?_⟩
    rw [← hn]
    exact hw 0 le_rfl
  | succ n ih =>
    intro a b h0 hn hadj hw
    have h1 : HasPath g n a (φ n) :=
      ih a (φ n) h0 rfl (fun i hi => hadj i (by omega))
        (fun i hi => hw i (by omega))
    rw [← hn]
    exact hp_extend h1 (hadj n (by omega)) (hn ▸ (hw (n+1) le_rfl))

lemma splice_shorter {g : Mat} {k : ℕ} {a b : Cell} (φ : ℕ → Cell)
    (h0 : φ 0 = a) (hn : φ k = b)
    (hadj : ∀ i, i < k → adjC (φ i) (φ (i+1)))
    (hw : ∀ i, i ≤ k → nonwall g (φ i))
    {i j : ℕ} (hij : i < j) (hj : j ≤ k) (heq : φ i = φ j) :
    HasPath g (k - (j - i)) a b := by
  apply chain_hp (fun t => if t ≤ i then φ t else φ (t + (j - i))) _ a b
  · simp only [Nat.zero_le, if_pos]
    exact h0
  · by_cases hc : k - (j - i) ≤ i
    · rw [if_pos hc]
      have h2 : k - (j - i) = i := by omega
      have h3 : j = k := by omega
      rw [h2, heq, h3, hn]
    · rw [if_neg hc]
      have he : k - (j - i) + (j - i) = k := by omega
      rw [he, hn]
  · intro t ht
    by_cases h1 : t + 1 ≤ i
    · rw [if_pos (by omega), if_pos h1]
      exact hadj t (by omega)
    · by_cases h2 : t ≤ i
      · have hti : t = i := by omega
        subst hti
        rw [if_pos le_rfl, if_neg h1, heq]
        have he : t + 1 + (j - t) = j + 1 := by omega
        rw [he]
        exact hadj j (by omega)
      · rw [if_neg h2, if_neg (by omega)]
        have he : t + 1 + (j - i) = (t + (j - i)) + 1 := by omega
        rw [he]
        exact hadj (t + (j - i)) (by omega)
  · intro t ht
    by_cases h1 : t ≤ i
    · rw [if_pos h1]
      exact hw t (by omega)
    · rw [if_neg h1]
      exact hw (t + (j - i)) (by omega)

lemma isDist_card_bound {g : Mat} (hrect : Rect g) {a b : Cell} {k : ℕ}
    (h : IsDist g a b k) : k + 1 ≤ rowsOf g * colsOf g := by
  classical
  obtain ⟨φ, h0, hn, hadj, hw⟩ := hp_chain h.1
  by_contra hcon
  push_neg at hcon
  have hmaps : ∀ i ∈ Finset.range (k+1),
      φ i ∈ (Finset.range (rowsOf g)) ×ˢ (Finset.range (colsOf g)) := by
    intro i hi
    have hi' : i ≤ k := by
      have := Finset.mem_range.mp hi
      omega
    have := nonwall_inbounds hrect (hw i hi')
    simp only [Finset.mem_product, Finset.mem_range]
    exact this
  have hcard : ((Finset.range (rowsOf g)) ×ˢ (Finset.range (colsOf g))).card <
      (Finset.range (k+1)).card := by
    simp only [Finset.card_product, Finset.card_range]
    omega
  obtain ⟨i, hi, j, hj, hne, heq⟩ :=
    Finset.exists_ne_map_eq_of_card_lt_of_maps_to hcard hmaps
  have hik : i ≤ k := by have := Finset.mem_range.mp hi; omega
  have hjk : j ≤ k := by have := Finset.mem_range.mp hj; omega
  rcases Ne.lt_or_lt hne with hij | hij
  · exact h.2 (k - (j - i)) (by omega)
      (splice_shorter φ h0 hn hadj hw hij hjk heq)
  · exact h.2 (k - (i - j)) (by omega)
      (splice_shorter φ h0 hn hadj hw hij hik heq.symm)

lemma noColl_disconnected {g : Mat} (hrect : Rect g) (hacc : Accepted g)
    (hnconn : ¬Connected g) :
    ∀ s : ℕ, (s : ℤ) + 2 ≤ IMAX → ¬CollP g s := by
  intro s hsz hcoll
  have hf := masterFormula hrect hacc s hsz
  obtain ⟨c, d, hadj, hprod⟩ := collP_iff.mp hcoll
  rcases mul_neg_iff.mp hprod with ⟨hcp, hdn⟩ | ⟨hcn, hdp⟩
  · obtain ⟨k, hk, _, _, _⟩ := classify_pos hf hcp
    obtain ⟨k', hk', _, _, _⟩ := classify_neg hf hdn
    exact hnconn ⟨k + 1 + k',
      hp_trans (hp_extend hk.1 hadj (hp_nonwall_tgt hk'.1)) (hp_symm hk'.1)⟩
  · obtain ⟨k, hk, _, _, _⟩ := classify_neg hf hcn
    obtain ⟨k', hk', _, _, _⟩ := classify_pos hf hdp
    exact hnconn ⟨k' + 1 + k,
      hp_trans (hp_extend hk'.1 (adjC_symm hadj) (hp_nonwall_tgt hk.1))
        (hp_symm hk.1)⟩

lemma stA_stab {g : Mat} (hrect : Rect g) (hacc : Accepted g) {s s' : ℕ}
    (hs : s ≤ s') (hsz' : (s' : ℤ) + 2 ≤ IMAX)
    (hall : ∀ (x : Cell) (k : ℕ),
      IsDist g (startOf g) x k ∨ IsDist g (finishOf g) x k → k ≤ s) :
    ∀ c : Cell, g2 (stA g s') c.1 c.2 = g2 (stA g s) c.1 c.2 := by
  intro c
  have hf := masterFormula hrect hacc s (by omega)
  have hf' := masterFormula hrect hacc s' hsz'
  classical
  by_cases hds : ∃ k, IsDist g (startOf g) c k
  · obtain ⟨k, hk⟩ := hds
    have hks : k ≤ s := hall c k (Or.inl hk)
    by_cases hdf : ∃ j, IsDist g (finishOf g) c j
    · obtain ⟨j, hj⟩ := hdf
      have hjs : j ≤ s := hall c j (Or.inr hj)
      rcases le_or_lt k j with hkj | hjk
      · have hq : ∀ j', IsDist g (finishOf g) c j' → k ≤ j' := by
          intro j' hj'
          rw [isDist_unique hj' hj]
          exact hkj
        rw [hf'.1 c k hk (by omega) hq, hf.1 c k hk hks hq]
      · have hq : ∀ j', IsDist g (startOf g) c j' → j < j' := by
          intro j' hj'
          rw [isDist_unique hj' hk]
          exact hjk
        rw [hf'.2.1 c j hj (by omega) hq, hf.2.1 c j hj hjs hq]
    · have hq : ∀ j', IsDist g (finishOf g) c j' → k ≤ j' :=
        fun j' hj' => absurd ⟨j', hj'⟩ hdf
      rw [hf'.1 c k hk (by omega) hq, hf.1 c k hk hks hq]
  · by_cases hdf : ∃ j, IsDist g (finishOf g) c j
    · obtain ⟨j, hj⟩ := hdf
      have hjs : j ≤ s := hall c j (Or.inr hj)
      have hq : ∀ j', IsDist g (startOf g) c j' → j < j' :=
        fun j' hj' => absurd ⟨j', hj'⟩ hds
      rw [hf'.2.1 c j hj (by omega) hq, hf.2.1 c j hj hjs hq]
    · rw [hf'.2.2 c (fun m _ => ⟨fun hd => absurd ⟨m, hd⟩ hds,
          fun hd => absurd ⟨m, hd⟩ hdf⟩),
        hf.2.2 c (fun m _ => ⟨fun hd => absurd ⟨m, hd⟩ hds,
          fun hd => absurd ⟨m, hd⟩ hdf⟩)]

lemma cells_ge_two {g : Mat} (hacc : Accepted g) :
    2 ≤ rowsOf g * colsOf g := by
  obtain ⟨_, hs1, hs2, _⟩ := startOf_spec hacc
  obtain ⟨_, hf1, hf2, _⟩ := finishOf_spec hacc
  have hne := start_ne_finish hacc
  by_contra hcon
  have hR : 1 ≤ rowsOf g := by omega
  have hC : 1 ≤ colsOf g := by omega
  rcases Nat.lt_or_ge (rowsOf g) 2 with hr | hr
  · rcases Nat.lt_or_ge (colsOf g) 2 with hc | hc
    · apply hne
      have h1 : (startOf g).1 = (finishOf g).1 := by omega
      have h2 : (startOf g).2 = (finishOf g).2 := by omega
      exact Prod.ext_iff.mpr ⟨h1, h2⟩
    · apply hcon
      have h1 : rowsOf g = 1 := by omega
      rw [h1, one_mul]
      exact hc
  · apply hcon
    calc 2 ≤ rowsOf g := hr
    _ ≤ rowsOf g * colsOf g := Nat.le_mul_of_pos_right _ (by omega)

lemma smallGrid_sz {g : Mat} (hsz : SmallGrid g) {s : ℕ}
    (hs : s ≤ rowsOf g * colsOf g + 1) : (s : ℤ) + 2 ≤ IMAX := by
  unfold SmallGrid at hsz
  have hI : IMAX = 9223372036854775807 := rfl
  omega

lemma stall_exists_disconnected {g : Mat} (hrect : Rect g) (hacc : Accepted g)
    (hsz : SmallGrid g) (hnconn : ¬Connected g) :
    StallP g (rowsOf g * colsOf g) := by
  have hN2 : 2 ≤ rowsOf g * colsOf g := cells_ge_two hacc
  have hall : ∀ (x : Cell) (k : ℕ),
      IsDist g (startOf g) x k ∨ IsDist g (finishOf g) x k →
      k ≤ rowsOf g * colsOf g - 1 := by
    intro x k hk
    rcases hk with hk | hk
    · have := isDist_card_bound hrect hk
      omega
    · have := isDist_card_bound hrect hk
      omega
  have hstab := stA_stab hrect hacc
    (show rowsOf g * colsOf g - 1 ≤ rowsOf g * colsOf g by omega)
    (smallGrid_sz hsz (by omega)) hall
  have hvals : cellVals (rowsOf g) (colsOf g) (stA g (rowsOf g * colsOf g)) =
      cellVals (rowsOf g) (colsOf g) (stA g (rowsOf g * colsOf g - 1)) := by
    unfold cellVals
    apply List.map_congr_left
    intro c _
    exact hstab c
  right
  obtain ⟨t, ht⟩ : ∃ t, rowsOf g * colsOf g - 1 = t + 1 :=
    ⟨rowsOf g * colsOf g - 2, by omega⟩
  have hNt : rowsOf g * colsOf g = t + 2 := by omega
  constructor
  · show mnAt g (rowsOf g * colsOf g) = pmnAt g (rowsOf g * colsOf g - 1)
    rw [ht, hNt]
    show minNeg (rowsOf g) (colsOf g) (stA g (t+2)) = mnAt g (t+1)
    unfold mnAt minNeg
    rw [show ((t:ℕ)+2) = rowsOf g * colsOf g by omega,
      show ((t:ℕ)+1) = rowsOf g * colsOf g - 1 by omega, hvals]
  · show mpAt g (rowsOf g * colsOf g) = pmpAt g (rowsOf g * colsOf g - 1)
    rw [ht, hNt]
    show maxPos (rowsOf g) (colsOf g) (stA g (t+2)) = mpAt g (t+1)
    unfold mpAt maxPos
    rw [show ((t:ℕ)+2) = rowsOf g * colsOf g by omega,
      show ((t:ℕ)+1) = rowsOf g * colsOf g - 1 by omega, hvals]

lemma pickS_inv (st : Mat) :
    ∀ (cand : List Cell) (q : Cell) (ob : Option ℤ),
      (cand.foldl (pickStepS st) (q, ob) = (q, ob) ∨
        ((cand.foldl (pickStepS st) (q, ob)).1 ∈ cand ∧
         (cand.foldl (pickStepS st) (q, ob)).2 =
           some (g2 st (cand.foldl (pickStepS st) (q, ob)).1.1
             (cand.foldl (pickStepS st) (q, ob)).1.2) ∧
         0 < g2 st (cand.foldl (pickStepS st) (q, ob)).1.1
           (cand.foldl (pickStepS st) (q, ob)).1.2)) ∧
      (∀ p ∈ cand, 0 < g2 st p.1 p.2 →
        ∃ b, (cand.foldl (pickStepS st) (q, ob)).2 = some b ∧
          b ≤ g2 st p.1 p.2) ∧
      (∀ b₀, ob = some b₀ →
        ∃ b, (cand.foldl (pickStepS st) (q, ob)).2 = some b ∧ b ≤ b₀) := by
  intro cand
  induction cand with
  | nil =>
    intro q ob
    refine ⟨Or.inl rfl, ?_, ?_⟩
    · intro p hp
      simp at hp
    · intro b₀ hb₀
      exact ⟨b₀, by simp [hb₀], le_rfl⟩
  | cons a t ih =>
    intro q ob
    rcases hob : ob with _ | b₀
    · by_cases hva : 0 < g2 st a.1 a.2
      · have hstep : pickStepS st (q, none) a = (a, some (g2 st a.1 a.2)) := by
          unfold pickStepS
          simp [hva]
        rw [show (a :: t).foldl (pickStepS st) (q, none) =
            t.foldl (pickStepS st) (pickStepS st (q, none) a) from rfl, hstep]
        obtain ⟨ihA, ihB, ihC⟩ := ih a (some (g2 st a.1 a.2))
        refine ⟨?_, ?_, ?_⟩
        · rcases ihA with h | h
          · right
            rw [h]
            exact ⟨List.mem_cons_self _ _, rfl, hva⟩
          · right
            exact ⟨List.mem_cons_of_mem _ h.1, h.2.1, h.2.2⟩
        · intro p hp hpv
          rcases List.mem_cons.mp hp with rfl | hp'
          · exact ihC _ rfl
          · exact ihB p hp' hpv
        · intro b₁ hb₁
          simp at hb₁
      · have hstep : pickStepS st (q, none) a = (q, none) := by
          unfold pickStepS
          simp [hva]
        rw [show (a :: t).foldl (pickStepS st) (q, none) =
            t.foldl (pickStepS st) (pickStepS st (q, none) a) from rfl, hstep]
        obtain ⟨ihA, ihB, ihC⟩ := ih q none
        refine ⟨?_, ?_, ?_⟩
        · rcases ihA with h | h
          · exact Or.inl h
          · exact Or.inr ⟨List.mem_cons_of_mem _ h.1, h.2.1, h.2.2⟩
        · intro p hp hpv
          rcases List.mem_cons.mp hp with rfl | hp'
          · exact absurd hpv hva
          · exact ihB p hp' hpv
        · intro b₁ hb₁
          simp at hb₁
    · by_cases hva : 0 < g2 st a.1 a.2 ∧ g2 st a.1 a.2 < b₀
      · have hstep : pickStepS st (q, some b₀) a = (a, some (g2 st a.1 a.2)) := by
          unfold pickStepS
          simp [hva]
        rw [show (a :: t).foldl (pickStepS st) (q, some b₀) =
            t.foldl (pickStepS st) (pickStepS st (q, some b₀) a) from rfl, hstep]
        obtain ⟨ihA, ihB, ihC⟩ := ih a (some (g2 st a.1 a.2))
        refine ⟨?_, ?_, ?_⟩
        · rcases ihA with h | h
          · right
            rw [h]
            exact ⟨List.mem_cons_self _ _, rfl, hva.1⟩
          · right
            exact ⟨List.mem_cons_of_mem _ h.1, h.2.1, h.2.2⟩
        · intro p hp hpv
          rcases List.mem_cons.mp hp with rfl | hp'
          · exact ihC _ rfl
          · exact ihB p hp' hpv
        · intro b₁ hb₁
          obtain ⟨b, hb, hble⟩ := ihC _ rfl
          refine ⟨b, hb, ?_⟩
          simp only [Option.some_inj] at hb₁
          subst hb₁
          omega
      · have hstep : pickStepS st (q, some b₀) a = (q, some b₀) := by
          unfold pickStepS
          simp [hva]
        rw [show (a :: t).foldl (pickStepS st) (q, some b₀) =
            t.foldl (pickStepS st) (pickStepS st (q, some b₀) a) from rfl, hstep]
        obtain ⟨ihA, ihB, ihC⟩ := ih q (some b₀)
        refine ⟨?_, ?_, ?_⟩
        · rcases ihA with h | h
          · exact Or.inl h
          · exact Or.inr ⟨List.mem_cons_of_mem _ h.1, h.2.1, h.2.2⟩
        · intro p hp hpv
          rcases List.mem_cons.mp hp with rfl | hp'
          · obtain ⟨b, hb, hble⟩ := ihC _ rfl
            refine ⟨b, hb, ?_⟩
            omega
          · exact ihB p hp' hpv
        · intro b₁ hb₁
          simp only [Option.some_inj] at hb₁
          subst hb₁
          exact ihC _ rfl

lemma pickSmallest_spec {st : Mat} {cand : List Cell}
    (hex : ∃ p ∈ cand, 0 < g2 st p.1 p.2) :
    (pickSmallest st cand).1 ∈ cand ∧
    0 < g2 st (pickSmallest st cand).1.1 (pickSmallest st cand).1.2 ∧
    ∀ p ∈ cand, 0 < g2 st p.1 p.2 →
      g2 st (pickSmallest st cand).1.1 (pickSmallest st cand).1.2 ≤
        g2 st p.1 p.2 := by
  obtain ⟨p, hp, hpv⟩ := hex
  obtain ⟨hA, hB, _⟩ := pickS_inv st cand (0, 0) none
  obtain ⟨b, hb, hble⟩ := hB p hp hpv
  unfold pickSmallest
  rcases hA with h | ⟨hmem, hval, hpos⟩
  · rw [h] at hb
    simp at hb
  · refine ⟨hmem, hpos, ?_⟩
    intro p' hp' hp'v
    obtain ⟨b', hb', hb'le⟩ := hB p' hp' hp'v
    rw [hval] at hb'
    simp only [Option.some_inj] at hb'
    omega

lemma pickL_inv (st : Mat) :
    ∀ (cand : List Cell) (q : Cell) (b₀ : ℤ),
      (cand.foldl (pickStepL st) (q, b₀) = (q, b₀) ∨
        ((cand.foldl (pickStepL st) (q, b₀)).1 ∈ cand ∧
         (cand.foldl (pickStepL st) (q, b₀)).2 =
           g2 st (cand.foldl (pickStepL st) (q, b₀)).1.1
             (cand.foldl (pickStepL st) (q, b₀)).1.2 ∧
         (cand.foldl (pickStepL st) (q, b₀)).2 < 0 ∧
         b₀ < (cand.foldl (pickStepL st) (q, b₀)).2)) ∧
      (∀ p ∈ cand, g2 st p.1 p.2 < 0 → b₀ < g2 st p.1 p.2 →
        g2 st p.1 p.2 ≤ (cand.foldl (pickStepL st) (q, b₀)).2) ∧
      b₀ ≤ (cand.foldl (pickStepL st) (q, b₀)).2 := by
  intro cand
  induction cand with
  | nil =>
    intro q b₀
    refine ⟨Or.inl rfl, ?_, le_rfl⟩
    intro p hp
    simp at hp
  | cons a t ih =>
    intro q b₀
    have hfold : (a :: t).foldl (pickStepL st) (q, b₀) =
        t.foldl (pickStepL st) (pickStepL st (q, b₀) a) := rfl
    by_cases hva : g2 st a.1 a.2 < 0 ∧ b₀ < g2 st a.1 a.2
    · have hstep : pickStepL st (q, b₀) a = (a, g2 st a.1 a.2) := by
        unfold pickStepL
        simp [hva]
      rw [hfold, hstep]
      obtain ⟨ihA, ihB, ihC⟩ := ih a (g2 st a.1 a.2)
      refine ⟨?_, ?_, ?_⟩
      · rcases ihA with h | h
        · right
          rw [h]
          exact ⟨List.mem_cons_self _ _, rfl, hva.1, hva.2⟩
        · right
          exact ⟨List.mem_cons_of_mem _ h.1, h.2.1, h.2.2.1, by
            have := h.2.2.2
            omega⟩
      · intro p hp hpv hpb
        rcases List.mem_cons.mp hp with rfl | hp'
        · exact ihC
        · by_cases hgt : g2 st a.1 a.2 < g2 st p.1 p.2
          · exact ihB p hp' hpv hgt
          · omega
      · omega
    · have hstep : pickStepL st (q, b₀) a = (q, b₀) := by
        unfold pickStepL
        simp only [hva, if_neg]
        simp [hva]
      rw [hfold, hstep]
      obtain ⟨ihA, ihB, ihC⟩ := ih q b₀
      refine ⟨?_, ?_, ihC⟩
      · rcases ihA with h | h
        · exact Or.inl h
        · exact Or.inr ⟨List.mem_cons_of_mem _ h.1, h.2⟩
      · intro p hp hpv hpb
        rcases List.mem_cons.mp hp with rfl | hp'
        · exact absurd ⟨hpv, hpb⟩ hva
        · exact ihB p hp' hpv hpb

lemma pickLargest_spec {st : Mat} {cand : List Cell}
    (hex : ∃ p ∈ cand, g2 st p.1 p.2 < 0 ∧ -1000000000 < g2 st p.1 p.2) :
    (pickLargest st cand).1 ∈ cand ∧
    g2 st (pickLargest st cand).1.1 (pickLargest st cand).1.2 < 0 ∧
    ∀ p ∈ cand, g2 st p.1 p.2 < 0 → -1000000000 < g2 st p.1 p.2 →
      g2 st p.1 p.2 ≤
        g2 st (pickLargest st cand).1.1 (pickLargest st cand).1.2 := by
  obtain ⟨p, hp, hpv, hpb⟩ := hex
  obtain ⟨hA, hB, _⟩ := pickL_inv st cand (0, 0) (-1000000000)
  have hge := hB p hp hpv hpb
  unfold pickLargest
  rcases hA with h | ⟨hmem, hval, hneg, _⟩
  · rw [h] at hge
    simp at hge
    omega
  · refine ⟨hmem, hval ▸ hneg, ?_⟩
    intro p' hp' hp'v hp'b
    have := hB p' hp' hp'v hp'b
    rw [hval] at this
    exact this

lemma mem_nbrList_iff {R C x y : ℕ} (hx : x < R) (hy : y < C) {d : Cell} :
    d ∈ nbrList R C x y ↔ adjC d (x, y) ∧ d.1 < R ∧ d.2 < C := by
  obtain ⟨d1, d2⟩ := d
  by_cases h1 : 1 ≤ x <;> by_cases h2 : 1 ≤ y <;>
    by_cases h3 : x < R - 1 <;> by_cases h4 : y < C - 1 <;>
    simp [nbrList, h1, h2, h3, h4, adjC, Prod.ext_iff] <;> omega

lemma val_one_start {g : Mat} {s : ℕ} (hf : FormulaAt g s) {c : Cell}
    (h : g2 (stA g s) c.1 c.2 = 1) : c = startOf g := by
  have hpos : 0 < g2 (stA g s) c.1 c.2 := by omega
  obtain ⟨k, hk, _, _, hval⟩ := classify_pos hf hpos
  rw [h] at hval
  have hk0 : k = 0 := by omega
  subst hk0
  exact ((hp_zero.mp hk.1).1).symm

lemma val_negone_finish {g : Mat} {s : ℕ} (hf : FormulaAt g s) {c : Cell}
    (h : g2 (stA g s) c.1 c.2 = -1) : c = finishOf g := by
  have hneg : g2 (stA g s) c.1 c.2 < 0 := by omega
  obtain ⟨k, hk, _, _, hval⟩ := classify_neg hf hneg
  rw [h] at hval
  have hk0 : k = 0 := by omega
  subst hk0
  exact ((hp_zero.mp hk.1).1).symm

lemma grad_pos {g : Mat} (hrect : Rect g) {s : ℕ} (hf : FormulaAt g s)
    {c : Cell} {v : ℤ} (hv : g2 (stA g s) c.1 c.2 = v) (h1 : 1 < v) :
    ∃ d ∈ nbrList (rowsOf g) (colsOf g) c.1 c.2,
      g2 (stA g s) d.1 d.2 = v - 1 := by
  have hpos : 0 < g2 (stA g s) c.1 c.2 := by omega
  obtain ⟨k, hk, hks, hkdf, hval⟩ := classify_pos hf hpos
  have hk1 : 1 ≤ k := by omega
  obtain ⟨t, ht⟩ : ∃ t, k = t + 1 := ⟨k - 1, by omega⟩
  subst ht
  obtain ⟨d, hdadj, hdk⟩ := isDist_pred hk
  have hcw : nonwall g c := hp_nonwall_tgt hk.1
  have hdw : nonwall g d := hp_nonwall_tgt hdk.1
  have hd_df : ∀ j, IsDist g (finishOf g) d j → t ≤ j := by
    intro j hj
    obtain ⟨j', hj', hle⟩ := isDist_exists_adj hj hdadj hcw
    have := hkdf j' hj'
    omega
  have hdval := hf.1 d t hdk (by omega) hd_df
  have hcin := nonwall_inbounds hrect hcw
  have hdin := nonwall_inbounds hrect hdw
  refine ⟨d, (mem_nbrList_iff hcin.1 hcin.2).mpr ⟨hdadj, hdin.1, hdin.2⟩, ?_⟩
  rw [hdval]
  rw [hv] at hval
  push_cast at hval ⊢
  omega

lemma grad_neg {g : Mat} (hrect : Rect g) {s : ℕ} (hf : FormulaAt g s)
    {c : Cell} {v : ℤ} (hv : g2 (stA g s) c.1 c.2 = v) (h1 : v < -1) :
    ∃ d ∈ nbrList (rowsOf g) (colsOf g) c.1 c.2,
      g2 (stA g s) d.1 d.2 = v + 1 := by
  have hneg : g2 (stA g s) c.1 c.2 < 0 := by omega
  obtain ⟨k, hk, hks, hkds, hval⟩ := classify_neg hf hneg
  have hk1 : 1 ≤ k := by omega
  obtain ⟨t, ht⟩ : ∃ t, k = t + 1 := ⟨k - 1, by omega⟩
  subst ht
  obtain ⟨d, hdadj, hdk⟩ := isDist_pred hk
  have hcw : nonwall g c := hp_nonwall_tgt hk.1
  have hdw : nonwall g d := hp_nonwall_tgt hdk.1
  have hd_ds : ∀ j, IsDist g (startOf g) d j → t < j := by
    intro j hj
    obtain ⟨j', hj', hle⟩ := isDist_exists_adj hj hdadj hcw
    have := hkds j' hj'
    omega
  have hdval := hf.2.1 d t hdk (by omega) hd_ds
  have hcin := nonwall_inbounds hrect hcw
  have hdin := nonwall_inbounds hrect hdw
  refine ⟨d, (mem_nbrList_iff hcin.1 hcin.2).mpr ⟨hdadj, hdin.1, hdin.2⟩, ?_⟩
  rw [hdval]
  rw [hv] at hval
  push_cast at hval ⊢
  omega

lemma nbr_pos_lb {g : Mat} {s : ℕ} (hf : FormulaAt g s) {c d : Cell}
    (hcp : 0 < g2 (stA g s) c.1 c.2) (hadj : adjC d c)
    (hdp : 0 < g2 (stA g s) d.1 d.2) :
    g2 (stA g s) c.1 c.2 - 1 ≤ g2 (stA g s) d.1 d.2 := by
  obtain ⟨k, hk, _, _, hval⟩ := classify_pos hf hcp
  obtain ⟨k', hk', _, _, hval'⟩ := classify_pos hf hdp
  have := isDist_adj_le hk' hadj (hp_nonwall_tgt hk.1) hk
  omega

lemma nbr_neg_ub {g : Mat} {s : ℕ} (hf : FormulaAt g s) {c d : Cell}
    (hcn : g2 (stA g s) c.1 c.2 < 0) (hadj : adjC d c)
    (hdn : g2 (stA g s) d.1 d.2 < 0) :
    g2 (stA g s) d.1 d.2 ≤ g2 (stA g s) c.1 c.2 + 1 := by
  obtain ⟨k, hk, _, _, hval⟩ := classify_neg hf hcn
  obtain ⟨k', hk', _, _, hval'⟩ := classify_neg hf hdn
  have := isDist_adj_le hk' hadj (hp_nonwall_tgt hk.1) hk
  omega

lemma walkS_desc {g : Mat} (hrect : Rect g) {s : ℕ} (hf : FormulaAt g s) :
    ∀ (n : ℕ) (c : Cell) (acc : List Cell) (fuel : ℕ),
      g2 (stA g s) c.1 c.2 = (n : ℤ) + 1 → n + 1 ≤ fuel →
      ∃ l, walkS (rowsOf g) (colsOf g) (stA g s) fuel c acc = some (acc ++ l) ∧
        l.length = n ∧ DescChain (rowsOf g) (colsOf g) (stA g s) (c :: l) := by
  intro n
  induction n with
  | zero =>
    intro c acc fuel hval hfuel
    obtain ⟨f', rfl⟩ : ∃ f', fuel = f' + 1 := ⟨fuel - 1, by omega⟩
    refine ⟨[], ?_, rfl, ?_⟩
    · simp only [walkS]
      rw [if_pos (by rw [hval]; norm_num)]
      simp
    · show g2 (stA g s) c.1 c.2 = 1
      rw [hval]
      norm_num
  | succ n ih =>
    intro c acc fuel hval hfuel
    obtain ⟨f', rfl⟩ : ∃ f', fuel = f' + 1 := ⟨fuel - 1, by omega⟩
    have hcne : ¬ g2 (stA g s) c.1 c.2 = 1 := by
      rw [hval]
      push_cast
      omega
    obtain ⟨d, hdmem, hdval⟩ := grad_pos hrect hf hval (by push_cast; omega)
    have hcin : c.1 < rowsOf g ∧ c.2 < colsOf g :=
      nonzero_inbounds (by rw [hval]; push_cast; omega)
    have hex : ∃ p ∈ nbrList (rowsOf g) (colsOf g) c.1 c.2,
        0 < g2 (stA g s) p.1 p.2 :=
      ⟨d, hdmem, by rw [hdval]; push_cast; omega⟩
    obtain ⟨hpmem, hppos, hpmin⟩ := pickSmallest_spec hex
    have hpadj : adjC (pickSmallest (stA g s)
        (nbrList (rowsOf g) (colsOf g) c.1 c.2)).1 c :=
      ((mem_nbrList_iff hcin.1 hcin.2).mp hpmem).1
    have hplb := nbr_pos_lb hf (by rw [hval]; push_cast; omega) hpadj hppos
    have hpub := hpmin d hdmem (by rw [hdval]; push_cast; omega)
    rw [hdval] at hpub
    have hpval : g2 (stA g s) (pickSmallest (stA g s)
        (nbrList (rowsOf g) (colsOf g) c.1 c.2)).1.1
        (pickSmallest (stA g s)
          (nbrList (rowsOf g) (colsOf g) c.1 c.2)).1.2 = (n : ℤ) + 1 := by
      rw [hval] at hplb
      push_cast at hplb hpub ⊢
      omega
    obtain ⟨l', hwalk, hlen, hchain⟩ := ih _ (acc ++
      [(pickSmallest (stA g s) (nbrList (rowsOf g) (colsOf g) c.1 c.2)).1])
      f' hpval (by omega)
    refine ⟨(pickSmallest (stA g s)
      (nbrList (rowsOf g) (colsOf g) c.1 c.2)).1 :: l', ?_, by simp [hlen], ?_⟩
    · simp only [walkS]
      rw [if_neg hcne, hwalk]
      simp
    · exact ⟨hpmem, by rw [hpval, hval]; push_cast; ring, hchain⟩

lemma walkF_asc {g : Mat} (hrect : Rect g) {s : ℕ} (hf : FormulaAt g s)
    (hbig : (s : ℤ) + 2 ≤ 1000000000) :
    ∀ (n : ℕ) (c : Cell) (acc : List Cell) (fuel : ℕ),
      g2 (stA g s) c.1 c.2 = -((n : ℤ) + 1) → n + 1 ≤ fuel →
      ∃ l, walkF (rowsOf g) (colsOf g) (stA g s) fuel c acc = some (acc ++ l) ∧
        l.length = n ∧ AscChain (rowsOf g) (colsOf g) (stA g s) (c :: l) := by
  intro n
  induction n with
  | zero =>
    intro c acc fuel hval hfuel
    obtain ⟨f', rfl⟩ : ∃ f', fuel = f' + 1 := ⟨fuel - 1, by omega⟩
    refine ⟨[], ?_, rfl, ?_⟩
    · simp only [walkF]
      rw [if_pos (by rw [hval]; norm_num)]
      simp
    · show g2 (stA g s) c.1 c.2 = -1
      rw [hval]
      norm_num
  | succ n ih =>
    intro c acc fuel hval hfuel
    obtain ⟨f', rfl⟩ : ∃ f', fuel = f' + 1 := ⟨fuel - 1, by omega⟩
    have hcne : ¬ g2 (stA g s) c.1 c.2 = -1 := by
      rw [hval]
      push_cast
      omega
    obtain ⟨d, hdmem, hdval⟩ := grad_neg hrect hf hval (by push_cast; omega)
    have hcin : c.1 < rowsOf g ∧ c.2 < colsOf g :=
      nonzero_inbounds (by rw [hval]; push_cast; omega)
    have hdabs := stA_abs_le g s d.1 d.2
    rw [abs_le] at hdabs
    have hex : ∃ p ∈ nbrList (rowsOf g) (colsOf g) c.1 c.2,
        g2 (stA g s) p.1 p.2 < 0 ∧ -1000000000 < g2 (stA g s) p.1 p.2 := by
      refine ⟨d, hdmem, by rw [hdval]; push_cast; omega, ?_⟩
      omega
    obtain ⟨hpmem, hpneg, hpmax⟩ := pickLargest_spec hex
    have hpadj : adjC (pickLargest (stA g s)
        (nbrList (rowsOf g) (colsOf g) c.1 c.2)).1 c :=
      ((mem_nbrList_iff hcin.1 hcin.2).mp hpmem).1
    have hpub := nbr_neg_ub hf (by rw [hval]; push_cast; omega) hpadj hpneg
    have hplb := hpmax d hdmem (by rw [hdval]; push_cast; omega)
      (by omega)
    rw [hdval] at hplb
    have hpval : g2 (stA g s) (pickLargest (stA g s)
        (nbrList (rowsOf g) (colsOf g) c.1 c.2)).1.1
        (pickLargest (stA g s)
          (nbrList (rowsOf g) (colsOf g) c.1 c.2)).1.2 = -((n : ℤ) + 1) := by
      rw [hval] at hpub
      push_cast at hpub hplb ⊢
      omega
    obtain ⟨l', hwalk, hlen, hchain⟩ := ih _ (acc ++
      [(pickLargest (stA g s) (nbrList (rowsOf g) (colsOf g) c.1 c.2)).1])
      f' hpval (by omega)
    refine ⟨(pickLargest (stA g s)
      (nbrList (rowsOf g) (colsOf g) c.1 c.2)).1 :: l', ?_, by simp [hlen], ?_⟩
    · simp only [walkF]
      rw [if_neg hcne, hwalk]
      simp
    · exact ⟨hpmem, by rw [hpval, hval]; push_cast; ring, hchain⟩

lemma descChain_head_len {R C : ℕ} {st : Mat} :
    ∀ (l : List Cell) (c : Cell), DescChain R C st (c :: l) →
      g2 st c.1 c.2 = (l.length : ℤ) + 1 := by
  intro l
  induction l with
  | nil =>
    intro c hch
    have : g2 st c.1 c.2 = 1 := hch
    simpa using this
  | cons d t ih =>
    intro c hch
    obtain ⟨_, hdec, hch'⟩ := hch
    have hd := ih d hch'
    rw [hd] at hdec
    simp only [List.length_cons]
    push_cast
    omega

lemma descChain_last_start {g : Mat} {s : ℕ} (hf : FormulaAt g s) :
    ∀ (l : List Cell) (c : Cell),
      DescChain (rowsOf g) (colsOf g) (stA g s) (c :: l) →
      (c :: l).getLast (by simp) = startOf g := by
  intro l
  induction l with
  | nil =>
    intro c hch
    exact val_one_start hf hch
  | cons d t ih =>
    intro c hch
    obtain ⟨_, _, hch'⟩ := hch
    exact ih d hch'

lemma descChain_all_pos {R C : ℕ} {st : Mat} :
    ∀ (l : List Cell) (c : Cell), DescChain R C st (c :: l) →
      ∀ x ∈ c :: l, 0 < g2 st x.1 x.2 := by
  intro l
  induction l with
  | nil =>
    intro c hch x hx
    rcases List.mem_singleton.mp hx with rfl
    have : g2 st x.1 x.2 = 1 := hch
    omega
  | cons d t ih =>
    intro c hch x hx
    obtain ⟨hmem, hdec, hch'⟩ := hch
    rcases List.mem_cons.mp hx with rfl | hx'
    · have h1 := descChain_head_len (d :: t) x ⟨hmem, hdec, hch'⟩
      omega
    · exact ih d hch' x hx'

lemma descChain_le_head {R C : ℕ} {st : Mat} :
    ∀ (l : List Cell) (c : Cell), DescChain R C st (c :: l) →
      ∀ x ∈ c :: l, g2 st x.1 x.2 ≤ (l.length : ℤ) + 1 := by
  intro l
  induction l with
  | nil =>
    intro c hch x hx
    rcases List.mem_singleton.mp hx with rfl
    have : g2 st x.1 x.2 = 1 := hch
    omega
  | cons d t ih =>
    intro c hch x hx
    obtain ⟨hmem, hdec, hch'⟩ := hch
    rcases List.mem_cons.mp hx with rfl | hx'
    · exact le_of_eq (descChain_head_len (d :: t) x ⟨hmem, hdec, hch'⟩)
    · have h1 := ih d hch' x hx'
      simp only [List.length_cons]
      push_cast
      push_cast at h1
      omega

lemma descChain_nodup {R C : ℕ} {st : Mat} :
    ∀ (l : List Cell) (c : Cell), DescChain R C st (c :: l) →
      (c :: l).Nodup := by
  intro l
  induction l with
  | nil =>
    intro c _
    simp
  | cons d t ih =>
    intro c hch
    obtain ⟨hmem, hdec, hch'⟩ := hch
    refine List.nodup_cons.mpr ⟨?_, ih d hch'⟩
    intro hcmem
    have hle := descChain_le_head t d hch' c hcmem
    have hhead' := descChain_head_len t d hch'
    rw [hhead'] at hdec
    omega

lemma descChain_chain' {g : Mat} {s : ℕ} :
    ∀ (l : List Cell) (c : Cell),
      DescChain (rowsOf g) (colsOf g) (stA g s) (c :: l) →
      List.Chain' adjC (c :: l) := by
  intro l
  induction l with
  | nil =>
    intro c _
    simp
  | cons d t ih =>
    intro c hch
    obtain ⟨hmem, hdec, hch'⟩ := hch
    rw [List.chain'_cons]
    have hcpos : 0 < g2 (stA g s) c.1 c.2 :=
      descChain_all_pos (d :: t) c ⟨hmem, hdec, hch'⟩ c (by simp)
    have hcne : g2 (stA g s) c.1 c.2 ≠ 0 := by omega
    have hcin := nonzero_inbounds hcne
    exact ⟨adjC_symm ((mem_nbrList_iff hcin.1 hcin.2).mp hmem).1, ih d hch'⟩

lemma ascChain_head_len {R C : ℕ} {st : Mat} :
    ∀ (l : List Cell) (c : Cell), AscChain R C st (c :: l) →
      g2 st c.1 c.2 = -((l.length : ℤ) + 1) := by
  intro l
  induction l with
  | nil =>
    intro c hch
    have : g2 st c.1 c.2 = -1 := hch
    simpa using this
  | cons d t ih =>
    intro c hch
    obtain ⟨_, hinc, hch'⟩ := hch
    have hd := ih d hch'
    rw [hd] at hinc
    simp only [List.length_cons]
    push_cast
    omega

lemma ascChain_last_finish {g : Mat} {s : ℕ} (hf : FormulaAt g s) :
    ∀ (l : List Cell) (c : Cell),
      AscChain (rowsOf g) (colsOf g) (stA g s) (c :: l) →
      (c :: l).getLast (by simp) = finishOf g := by
  intro l
  induction l with
  | nil =>
    intro c hch
    exact val_negone_finish hf hch
  | cons d t ih =>
    intro c hch
    obtain ⟨_, _, hch'⟩ := hch
    exact ih d hch'

lemma ascChain_all_neg {R C : ℕ} {st : Mat} :
    ∀ (l : List Cell) (c : Cell), AscChain R C st (c :: l) →
      ∀ x ∈ c :: l, g2 st x.1 x.2 < 0 := by
  intro l
  induction l with
  | nil =>
    intro c hch x hx
    rcases List.mem_singleton.mp hx with rfl
    have : g2 st x.1 x.2 = -1 := hch
    omega
  | cons d t ih =>
    intro c hch x hx
    obtain ⟨hmem, hinc, hch'⟩ := hch
    rcases List.mem_cons.mp hx with rfl | hx'
    · have h1 := ascChain_head_len (d :: t) x ⟨hmem, hinc, hch'⟩
      push_cast at h1
      omega
    · exact ih d hch' x hx'

lemma ascChain_ge_head {R C : ℕ} {st : Mat} :
    ∀ (l : List Cell) (c : Cell), AscChain R C st (c :: l) →
      ∀ x ∈ c :: l, -((l.length : ℤ) + 1) ≤ g2 st x.1 x.2 := by
  intro l
  induction l with
  | nil =>
    intro c hch x hx
    rcases List.mem_singleton.mp hx with rfl
    have : g2 st x.1 x.2 = -1 := hch
    omega
  | cons d t ih =>
    intro c hch x hx
    obtain ⟨hmem, hinc, hch'⟩ := hch
    rcases List.mem_cons.mp hx with rfl | hx'
    · exact le_of_eq (ascChain_head_len (d :: t) x ⟨hmem, hinc, hch'⟩).symm
    · have h1 := ih d hch' x hx'
      simp only [List.length_cons]
      push_cast
      push_cast at h1
      omega

lemma ascChain_nodup {R C : ℕ} {st : Mat} :
    ∀ (l : List Cell) (c : Cell), AscChain R C st (c :: l) →
      (c :: l).Nodup := by
  intro l
  induction l with
  | nil =>
    intro c _
    simp
  | cons d t ih =>
    intro c hch
    obtain ⟨hmem, hinc, hch'⟩ := hch
    refine List.nodup_cons.mpr ⟨?_, ih d hch'⟩
    intro hcmem
    have hge := ascChain_ge_head t d hch' c hcmem
    have hhead' := ascChain_head_len t d hch'
    rw [hhead'] at hinc
    omega

lemma ascChain_chain' {g : Mat} {s : ℕ} :
    ∀ (l : List Cell) (c : Cell),
      AscChain (rowsOf g) (colsOf g) (stA g s) (c :: l) →
      List.Chain' adjC (c :: l) := by
  intro l
  induction l with
  | nil =>
    intro c _
    simp
  | cons d t ih =>
    intro c hch
    obtain ⟨hmem, hinc, hch'⟩ := hch
    rw [List.chain'_cons]
    have hcneg : g2 (stA g s) c.1 c.2 < 0 :=
      ascChain_all_neg (d :: t) c ⟨hmem, hinc, hch'⟩ c (by simp)
    have hcne : g2 (stA g s) c.1 c.2 ≠ 0 := by omega
    have hcin := nonzero_inbounds hcne
    exact ⟨adjC_symm ((mem_nbrList_iff hcin.1 hcin.2).mp hmem).1, ih d hch'⟩

lemma val_nonwall {g : Mat} {s : ℕ} (hf : FormulaAt g s) {c : Cell}
    (h : g2 (stA g s) c.1 c.2 ≠ 0) : nonwall g c := by
  rcases lt_or_gt_of_ne h with hneg | hpos
  · obtain ⟨k, hk, _, _, _⟩ := classify_neg hf hneg
    exact hp_nonwall_tgt hk.1
  · obtain ⟨k, hk, _, _, _⟩ := classify_pos hf hpos
    exact hp_nonwall_tgt hk.1

lemma collAtB_partner {st : Mat} {m : Cell}
    (h : collAtB st m.1 m.2 = true) :
    ∃ d : Cell, adjC d m ∧ g2 st d.1 d.2 * g2 st m.1 m.2 < 0 := by
  simp only [collAtB, Bool.or_eq_true, decide_eq_true_eq] at h
  rcases h with h | h
  · exact ⟨(m.1 + 1, m.2), Or.inr ⟨rfl, Or.inl rfl⟩, h⟩
  · by_cases hj : m.2 = 0
    · rw [if_pos hj] at h
      simp at h
    · rw [if_neg hj] at h
      refine ⟨(m.1, m.2 - 1), Or.inl ⟨rfl, Or.inr ?_⟩, h⟩
      omega

lemma collCells_head {g : Mat} {s : ℕ} (h : CollP g s) :
    ∃ m, (collCells (rowsOf g) (colsOf g) (stA g s)).head? = some m ∧
      collAtB (stA g s) m.1 m.2 = true := by
  unfold CollP collAnyB at h
  rw [List.any_eq_true] at h
  obtain ⟨c, hmem, hc⟩ := h
  have hne : collCells (rowsOf g) (colsOf g) (stA g s) ≠ [] := by
    intro hnil
    have : c ∈ collCells (rowsOf g) (colsOf g) (stA g s) :=
      List.mem_filter.mpr ⟨hmem, hc⟩
    rw [hnil] at this
    exact absurd this (List.not_mem_nil c)
  obtain ⟨m, l, hml⟩ := List.exists_cons_of_ne_nil hne
  refine ⟨m, by rw [hml]; rfl, ?_⟩
  have : m ∈ collCells (rowsOf g) (colsOf g) (stA g s) := by
    rw [hml]; exact List.mem_cons_self m l
  exact (List.mem_filter.mp this).2

lemma descChain_dstep {R C : ℕ} {st : Mat} :
    ∀ (l : List Cell) (c : Cell), DescChain R C st (c :: l) →
      List.Chain' (DStep st) (c :: l) := by
  intro l
  induction l with
  | nil => intro c _; simp
  | cons d t ih =>
    intro c hch
    obtain ⟨hmem, hdec, hch'⟩ := hch
    rw [List.chain'_cons]
    have hcpos : 0 < g2 st c.1 c.2 :=
      descChain_all_pos (d :: t) c ⟨hmem, hdec, hch'⟩ c (by simp)
    exact ⟨⟨fun _ => hdec, fun hn => absurd hn (by omega)⟩, ih d hch'⟩

lemma ascChain_ustep {R C : ℕ} {st : Mat} :
    ∀ (l : List Cell) (c : Cell), AscChain R C st (c :: l) →
      List.Chain' (UStep st) (c :: l) := by
  intro l
  induction l with
  | nil => intro c _; simp
  | cons d t ih =>
    intro c hch
    obtain ⟨hmem, hinc, hch'⟩ := hch
    rw [List.chain'_cons]
    have hcneg : g2 st c.1 c.2 < 0 :=
      ascChain_all_neg (d :: t) c ⟨hmem, hinc, hch'⟩ c (by simp)
    exact ⟨⟨fun _ => hinc, fun hp => absurd hp (by omega)⟩, ih d hch'⟩

lemma descChain_nbr_ex {R C : ℕ} {st : Mat} :
    ∀ (l : List Cell) (c : Cell), DescChain R C st (c :: l) →
      ∀ x ∈ c :: l, g2 st x.1 x.2 ≠ 1 →
        ∃ d ∈ nbrList R C x.1 x.2, 0 < g2 st d.1 d.2 := by
  intro l
  induction l with
  | nil =>
    intro c hch x hx hne
    rcases List.mem_singleton.mp hx with rfl
    exact absurd hch hne
  | cons d t ih =>
    intro c hch x hx hne
    obtain ⟨hmem, hdec, hch'⟩ := hch
    rcases List.mem_cons.mp hx with rfl | hx'
    · have hdp : 0 < g2 st d.1 d.2 :=
        descChain_all_pos t d hch' d (by simp)
      exact ⟨d, hmem, hdp⟩
    · exact ih d hch' x hx' hne

lemma ascChain_nbr_ex {R C : ℕ} {st : Mat} :
    ∀ (l : List Cell) (c : Cell), AscChain R C st (c :: l) →
      (((c :: l).length : ℤ) ≤ 1000000000) →
      ∀ x ∈ c :: l, g2 st x.1 x.2 ≠ -1 →
        ∃ d ∈ nbrList R C x.1 x.2,
          g2 st d.1 d.2 < 0 ∧ -1000000000 < g2 st d.1 d.2 := by
  intro l
  induction l with
  | nil =>
    intro c hch _ x hx hne
    rcases List.mem_singleton.mp hx with rfl
    exact absurd hch hne
  | cons d t ih =>
    intro c hch hlen x hx hne
    obtain ⟨hmem, hinc, hch'⟩ := hch
    rcases List.mem_cons.mp hx with rfl | hx'
    · have hdn : g2 st d.1 d.2 < 0 :=
        ascChain_all_neg t d hch' d (by simp)
      have hdge : -((t.length : ℤ) + 1) ≤ g2 st d.1 d.2 :=
        ascChain_ge_head t d hch' d (by simp)
      simp only [List.length_cons] at hlen
      push_cast at hlen
      exact ⟨d, hmem, hdn, by omega⟩
    · refine ih d hch' ?_ x hx' hne
      simp only [List.length_cons] at hlen ⊢
      push_cast at hlen ⊢
      omega

lemma recon_pos {g : Mat} (hrect : Rect g) (hacc : Accepted g)
    (hsg : SmallGrid g) {s D : ℕ}
    (hD : IsDist g (startOf g) (finishOf g) D) (h2s : 2 * s ≤ D)
    {m : Cell} (hm : collAtB (stA g s) m.1 m.2 = true)
    (hpos : 0 < g2 (stA g s) m.1 m.2) :
    ReconOut g s D m := by
  have hDRC : D + 1 ≤ rowsOf g * colsOf g := isDist_card_bound hrect hD
  have hsz : (s : ℤ) + 2 ≤ IMAX := smallGrid_sz hsg (by omega)
  have hbig : (s : ℤ) + 2 ≤ 1000000000 := by
    unfold SmallGrid at hsg
    have hsRC : s ≤ rowsOf g * colsOf g := by omega
    omega
  have hf := masterFormula hrect hacc s hsz
  have hfuel : s + 2 ≤ fuelFor g := by unfold fuelFor; omega
  obtain ⟨dd, hdadj, hdprod⟩ := collAtB_partner hm
  have hdneg : g2 (stA g s) dd.1 dd.2 < 0 := by
    rcases mul_neg_iff.mp hdprod with ⟨h1, h2⟩ | ⟨h1, h2⟩
    · omega
    · exact h1
  obtain ⟨km, hkm, hkms, _, hmval⟩ := classify_pos hf hpos
  obtain ⟨kd, hkd, hkds, _, hdval⟩ := classify_neg hf hdneg
  have hmne : g2 (stA g s) m.1 m.2 ≠ 0 := by omega
  have hdne : g2 (stA g s) dd.1 dd.2 ≠ 0 := by omega
  have hmin := nonzero_inbounds hmne
  have hdin := nonzero_inbounds hdne
  have hdmem : dd ∈ nbrList (rowsOf g) (colsOf g) m.1 m.2 :=
    (mem_nbrList_iff hmin.1 hmin.2).mpr ⟨hdadj, hdin.1, hdin.2⟩
  obtain ⟨l1, hws, hl1len, hl1chain⟩ :=
    walkS_desc hrect hf km m [m] (fuelFor g) hmval (by omega)
  obtain ⟨f, hfeq⟩ : ∃ f, fuelFor g = f + 1 := ⟨fuelFor g - 1, by omega⟩
  have hddbd : -1000000000 < g2 (stA g s) dd.1 dd.2 := by
    rw [hdval]; omega
  have hex : ∃ p ∈ nbrList (rowsOf g) (colsOf g) m.1 m.2,
      g2 (stA g s) p.1 p.2 < 0 ∧ -1000000000 < g2 (stA g s) p.1 p.2 :=
    ⟨dd, hdmem, hdneg, hddbd⟩
  obtain ⟨hp0mem, hp0neg, hp0max⟩ := pickLargest_spec hex
  set p0 := (pickLargest (stA g s)
    (nbrList (rowsOf g) (colsOf g) m.1 m.2)).1 with hp0def
  obtain ⟨j, hj, hjs, _, hjval⟩ := classify_neg hf hp0neg
  have hjkd : j ≤ kd := by
    have hmx := hp0max dd hdmem hdneg hddbd
    rw [hdval, hjval] at hmx
    omega
  obtain ⟨l2', hwf', hl2len, hl2chain⟩ :=
    walkF_asc hrect hf hbig j p0 ((m :: l1).reverse ++ [p0]) f hjval (by omega)
  have hwf : walkF (rowsOf g) (colsOf g) (stA g s) (fuelFor g) m
      (m :: l1).reverse = some ((m :: l1).reverse ++ (p0 :: l2')) := by
    rw [hfeq]
    simp only [walkF]
    rw [if_neg (by omega : ¬ g2 (stA g s) m.1 m.2 = -1)]
    rw [← hp0def, hwf']
    simp
  have hp0adj : adjC p0 m := ((mem_nbrList_iff hmin.1 hmin.2).mp hp0mem).1
  have hp0ne : g2 (stA g s) p0.1 p0.2 ≠ 0 := by omega
  have hpath1 : HasPath g (km + 1) (startOf g) p0 :=
    hp_extend hkm.1 (adjC_symm hp0adj) (val_nonwall hf hp0ne)
  have hpath : HasPath g (km + 1 + j) (startOf g) (finishOf g) :=
    hp_trans hpath1 (hp_symm hj.1)
  have hlow : D ≤ km + 1 + j := isDist_le hD hpath
  have hDval : D = km + 1 + j := by
    obtain ⟨a, ha⟩ := hp_parity hpath
    obtain ⟨b, hb⟩ := hp_parity hD.1
    omega
  refine ⟨l1, p0 :: l2', by simpa using hws, hwf, ?_, ?_, ?_, ?_, ?_, ?_,
    descChain_dstep l1 m hl1chain, ?_, descChain_nbr_ex l1 m hl1chain, ?_⟩
  · simp only [List.length_append, List.length_reverse, List.length_cons,
      hl1len, hl2len]
    omega
  · rw [List.head?_append_of_ne_nil _ (by simp)]
    rw [List.head?_reverse]
    rw [List.getLast?_eq_getLast (m :: l1) (by simp)]
    rw [descChain_last_start hf l1 m hl1chain]
  · rw [List.getLast?_append_cons]
    rw [List.getLast?_eq_getLast (p0 :: l2') (by simp)]
    rw [ascChain_last_finish hf l2' p0 hl2chain]
  · rw [List.chain'_append]
    refine ⟨?_, ascChain_chain' l2' p0 hl2chain, ?_⟩
    · rw [List.chain'_reverse]
      exact (descChain_chain' l1 m hl1chain).imp fun a b h => adjC_symm h
    · intro x hx y hy
      rw [List.getLast?_reverse] at hx
      simp only [List.head?_cons, Option.mem_def, Option.some.injEq] at hx hy
      subst hx
      subst hy
      exact adjC_symm hp0adj
  · intro c hc
    rcases List.mem_append.mp hc with h | h
    · rw [List.mem_reverse] at h
      have := descChain_all_pos l1 m hl1chain c h
      exact val_nonwall hf (by omega)
    · have := ascChain_all_neg l2' p0 hl2chain c h
      exact val_nonwall hf (by omega)
  · rw [List.nodup_append]
    refine ⟨List.nodup_reverse.mpr (descChain_nodup l1 m hl1chain),
      ascChain_nodup l2' p0 hl2chain, ?_⟩
    intro a ha ha2
    rw [List.mem_reverse] at ha
    have h1 := descChain_all_pos l1 m hl1chain a ha
    have h2 := ascChain_all_neg l2' p0 hl2chain a ha2
    omega
  · rw [List.chain'_cons]
    exact ⟨⟨fun hmn => absurd hmn (by omega), fun _ => hp0neg⟩,
      ascChain_ustep l2' p0 hl2chain⟩
  · intro c hc hcne
    rcases List.mem_cons.mp hc with rfl | hc'
    · exact ⟨dd, hdmem, hdneg, hddbd⟩
    · refine ascChain_nbr_ex l2' p0 hl2chain ?_ c hc' hcne
      simp only [List.length_cons, hl2len]
      push_cast
      omega

lemma recon_neg {g : Mat} (hrect : Rect g) (hacc : Accepted g)
    (hsg : SmallGrid g) {s D : ℕ}
    (hD : IsDist g (startOf g) (finishOf g) D) (h2s : 2 * s ≤ D)
    {m : Cell} (hm : collAtB (stA g s) m.1 m.2 = true)
    (hneg : g2 (stA g s) m.1 m.2 < 0) :
    ReconOut g s D m := by
  have hDRC : D + 1 ≤ rowsOf g * colsOf g := isDist_card_bound hrect hD
  have hsz : (s : ℤ) + 2 ≤ IMAX := smallGrid_sz hsg (by omega)
  have hbig : (s : ℤ) + 2 ≤ 1000000000 := by
    unfold SmallGrid at hsg
    have hsRC : s ≤ rowsOf g * colsOf g := by omega
    omega
  have hf := masterFormula hrect hacc s hsz
  have hfuel : s + 2 ≤ fuelFor g := by unfold fuelFor; omega
  obtain ⟨dd, hdadj, hdprod⟩ := collAtB_partner hm
  have hdpos : 0 < g2 (stA g s) dd.1 dd.2 := by
    rcases mul_neg_iff.mp hdprod with ⟨h1, h2⟩ | ⟨h1, h2⟩
    · exact h1
    · omega
  obtain ⟨kmf, hkmf, hkmfs, _, hmval⟩ := classify_neg hf hneg
  obtain ⟨kd, hkd, hkds, _, hdval⟩ := classify_pos hf hdpos
  have hmne : g2 (stA g s) m.1 m.2 ≠ 0 := by omega
  have hdne : g2 (stA g s) dd.1 dd.2 ≠ 0 := by omega
  have hmin := nonzero_inbounds hmne
  have hdin := nonzero_inbounds hdne
  have hdmem : dd ∈ nbrList (rowsOf g) (colsOf g) m.1 m.2 :=
    (mem_nbrList_iff hmin.1 hmin.2).mpr ⟨hdadj, hdin.1, hdin.2⟩
  obtain ⟨f, hfeq⟩ : ∃ f, fuelFor g = f + 1 := ⟨fuelFor g - 1, by omega⟩
  have hex : ∃ p ∈ nbrList (rowsOf g) (colsOf g) m.1 m.2,
      0 < g2 (stA g s) p.1 p.2 := ⟨dd, hdmem, hdpos⟩
  obtain ⟨hp0mem, hp0pos, hp0min⟩ := pickSmallest_spec hex
  set p0 := (pickSmallest (stA g s)
    (nbrList (rowsOf g) (colsOf g) m.1 m.2)).1 with hp0def
  obtain ⟨k, hk, hks, _, hkval⟩ := classify_pos hf hp0pos
  have hkkd : k ≤ kd := by
    have hmn := hp0min dd hdmem hdpos
    rw [hdval, hkval] at hmn
    omega
  obtain ⟨l1', hws', hl1len, hl1chain⟩ :=
    walkS_desc hrect hf k p0 ([m] ++ [p0]) f hkval (by omega)
  have hws : walkS (rowsOf g) (colsOf g) (stA g s) (fuelFor g) m [m]
      = some (m :: p0 :: l1') := by
    rw [hfeq]
    simp only [walkS]
    rw [if_neg (by omega : ¬ g2 (stA g s) m.1 m.2 = 1)]
    rw [← hp0def, hws']
    simp
  obtain ⟨l2, hwf', hl2len, hl2chain⟩ :=
    walkF_asc hrect hf hbig kmf m ((m :: p0 :: l1').reverse) (fuelFor g)
      hmval (by omega)
  have hp0adj : adjC p0 m := ((mem_nbrList_iff hmin.1 hmin.2).mp hp0mem).1
  have hpath1 : HasPath g (k + 1) (startOf g) m :=
    hp_extend hk.1 hp0adj (val_nonwall hf hmne)
  have hpath : HasPath g (k + 1 + kmf) (startOf g) (finishOf g) :=
    hp_trans hpath1 (hp_symm hkmf.1)
  have hlow : D ≤ k + 1 + kmf := isDist_le hD hpath
  have hDval : D = k + 1 + kmf := by
    obtain ⟨a, ha⟩ := hp_parity hpath
    obtain ⟨b, hb⟩ := hp_parity hD.1
    omega
  have hl2neg : ∀ c ∈ l2, g2 (stA g s) c.1 c.2 < 0 := fun c hc =>
    ascChain_all_neg l2 m hl2chain c (List.mem_cons_of_mem m hc)
  have hl1pos : ∀ c ∈ p0 :: l1', 0 < g2 (stA g s) c.1 c.2 :=
    descChain_all_pos l1' p0 hl1chain
  refine ⟨p0 :: l1', l2, hws, hwf', ?_, ?_, ?_, ?_, ?_, ?_, ?_,
    ascChain_ustep l2 m hl2chain, ?_, ?_⟩
  · simp only [List.length_append, List.length_reverse, List.length_cons,
      hl1len, hl2len]
    omega
  · rw [List.head?_append_of_ne_nil _ (by simp)]
    rw [List.head?_reverse]
    rw [List.getLast?_cons_cons]
    rw [List.getLast?_eq_getLast (p0 :: l1') (by simp)]
    rw [descChain_last_start hf l1' p0 hl1chain]
  · rcases hl2c : l2 with _ | ⟨h2, t2⟩
    · have hkmf0 : kmf = 0 := by
        rw [hl2c] at hl2len
        simpa using hl2len.symm
      have hmfin : m = finishOf g := by
        refine val_negone_finish hf ?_
        rw [hmval, hkmf0]
        norm_num
      rw [List.append_nil, List.getLast?_reverse]
      rw [hmfin]
      rfl
    · rw [List.getLast?_append_cons, ← List.getLast?_cons_cons (a := m)]
      rw [← hl2c]
      rw [List.getLast?_eq_getLast (m :: l2) (by simp)]
      rw [ascChain_last_finish hf l2 m hl2chain]
  · rw [List.chain'_append]
    refine ⟨?_, (ascChain_chain' l2 m hl2chain).tail, ?_⟩
    · rw [List.chain'_reverse]
      refine (List.chain'_cons.mpr ⟨adjC_symm hp0adj,
        descChain_chain' l1' p0 hl1chain⟩).imp fun a b h => adjC_symm h
    · intro x hx y hy
      rw [List.getLast?_reverse] at hx
      simp only [List.head?_cons, Option.mem_def, Option.some.injEq] at hx
      subst hx
      rcases hl2c : l2 with _ | ⟨h2, t2⟩
      · rw [hl2c] at hy
        simp at hy
      · rw [hl2c] at hy
        simp only [List.head?_cons, Option.mem_def, Option.some.injEq] at hy
        subst hy
        have := ascChain_chain' l2 m hl2chain
        rw [hl2c] at this
        exact (List.chain'_cons.mp this).1
  · intro c hc
    rcases List.mem_append.mp hc with h | h
    · rw [List.mem_reverse] at h
      rcases List.mem_cons.mp h with rfl | h'
      · exact val_nonwall hf hmne
      · have := hl1pos c h'
        exact val_nonwall hf (by omega)
    · have := hl2neg c h
      exact val_nonwall hf (by omega)
  · rw [List.nodup_append]
    have hmnotl1 : m ∉ p0 :: l1' := by
      intro hmem
      have := hl1pos m hmem
      omega
    have hml2 := List.nodup_cons.mp (ascChain_nodup l2 m hl2chain)
    refine ⟨List.nodup_reverse.mpr
      (List.nodup_cons.mpr ⟨hmnotl1, descChain_nodup l1' p0 hl1chain⟩),
      hml2.2, ?_⟩
    intro a ha ha2
    rw [List.mem_reverse] at ha
    rcases List.mem_cons.mp ha with rfl | ha'
    · exact hml2.1 ha2
    · have h1 := hl1pos a ha'
      have h2 := hl2neg a ha2
      omega
  · rw [List.chain'_cons]
    exact ⟨⟨fun hp => absurd hp (by omega), fun _ => hp0pos⟩,
      descChain_dstep l1' p0 hl1chain⟩
  · intro c hc hcne
    rcases List.mem_cons.mp hc with rfl | hc'
    · exact ⟨dd, hdmem, hdpos⟩
    · exact descChain_nbr_ex l1' p0 hl1chain c hc' hcne
  · refine ascChain_nbr_ex l2 m hl2chain ?_
    simp only [List.length_cons, hl2len]
    push_cast
    omega

lemma recon_spec {g : Mat} (hrect : Rect g) (hacc : Accepted g)
    (hsg : SmallGrid g) {s D : ℕ}
    (hD : IsDist g (startOf g) (finishOf g) D) (h2s : 2 * s ≤ D)
    {m : Cell} (hm : collAtB (stA g s) m.1 m.2 = true) :
    ReconOut g s D m := by
  have hmne : g2 (stA g s) m.1 m.2 ≠ 0 := by
    simp only [collAtB, Bool.or_eq_true, decide_eq_true_eq] at hm
    rcases hm with h | h
    · intro h0
      rw [h0, mul_zero] at h
      exact absurd h (by omega)
    · intro h0
      rw [h0, mul_zero] at h
      exact absurd h (by omega)
  rcases lt_or_gt_of_ne hmne with hneg | hpos
  · exact recon_neg hrect hacc hsg hD h2s hm hneg
  · exact recon_pos hrect hacc hsg hD h2s hm hpos

lemma solver_ok {g : Mat} (hrect : Rect g) (hacc : Accepted g)
    (hsg : SmallGrid g) (hconn : Connected g) (vis : Bool) (glob : Globals) :
    ∃ D sStar m, IsDist g (startOf g) (finishOf g) D ∧ 2 * sStar ≤ D ∧
      collAtB (stA g sStar) m.1 m.2 = true ∧ ReconOut g sStar D m ∧
      ∀ l1 l2,
        walkS (rowsOf g) (colsOf g) (stA g sStar) (fuelFor g) m [m] =
          some (m :: l1) →
        walkF (rowsOf g) (colsOf g) (stA g sStar) (fuelFor g) m
          (m :: l1).reverse = some ((m :: l1).reverse ++ l2) →
        (find_shortest_path g vis glob).1 =
          SolveRes.ok ((m :: l1).reverse ++ l2) (sStar + 1) := by
  classical
  obtain ⟨D, hD, hD1⟩ := dist_of_connected hacc hconn
  have hDRC : D + 1 ≤ rowsOf g * colsOf g := isDist_card_bound hrect hD
  have hszhalf : ((D / 2 : ℕ) : ℤ) + 2 ≤ IMAX := smallGrid_sz hsg (by omega)
  have hcollhalf := collP_at_half hrect hacc hszhalf hD hD1
  have hex : ∃ s, CollP g s := ⟨D / 2, hcollhalf⟩
  have hcoll : CollP g (Nat.find hex) := Nat.find_spec hex
  have hfirst : ∀ t, t < Nat.find hex → ¬CollP g t := fun t ht =>
    Nat.find_min hex ht
  have hle : Nat.find hex ≤ D / 2 := Nat.find_min' hex hcollhalf
  have h2s : 2 * Nat.find hex ≤ D := by omega
  have hszs : ((Nat.find hex : ℕ) : ℤ) + 2 ≤ IMAX := smallGrid_sz hsg (by omega)
  have hnostall : ∀ t, 1 ≤ t → t ≤ Nat.find hex → ¬StallP g t := by
    intro t h1 h2
    exact noStall_connected hrect hacc hD t (smallGrid_sz hsg (by omega)) h1
      (by omega)
  obtain ⟨m, hhead, hmB⟩ := collCells_head hcoll
  have hloop := loopGo_collided_fst hrect hacc vis hszs hcoll hfirst hnostall
    (fuelFor g) 0 (glob.states ++ [initSt g (startOf g) (finishOf g)])
    (by omega) (by unfold fuelFor; omega)
  have hloop2 : (loopGo (rowsOf g) (colsOf g) (wallMask g) (mdTOf g) vis
      (fuelFor g) (initSt g (startOf g) (finishOf g)) 0 0 1
      (glob.states ++ [initSt g (startOf g) (finishOf g)])).1 =
      LoopCore.collided (stA g (Nat.find hex))
        (collCells (rowsOf g) (colsOf g) (stA g (Nat.find hex)))
        (Nat.find hex + 1) := hloop
  refine ⟨D, Nat.find hex, m, hD, h2s, hmB,
    recon_spec hrect hacc hsg hD h2s hmB, ?_⟩
  intro l1 l2 hws hwf
  unfold find_shortest_path
  rw [initializeLab_eq hacc]
  dsimp only
  rcases hlp : loopGo (rowsOf g) (colsOf g) (wallMask g) (mdTOf g) vis
      (fuelFor g) (initSt g (startOf g) (finishOf g)) 0 0 1
      (glob.states ++ [initSt g (startOf g) (finishOf g)]) with ⟨core, accv⟩
  rw [hlp] at hloop2
  simp only at hloop2
  rw [hloop2]
  dsimp only
  rw [hhead]
  dsimp only
  unfold reconstructPath
  rw [hws]
  dsimp only
  rw [hwf]

lemma mpAt_zero {g : Mat} (hacc : Accepted g) : mpAt g 0 = 1 := by
  obtain ⟨hsv, hs1, hs2, _⟩ := startOf_spec hacc
  have hval : g2 (stA g 0) (startOf g).1 (startOf g).2 = 1 := by
    rw [stA_zero, g2_initSt hs1 hs2]
    rw [if_neg ?hne, if_pos rfl]
    case hne =>
      intro heq
      exact start_ne_finish hacc (by simpa using heq)
  refine le_antisymm ?_ ?_
  · apply maxPos_le
    · intro c h1 h2
      have := initSt_abs (g := g) (s := startOf g) (f := finishOf g)
        (i := c.1) (j := c.2)
      rw [abs_le] at this
      exact this.2
    · have hI : IMIN = -9223372036854775808 := rfl
      omega
  · have := @maxPos_ge (rowsOf g) (colsOf g) (stA g 0) (startOf g) hs1 hs2
      (by rw [hval]; norm_num)
    rw [hval] at this
    exact this

lemma mnAt_zero {g : Mat} (hacc : Accepted g) : mnAt g 0 = -1 := by
  obtain ⟨hfv, hf1, hf2, _⟩ := finishOf_spec hacc
  have hval : g2 (stA g 0) (finishOf g).1 (finishOf g).2 = -1 := by
    rw [stA_zero, g2_initSt hf1 hf2, if_pos rfl]
  refine le_antisymm ?_ ?_
  · have := @minNeg_le (rowsOf g) (colsOf g) (stA g 0) (finishOf g) hf1 hf2
      (by rw [hval]; norm_num)
    rw [hval] at this
    exact this
  · apply minNeg_ge
    · intro c h1 h2
      have := initSt_abs (g := g) (s := startOf g) (f := finishOf g)
        (i := c.1) (j := c.2)
      rw [abs_le] at this
      exact this.1
    · have hI : IMAX = 9223372036854775807 := rfl
      omega

lemma noStall_zero {g : Mat} (hacc : Accepted g) : ¬StallP g 0 := by
  unfold StallP
  rw [mpAt_zero hacc, mnAt_zero hacc]
  intro h
  rcases h with h | ⟨h1, h2⟩
  · simp at h
  · rw [show (0 : ℕ) - 1 = 0 from rfl] at h1
    rw [show pmnAt g 0 = 0 from rfl] at h1
    exact absurd h1 (by norm_num)

lemma solver_stalled {g : Mat} (hrect : Rect g) (hacc : Accepted g)
    (hsg : SmallGrid g) (hnconn : ¬Connected g) (vis : Bool) (glob : Globals) :
    ∃ sD, 1 ≤ sD ∧ StallP g sD ∧
      (find_shortest_path g vis glob).1 = SolveRes.noPath (sD + 1) := by
  classical
  have hstallRC := stall_exists_disconnected hrect hacc hsg hnconn
  have hex : ∃ s, StallP g s := ⟨rowsOf g * colsOf g, hstallRC⟩
  have hsD : StallP g (Nat.find hex) := Nat.find_spec hex
  have hfirstS : ∀ t, 1 ≤ t → t < Nat.find hex → ¬StallP g t := fun t _ ht =>
    Nat.find_min hex ht
  have hsDRC : Nat.find hex ≤ rowsOf g * colsOf g := Nat.find_min' hex hstallRC
  have hsD1 : 1 ≤ Nat.find hex := by
    by_contra hcon
    have h0 : Nat.find hex = 0 := by omega
    exact noStall_zero hacc (h0 ▸ hsD)
  have hnc : ∀ t, t + 1 ≤ Nat.find hex → ¬CollP g t := fun t ht =>
    noColl_disconnected hrect hacc hnconn t (smallGrid_sz hsg (by omega))
  have hloop := loopGo_stalled_fst vis hsD1 hsD hfirstS hnc
    (fuelFor g) 0 (glob.states ++ [initSt g (startOf g) (finishOf g)])
    (by omega) (by unfold fuelFor; omega)
  have hloop2 : (loopGo (rowsOf g) (colsOf g) (wallMask g) (mdTOf g) vis
      (fuelFor g) (initSt g (startOf g) (finishOf g)) 0 0 1
      (glob.states ++ [initSt g (startOf g) (finishOf g)])).1 =
      LoopCore.stalled (Nat.find hex + 1) := hloop
  refine ⟨Nat.find hex, hsD1, hsD, ?_⟩
  unfold find_shortest_path
  rw [initializeLab_eq hacc]
  dsimp only
  rcases hlp : loopGo (rowsOf g) (colsOf g) (wallMask g) (mdTOf g) vis
      (fuelFor g) (initSt g (startOf g) (finishOf g)) 0 0 1
      (glob.states ++ [initSt g (startOf g) (finishOf g)]) with ⟨core, accv⟩
  rw [hlp] at hloop2
  simp only at hloop2
  rw [hloop2]

lemma loopGo_fst_vis (R C : ℕ) (mask : Mat) (mdT : ℤ) (vis1 vis2 : Bool) :
    ∀ (fuel : ℕ) (st : Mat) (pmn pmp : ℤ) (step : ℕ) (acc1 acc2 : List Mat),
      (loopGo R C mask mdT vis1 fuel st pmn pmp step acc1).1 =
      (loopGo R C mask mdT vis2 fuel st pmn pmp step acc2).1 := by
  intro fuel
  induction fuel with
  | zero => intro st pmn pmp step acc1 acc2; rfl
  | succ fuel ih =>
    intro st pmn pmp step acc1 acc2
    simp only [loopGo]
    by_cases h1 : mdT ≤ 2 * (step : ℤ) ∧ collAnyB R C st = true
    · rw [if_pos h1, if_pos h1]
    · rw [if_neg h1, if_neg h1]
      by_cases h2 : 1 < |maxPos R C (stepMat R C mask st) +
          minNeg R C (stepMat R C mask st)| ∨
          (minNeg R C (stepMat R C mask st) = pmn ∧
           maxPos R C (stepMat R C mask st) = pmp)
      · rw [if_pos h2, if_pos h2]
      · rw [if_neg h2, if_neg h2]
        exact ih (stepMat R C mask st) (minNeg R C (stepMat R C mask st))
          (maxPos R C (stepMat R C mask st)) (step+1) _ _

lemma stA_wall_zero {g : Mat} (hacc : Accepted g) {c : Cell}
    (hw : g2 g c.1 c.2 = 0) : ∀ s, g2 (stA g s) c.1 c.2 = 0 := by
  intro s
  rcases Nat.lt_or_ge c.1 (rowsOf g) with h1 | h1
  · rcases Nat.lt_or_ge c.2 (colsOf g) with h2 | h2
    · induction s with
      | zero =>
        rw [stA_zero, g2_initSt h1 h2]
        rw [if_neg ?hf, if_neg ?hs]
        case hf =>
          intro heq
          have h3 := (finishOf_spec hacc).1
          have hc1 : (finishOf g).1 = c.1 := by rw [← heq]
          have hc2 : (finishOf g).2 = c.2 := by rw [← heq]
          rw [hc1, hc2, hw] at h3
          exact absurd h3 (by norm_num)
        case hs =>
          intro heq
          have h3 := (startOf_spec hacc).1
          have hc1 : (startOf g).1 = c.1 := by rw [← heq]
          have hc2 : (startOf g).2 = c.2 := by rw [← heq]
          rw [hc1, hc2, hw] at h3
          exact absurd h3 (by norm_num)
      | succ s ih =>
        rw [stA_succ, g2_stepMat h1 h2, ih]
        rw [deltaAt_wall ih (by rw [g2_wallMask h1 h2, if_pos hw])]
        norm_num
    · exact g2_stA_oob (Or.inr h2)
  · exact g2_stA_oob (Or.inl h1)

lemma stA_persist {g : Mat} {c : Cell} {s : ℕ}
    (h : g2 (stA g s) c.1 c.2 ≠ 0) :
    ∀ t, g2 (stA g (s + t)) c.1 c.2 = g2 (stA g s) c.1 c.2 := by
  intro t
  induction t with
  | zero => rfl
  | succ t ih =>
    have hne : g2 (stA g (s + t)) c.1 c.2 ≠ 0 := by rw [ih]; exact h
    have hin := nonzero_inbounds hne
    show g2 (stA g (s + t + 1)) c.1 c.2 = _
    rw [stA_succ, g2_stepMat hin.1 hin.2, deltaAt_stuck hne, add_zero, ih]

lemma find_fst_congr (g : Mat) (vis vis' : Bool) (glob glob' : Globals) :
    (find_shortest_path g vis glob).1 = (find_shortest_path g vis' glob').1 := by
  rcases hinit : initializeLab g with _ | ⟨mask, st0, mdT⟩
  · unfold find_shortest_path
    rw [hinit]
  · unfold find_shortest_path
    rw [hinit]
    dsimp only
    rcases h1 : loopGo (rowsOf g) (colsOf g) mask mdT vis (fuelFor g) st0 0 0 1
        (glob.states ++ [st0]) with ⟨c1, a1⟩
    rcases h2 : loopGo (rowsOf g) (colsOf g) mask mdT vis' (fuelFor g) st0 0 0 1
        (glob'.states ++ [st0]) with ⟨c2, a2⟩
    have hc : c1 = c2 := by
      have hv := loopGo_fst_vis (rowsOf g) (colsOf g) mask mdT vis vis'
        (fuelFor g) st0 0 0 1 (glob.states ++ [st0]) (glob'.states ++ [st0])
      rw [h1, h2] at hv
      exact hv
    subst hc
    cases c1 with
    | collided stF meets steps =>
      dsimp only
      cases hh : meets.head? with
      | none => rfl
      | some m =>
        dsimp only
        cases hr : reconstructPath (rowsOf g) (colsOf g) stF m (fuelFor g) with
        | none => rfl
        | some p => rfl
    | stalled steps => rfl
    | fuelOut => rfl

lemma find_states_mono (g : Mat) (vis : Bool) (glob : Globals) :
    ∃ tail, ((find_shortest_path g vis glob).2).states = glob.states ++ tail := by
  rcases hinit : initializeLab g with _ | ⟨mask, st0, mdT⟩
  · unfold find_shortest_path
    rw [hinit]
    exact ⟨[], by simp⟩
  · unfold find_shortest_path
    rw [hinit]
    dsimp only
    rcases h1 : loopGo (rowsOf g) (colsOf g) mask mdT vis (fuelFor g) st0 0 0 1
        (glob.states ++ [st0]) with ⟨c1, a1⟩
    have ha : a1 = (glob.states ++ [st0]) ++
        (loopGo (rowsOf g) (colsOf g) mask mdT vis (fuelFor g) st0 0 0 1 []).2 := by
      have hs := loopGo_snd_acc (rowsOf g) (colsOf g) mask mdT vis
        (fuelFor g) st0 0 0 1 (glob.states ++ [st0])
      rw [h1] at hs
      exact hs
    refine ⟨[st0] ++
      (loopGo (rowsOf g) (colsOf g) mask mdT vis (fuelFor g) st0 0 0 1 []).2, ?_⟩
    cases c1 with
    | collided stF meets steps =>
      dsimp only
      cases hh : meets.head? with
      | none =>
        dsimp only
        rw [ha]
        simp
      | some m =>
        dsimp only
        cases hr : reconstructPath (rowsOf g) (colsOf g) stF m (fuelFor g) with
        | none =>
          dsimp only
          rw [ha]
          simp
        | some p =>
          dsimp only
          rw [ha]
          simp
    | stalled steps =>
      dsimp only
      rw [ha]
      simp
    | fuelOut =>
      dsimp only
      rw [ha]
      simp

lemma find_not_invalid {g : Mat} (hacc : Accepted g) (vis : Bool)
    (glob : Globals) :
    (find_shortest_path g vis glob).1 ≠ SolveRes.invalid := by
  unfold find_shortest_path
  rw [initializeLab_eq hacc]
  dsimp only
  rcases h1 : loopGo (rowsOf g) (colsOf g) (wallMask g) (mdTOf g) vis
      (fuelFor g) (initSt g (startOf g) (finishOf g)) 0 0 1
      (glob.states ++ [initSt g (startOf g) (finishOf g)]) with ⟨c1, a1⟩
  cases c1 with
  | collided stF meets steps =>
    dsimp only
    cases hh : meets.head? with
    | none => simp
    | some m =>
      dsimp only
      cases hr : reconstructPath (rowsOf g) (colsOf g) stF m (fuelFor g) with
      | none => simp
      | some p => simp
  | stalled steps => simp
  | fuelOut => simp

/-- Claim C1: for every accepted grid (of bounded size, so the int64
sentinels are faithful) in which start and finish are connected through
non-wall cells, `find_shortest_path` returns a path whose length minus
one equals the graph-theoretic shortest-path distance between the start
and finish cells over 4-adjacency restricted to non-wall cells. -/
theorem C1_path_optimal {g : Mat} (hrect : Rect g) (hacc : Accepted g)
    (hsg : SmallGrid g) (hconn : Connected g) (vis : Bool) (glob : Globals) :
    ∃ p steps D, (find_shortest_path g vis glob).1 = SolveRes.ok p steps ∧
      IsDist g (startOf g) (finishOf g) D ∧ p.length = D + 1 := by
  obtain ⟨D, sStar, m, hD, h2s, hmB, hrec, hall⟩ :=
    solver_ok hrect hacc hsg hconn vis glob
  obtain ⟨l1, l2, hws, hwf, hlen, -⟩ := hrec
  exact ⟨_, _, D, hall l1 l2 hws hwf, hD, hlen⟩

/-- Witness for C1 on the 1×2 grid `[[2,3]]`. -/
theorem C1_witness :
    ∃ p steps D, (find_shortest_path gPair false ⟨[], none⟩).1 =
      SolveRes.ok p steps ∧
      IsDist gPair (startOf gPair) (finishOf gPair) D ∧ p.length = D + 1 :=
  C1_path_optimal (by decide) (by decide) (by decide) ⟨1, by decide⟩ false
    ⟨[], none⟩

/-- Claim C2: for every accepted (bounded-size) grid, the solver returns
a non-empty path when start and finish are connected through non-wall
cells, and returns the no-path result (modelling `return None`, reached
from the stall test) when they are not. -/
theorem C2_completeness {g : Mat} (hrect : Rect g) (hacc : Accepted g)
    (hsg : SmallGrid g) (vis : Bool) (glob : Globals) :
    (Connected g → ∃ p steps,
      (find_shortest_path g vis glob).1 = SolveRes.ok p steps ∧ p ≠ []) ∧
    (¬Connected g → ∃ steps,
      (find_shortest_path g vis glob).1 = SolveRes.noPath steps) := by
  constructor
  · intro hconn
    obtain ⟨D, sStar, m, hD, h2s, hmB, hrec, hall⟩ :=
      solver_ok hrect hacc hsg hconn vis glob
    obtain ⟨l1, l2, hws, hwf, -⟩ := hrec
    exact ⟨(m :: l1).reverse ++ l2, sStar + 1, hall l1 l2 hws hwf, by simp⟩
  · intro hnconn
    obtain ⟨sD, -, -, hres⟩ := solver_stalled hrect hacc hsg hnconn vis glob
    exact ⟨sD + 1, hres⟩

/-- Witness for C2 on the 1×2 grid `[[2,3]]`. -/
theorem C2_witness :
    ∃ p steps, (find_shortest_path gPair false ⟨[], none⟩).1 =
      SolveRes.ok p steps ∧ p ≠ [] :=
  (C2_completeness (by decide) (by decide) (by decide) false ⟨[], none⟩).1
    ⟨1, by decide⟩

/-- Claim C3: for every accepted (bounded-size) grid, a returned path is
non-empty, its consecutive coordinates are 4-adjacent, all its
coordinates are non-wall cells, and its endpoints are the start and the
finish cell; a partially-built path is never returned. -/
theorem C3_path_valid {g : Mat} (hrect : Rect g) (hacc : Accepted g)
    (hsg : SmallGrid g) (vis : Bool) (glob : Globals) {p : List Cell}
    {steps : ℕ}
    (hres : (find_shortest_path g vis glob).1 = SolveRes.ok p steps) :
    p ≠ [] ∧ List.Chain' adjC p ∧ (∀ c ∈ p, nonwall g c) ∧
    p.head? = some (startOf g) ∧ p.getLast? = some (finishOf g) := by
  by_cases hconn : Connected g
  · obtain ⟨D, sStar, m, hD, h2s, hmB, hrec, hall⟩ :=
      solver_ok hrect hacc hsg hconn vis glob
    obtain ⟨l1, l2, hws, hwf, hlen, hhead, hlast, hchain, hnw, -⟩ := hrec
    have h2 := (hres.symm.trans (hall l1 l2 hws hwf))
    rw [SolveRes.ok.injEq] at h2
    obtain ⟨rfl, rfl⟩ := h2
    exact ⟨by simp, hchain, hnw, hhead, hlast⟩
  · obtain ⟨sD, -, -, hres2⟩ := solver_stalled hrect hacc hsg hconn vis glob
    rw [hres] at hres2
    exact absurd hres2 (by simp)

/-- Witness for C3 on the 1×2 grid `[[2,3]]`: the returned path is
`[(0,0),(0,1)]`. -/
theorem C3_witness :
    ([(0,0),(0,1)] : List Cell) ≠ [] ∧
    List.Chain' adjC ([(0,0),(0,1)] : List Cell) ∧
    (∀ c ∈ ([(0,0),(0,1)] : List Cell), nonwall gPair c) ∧
    ([(0,0),(0,1)] : List Cell).head? = some (startOf gPair) ∧
    ([(0,0),(0,1)] : List Cell).getLast? = some (finishOf gPair) :=
  @C3_path_valid gPair (by decide) (by decide) (by decide) false ⟨[], none⟩
    [(0,0),(0,1)] 1 (by decide)

set_option maxRecDepth 100000

/-- Claim C4 (corrected): on the 5×5 scenario grid the solver returns
the connected path `[(0,1),(1,1),(2,1),(2,2),(3,2),(4,2),(4,3)]` of
length 7 (6 moves), not a path of length 9 (8 moves) as the
specification states. -/
theorem C4_scenario_path :
    (find_shortest_path scenarioGrid false ⟨[], none⟩).1 =
      SolveRes.ok [(0,1),(1,1),(2,1),(2,2),(3,2),(4,2),(4,3)] 4 ∧
    pathLenOf (find_shortest_path scenarioGrid false ⟨[], none⟩).1 =
      some 7 := by
  have h : (find_shortest_path scenarioGrid false ⟨[], none⟩).1 =
      SolveRes.ok [(0,1),(1,1),(2,1),(2,2),(3,2),(4,2),(4,3)] 4 := by decide
  exact ⟨h, by rw [h]; rfl⟩

/-- Counterexample for C4 as stated: the returned path does not have
length 9. -/
theorem C4_cex :
    pathLenOf (find_shortest_path scenarioGrid false ⟨[], none⟩).1 ≠
      some 9 := by
  decide

/-- Claim C5 (corrected): for every accepted grid, `initialize` returns
as its lower bound the exact value `(manhattan - 1) / 2` — a possibly
half-integral float, NOT the integer floor the specification states
(the embedding carries twice the bound, so the third component below is
`manhattan - 1`); the bound is used only to gate the collision check,
never to gate propagation: whenever the collision gate is closed the
loop unconditionally advances the state by one propagation step. -/
theorem C5_lower_bound {g : Mat} (hacc : Accepted g) :
    initializeLab g = some (wallMask g, initSt g (startOf g) (finishOf g),
      manh (startOf g) (finishOf g) - 1) ∧
    ∀ (vis : Bool) (fuel : ℕ) (st : Mat) (pmn pmp : ℤ) (step : ℕ)
      (acc : List Mat),
      ¬(manh (startOf g) (finishOf g) - 1 ≤ 2 * (step : ℤ) ∧
          collAnyB (rowsOf g) (colsOf g) st = true) →
      loopGo (rowsOf g) (colsOf g) (wallMask g)
          (manh (startOf g) (finishOf g) - 1) vis (fuel+1) st pmn pmp step acc
        =
        (if 1 < |maxPos (rowsOf g) (colsOf g)
              (stepMat (rowsOf g) (colsOf g) (wallMask g) st) +
            minNeg (rowsOf g) (colsOf g)
              (stepMat (rowsOf g) (colsOf g) (wallMask g) st)| ∨
            (minNeg (rowsOf g) (colsOf g)
              (stepMat (rowsOf g) (colsOf g) (wallMask g) st) = pmn ∧
             maxPos (rowsOf g) (colsOf g)
              (stepMat (rowsOf g) (colsOf g) (wallMask g) st) = pmp)
         then (LoopCore.stalled (step+1),
           if vis then acc ++ [stepMat (rowsOf g) (colsOf g) (wallMask g) st]
           else acc)
         else loopGo (rowsOf g) (colsOf g) (wallMask g)
           (manh (startOf g) (finishOf g) - 1) vis fuel
           (stepMat (rowsOf g) (colsOf g) (wallMask g) st)
           (minNeg (rowsOf g) (colsOf g)
             (stepMat (rowsOf g) (colsOf g) (wallMask g) st))
           (maxPos (rowsOf g) (colsOf g)
             (stepMat (rowsOf g) (colsOf g) (wallMask g) st))
           (step+1)
           (if vis then acc ++ [stepMat (rowsOf g) (colsOf g) (wallMask g) st]
            else acc)) := by
  constructor
  · rw [initializeLab_eq hacc, mdTOf_eq]
  · intro vis fuel st pmn pmp step acc h
    simp only [loopGo]
    rw [if_neg h]

/-- Witness for C5 on the 1×2 grid `[[2,3]]`. -/
theorem C5_witness :
    initializeLab gPair = some (wallMask gPair,
      initSt gPair (startOf gPair) (finishOf gPair),
      manh (startOf gPair) (finishOf gPair) - 1) :=
  (C5_lower_bound (by decide)).1

/-- Counterexample for C5 as stated: on the 1×5 grid `[[2,1,1,1,3]]`
the manhattan distance is 4, so the claimed floored bound is
`floor(3/2) = 1` (doubled: 2), but the code stores the exact value
`3/2` (doubled: 3). -/
theorem C5_cex :
    (initializeLab gRow).map (fun t => t.2.2) = some 3 ∧
    2 * ((manh (startOf gRow) (finishOf gRow) - 1) / 2) = 2 ∧
    (3 : ℤ) ≠ 2 := by
  decide

/-- Claim C6: a solve fails with the validation error (modelled
`SolveRes.invalid`, from `sys.exit()` in `initialize`) exactly when the
grid does not have exactly one start and one finish cell, and in that
case nothing else happens: the result pair carries the globals
unchanged, so no partial result is produced; for accepted grids the
validation error never occurs. -/
theorem C6_validation (g : Mat) (vis : Bool) (glob : Globals) :
    ((find_shortest_path g vis glob).1 = SolveRes.invalid ↔ ¬Accepted g) ∧
    (¬Accepted g → find_shortest_path g vis glob = (SolveRes.invalid, glob))
    := by
  have hinv : ¬Accepted g → find_shortest_path g vis glob =
      (SolveRes.invalid, glob) := by
    intro h
    unfold find_shortest_path
    rw [initializeLab_none h]
  refine ⟨⟨?_, fun h => by rw [hinv h]⟩, hinv⟩
  intro h
  by_cases hacc : Accepted g
  · exact absurd h (find_not_invalid hacc vis glob)
  · exact hacc

/-- Claim C7: each wall cell's state entry is 0 after every number of
propagation steps, and a cell's entry, once nonzero, is never changed
(neither sign nor magnitude) by any later propagation step. -/
theorem C7_field_invariants {g : Mat} (hacc : Accepted g) :
    (∀ (c : Cell) (s : ℕ), g2 g c.1 c.2 = 0 → g2 (stA g s) c.1 c.2 = 0) ∧
    (∀ (c : Cell) (s t : ℕ), g2 (stA g s) c.1 c.2 ≠ 0 →
      g2 (stA g (s + t)) c.1 c.2 = g2 (stA g s) c.1 c.2) :=
  ⟨fun _ s hw => stA_wall_zero hacc hw s, fun _ _ t h => stA_persist h t⟩

/-- Witness for C7 on the 1×3 grid `[[2,0,3]]` with a wall at (0,1). -/
theorem C7_witness :
    g2 (stA gCut 2) 0 1 = 0 ∧ g2 (stA gCut 3) 0 0 = g2 (stA gCut 1) 0 0 :=
  ⟨(C7_field_invariants (by decide)).1 (0,1) 2 (by decide),
   (C7_field_invariants (by decide)).2 (0,0) 1 2 (by decide)⟩

/-- Claim C8 (corrected): for every accepted connected (bounded-size)
grid the two greedy walks terminate and the returned path is the
reversed toward-start walk followed by the toward-finish walk, with the
meet point included exactly once and no cell revisited; every step of
the toward-start walk moves to a value exactly one lower when the
current value is positive, and every step of the toward-finish walk
moves to a value exactly one higher when the current value is negative
(`DStep`/`UStep`) — but the first step off the meet point is a
cross-sign hop whenever the meet point's sign does not match the walk,
so the value does not always change by exactly 1 as the specification
states. -/
theorem C8_reconstruction {g : Mat} (hrect : Rect g) (hacc : Accepted g)
    (hsg : SmallGrid g) (hconn : Connected g) (vis : Bool) (glob : Globals) :
    ∃ sStar m l1 l2,
      walkS (rowsOf g) (colsOf g) (stA g sStar) (fuelFor g) m [m] =
        some (m :: l1) ∧
      walkF (rowsOf g) (colsOf g) (stA g sStar) (fuelFor g) m
        (m :: l1).reverse = some ((m :: l1).reverse ++ l2) ∧
      (find_shortest_path g vis glob).1 =
        SolveRes.ok ((m :: l1).reverse ++ l2) (sStar + 1) ∧
      List.Chain' (DStep (stA g sStar)) (m :: l1) ∧
      List.Chain' (UStep (stA g sStar)) (m :: l2) ∧
      ((m :: l1).reverse ++ l2).Nodup ∧
      (m :: l1).reverse ++ l2 = l1.reverse ++ m :: l2 ∧
      m ∉ l1 ∧ m ∉ l2 := by
  obtain ⟨D, sStar, m, hD, h2s, hmB, hrec, hall⟩ :=
    solver_ok hrect hacc hsg hconn vis glob
  obtain ⟨l1, l2, hws, hwf, hlen, hhead, hlast, hchain, hnw, hnodup,
    hdstep, hustep, -⟩ := hrec
  have hsplit : (m :: l1).reverse ++ l2 = l1.reverse ++ m :: l2 := by
    rw [List.reverse_cons, List.append_assoc]
    rfl
  rw [hsplit] at hnodup
  obtain ⟨hn1, hn2, hdisj⟩ := List.nodup_append.mp hnodup
  refine ⟨sStar, m, l1, l2, hws, hwf, hall l1 l2 hws hwf, hdstep, hustep,
    by rw [hsplit]; exact hnodup, hsplit, ?_, ?_⟩
  · intro hmem
    exact hdisj (List.mem_reverse.mpr hmem) (List.mem_cons_self m l2)
  · exact (List.nodup_cons.mp hn2).1

/-- Witness for C8 on the 1×2 grid `[[2,3]]`. -/
theorem C8_witness :
    ∃ sStar m l1 l2,
      walkS (rowsOf gPair) (colsOf gPair) (stA gPair sStar) (fuelFor gPair)
        m [m] = some (m :: l1) ∧
      walkF (rowsOf gPair) (colsOf gPair) (stA gPair sStar) (fuelFor gPair)
        m (m :: l1).reverse = some ((m :: l1).reverse ++ l2) ∧
      (find_shortest_path gPair false ⟨[], none⟩).1 =
        SolveRes.ok ((m :: l1).reverse ++ l2) (sStar + 1) ∧
      List.Chain' (DStep (stA gPair sStar)) (m :: l1) ∧
      List.Chain' (UStep (stA gPair sStar)) (m :: l2) ∧
      ((m :: l1).reverse ++ l2).Nodup ∧
      (m :: l1).reverse ++ l2 = l1.reverse ++ m :: l2 ∧
      m ∉ l1 ∧ m ∉ l2 :=
  C8_reconstruction (by decide) (by decide) (by decide) ⟨1, by decide⟩ false
    ⟨[], none⟩

/-- Counterexample for C8 as stated: on the 2×1 grid `[[3],[2]]` the
meet point is the finish cell `(0,0)` with value `-1`; the toward-start
walk steps from it to `(1,0)` with value `+1`, a jump of `+2`, so that
step does not strictly decrease a positive value by exactly 1. -/
theorem C8_cex :
    (find_shortest_path gVert false ⟨[], none⟩).1 =
      SolveRes.ok [(1,0),(0,0)] 1 ∧
    walkS (rowsOf gVert) (colsOf gVert) (stA gVert 0) (fuelFor gVert)
      (0,0) [(0,0)] = some [(0,0),(1,0)] ∧
    g2 (stA gVert 0) 0 0 = -1 ∧
    ¬ (g2 (stA gVert 0) 1 0 = g2 (stA gVert 0) 0 0 - 1) := by
  decide

/-- Claim C9: the solver's result does not depend on the ambient trace
buffer or on the visualization flag: calls with different incoming
globals (and different flags) return the same result, and a call only
appends to the `states` trace it was given, so no state written by one
invocation affects a later one. -/
theorem C9_no_residual (g : Mat) (vis vis' : Bool) (glob glob' : Globals) :
    (find_shortest_path g vis glob).1 =
      (find_shortest_path g vis' glob').1 ∧
    ∃ tail, ((find_shortest_path g vis glob).2).states =
      glob.states ++ tail :=
  ⟨find_fst_congr g vis vis' glob glob', find_states_mono g vis glob⟩

/-- Claim C10: for every accepted connected (bounded-size) grid, along
the walks actually taken from the chosen meet point, every visited cell
whose value is not the terminal `+1` (resp. `-1`) has a 4-neighbour in
the scan's candidate list with a positive value (resp. a negative value
above the `-1000000000` sentinel), so the scans' `(0,0)`-sentinel
fallback branches are unreachable. -/
theorem C10_fallback_unreachable {g : Mat} (hrect : Rect g)
    (hacc : Accepted g) (hsg : SmallGrid g) (hconn : Connected g)
    (vis : Bool) (glob : Globals) :
    ∃ sStar m l1 l2,
      walkS (rowsOf g) (colsOf g) (stA g sStar) (fuelFor g) m [m] =
        some (m :: l1) ∧
      walkF (rowsOf g) (colsOf g) (stA g sStar) (fuelFor g) m
        (m :: l1).reverse = some ((m :: l1).reverse ++ l2) ∧
      (find_shortest_path g vis glob).1 =
        SolveRes.ok ((m :: l1).reverse ++ l2) (sStar + 1) ∧
      (∀ c ∈ m :: l1, g2 (stA g sStar) c.1 c.2 ≠ 1 →
        ∃ d ∈ nbrList (rowsOf g) (colsOf g) c.1 c.2,
          0 < g2 (stA g sStar) d.1 d.2) ∧
      (∀ c ∈ m :: l2, g2 (stA g sStar) c.1 c.2 ≠ -1 →
        ∃ d ∈ nbrList (rowsOf g) (colsOf g) c.1 c.2,
          g2 (stA g sStar) d.1 d.2 < 0 ∧
          -1000000000 < g2 (stA g sStar) d.1 d.2) := by
  obtain ⟨D, sStar, m, hD, h2s, hmB, hrec, hall⟩ :=
    solver_ok hrect hacc hsg hconn vis glob
  obtain ⟨l1, l2, hws, hwf, hlen, hhead, hlast, hchain, hnw, hnodup,
    hdstep, hustep, hnbrS, hnbrF⟩ := hrec
  exact ⟨sStar, m, l1, l2, hws, hwf, hall l1 l2 hws hwf, hnbrS, hnbrF⟩

/-- Witness for C10 on the 1×2 grid `[[2,3]]`. -/
theorem C10_witness :
    ∃ sStar m l1 l2,
      walkS (rowsOf gPair) (colsOf gPair) (stA gPair sStar) (fuelFor gPair)
        m [m] = some (m :: l1) ∧
      walkF (rowsOf gPair) (colsOf gPair) (stA gPair sStar) (fuelFor gPair)
        m (m :: l1).reverse = some ((m :: l1).reverse ++ l2) ∧
      (find_shortest_path gPair false ⟨[], none⟩).1 =
        SolveRes.ok ((m :: l1).reverse ++ l2) (sStar + 1) ∧
      (∀ c ∈ m :: l1, g2 (stA gPair sStar) c.1 c.2 ≠ 1 →
        ∃ d ∈ nbrList (rowsOf gPair) (colsOf gPair) c.1 c.2,
          0 < g2 (stA gPair sStar) d.1 d.2) ∧
      (∀ c ∈ m :: l2, g2 (stA gPair sStar) c.1 c.2 ≠ -1 →
        ∃ d ∈ nbrList (rowsOf gPair) (colsOf gPair) c.1 c.2,
          g2 (stA gPair sStar) d.1 d.2 < 0 ∧
          -1000000000 < g2 (stA gPair sStar) d.1 d.2) :=
  C10_fallback_unreachable (by decide) (by decide) (by decide)
    ⟨1, by decide⟩ false ⟨[], none⟩
